import Mathlib

/-!
# Verification of the job-crawler bot against its specification

A shallow embedding, in Lean 4, of the heuristic core of
`job_crawler_bot.py`: URL canonicalization (via a model of CPython 3.11's
`urllib.parse`), date extraction (via a model of `datetime.strptime` and the
module's `DATE_RE` regular expression), the posting classifier, career-page
discovery, job-link extraction, the Telegram send step, and the crawl
orchestrator.  HTML documents are represented by the parts of the parsed
tree that the code inspects (anchors, `ld+json` items, `<time>` tags, text
nodes and headings); network and rendering results are supplied by oracles,
so that a crawl run is a pure function of those oracles.

Modelling conventions, used throughout:
* Python strings are Lean `String`s; `str.lower` is modelled for the ASCII
  range (URLs and the fixed keyword lists are ASCII).
* Python `set`s are modelled as insertion-ordered duplicate-free lists.
* A Python function that can raise returns `Option`; `try/except` is the
  corresponding `match`.
-/

set_option maxHeartbeats 1000000

namespace JobCrawler

/-! ## Python string helpers -/

/-- Python `\s` / `str.isspace` for the ASCII range. -/
def pyIsSpace (c : Char) : Bool :=
  c = ' ' || c = '\t' || c = '\n' || c = '\r' || c = '\x0b' || c = '\x0c'

/-- ASCII case folding of a single character (Python `str.lower`,
restricted to ASCII). -/
def lowerChar (c : Char) : Char :=
  if 'A' ≤ c && c ≤ 'Z' then Char.ofNat (c.toNat + 32) else c

/-- Python `str.lower`, restricted to ASCII. -/
def pyLower (s : String) : String := ⟨s.data.map lowerChar⟩

/-- `needle` is a prefix of `hay` (on character lists). -/
def isPrefixCh : List Char → List Char → Bool
  | [], _ => true
  | _ :: _, [] => false
  | a :: as, b :: bs => a = b && isPrefixCh as bs

/-- `needle` occurs as a contiguous substring of `hay` (character lists). -/
def containsSeq (needle : List Char) : List Char → Bool
  | [] => needle.isEmpty
  | c :: cs => isPrefixCh needle (c :: cs) || containsSeq needle cs

/-- Python `needle in hay` on strings (substring containment). -/
def pyIn (needle hay : String) : Bool := containsSeq needle.data hay.data

/-- Python truthiness of an optional string (`None` and `""` are falsy). -/
def truthyS : Option String → Option String
  | some s => if s = "" then none else some s
  | none => none

/-- Python `a or b` for optional strings under truthiness. -/
def pyOrS (a b : Option String) : Option String :=
  match truthyS a with
  | some s => some s
  | none => truthyS b

/-- `\d` (ASCII). -/
def isDig (c : Char) : Bool := '0' ≤ c && c ≤ '9'

/-- Numeric value of a digit character. -/
def dval (c : Char) : Nat := c.toNat - 48

/-- `collapse_spaces`: `re.sub(r"\s+"," ", s or "").strip()` — split the
string into maximal non-whitespace runs and re-join them with single
spaces. -/
def collapse_spaces (s : String) : String :=
  String.intercalate " " (((s.data.splitOnP pyIsSpace).map
    (fun l => (⟨l⟩ : String))).filter (fun w => w ≠ ""))

/-! ## Python sets, modelled as insertion-ordered duplicate-free lists -/

/-- `s.add(x)` for a Python set. -/
def setAdd (s : List String) (x : String) : List String :=
  if x ∈ s then s else s ++ [x]

/-- `set(xs)` for a Python list: keep the first occurrence of each
element. -/
def setOf (xs : List String) : List String := xs.foldl setAdd []

/-- Set union `s |= t` (element insertion order: `s` first, then new
elements of `t`). -/
def setUnion (s t : List String) : List String := t.foldl setAdd s

theorem mem_setAdd (s : List String) (x y : String) :
    y ∈ setAdd s x ↔ y ∈ s ∨ y = x := by
  unfold setAdd
  split
  · next h => constructor
              · intro hy; exact Or.inl hy
              · rintro (hy | rfl)
                · exact hy
                · exact h
  · simp [List.mem_append]

theorem mem_foldl_setAdd (xs : List String) (init : List String) (y : String) :
    y ∈ xs.foldl setAdd init ↔ y ∈ init ∨ y ∈ xs := by
  induction xs generalizing init with
  | nil => simp
  | cons x xs ih =>
      simp only [List.foldl_cons, ih, mem_setAdd, List.mem_cons]
      tauto

theorem mem_setOf (xs : List String) (y : String) : y ∈ setOf xs ↔ y ∈ xs := by
  unfold setOf
  rw [mem_foldl_setAdd]
  simp

/-! ## The parsed-page model

`BeautifulSoup(html, "html.parser")` is modelled by the parts of the parse
tree that the bot inspects.  `ldJsonItems` holds, flattened, every JSON
object found in an `application/ld+json` script that parsed successfully
(an unparseable script or a non-object list entry simply contributes
nothing, matching the `try/except` around `json.loads`). -/

/-- One JSON object from an `application/ld+json` script: the fields the
bot reads. -/
structure LdItem where
  atType : String
  datePosted : Option String
  validThrough : Option String
  locality : Option String
  region : Option String
  country : Option String
deriving DecidableEq, Repr

/-- One `<time>` element: its `datetime` attribute, its `aria-label`
attribute, and its text content. -/
structure TimeTag where
  datetimeAttr : Option String
  ariaLabel : Option String
  text : String
deriving DecidableEq, Repr

/-- One `<a href=...>` element: its `href` attribute and its text. -/
structure Anchor where
  href : String
  text : String
deriving DecidableEq, Repr

/-- The parsed document, restricted to what the bot reads. `textNodes` is
the document's list of text nodes, so `soup.get_text(sep)` is their
`sep`-join. -/
structure Soup where
  anchors : List Anchor
  ldJsonItems : List LdItem
  timeTags : List TimeTag
  textNodes : List String
  ogTitle : Option String
  titleText : Option String
  h1 : Option String
  h2 : Option String
  h3 : Option String
  h4 : Option String
deriving DecidableEq, Repr

/-- A soup with no content at all. -/
def Soup.empty : Soup := ⟨[], [], [], [], none, none, none, none, none, none⟩

/-- `soup.get_text(sep)`. -/
def Soup.getText (soup : Soup) (sep : String) : String :=
  String.intercalate sep soup.textNodes

/-! ## Persistence: `load_sent` -/

/-- The possible states of `sent_jobs.json` as far as `load_sent` can
observe them: the file does not exist; the file exists but opening,
JSON-decoding, or `set(...)`-conversion raises; or the file holds a JSON
array of strings (which is the only thing `save_sent` ever writes). -/
inductive StoreFile where
  | absent : StoreFile
  | unreadable : StoreFile
  | stored : List String → StoreFile
deriving DecidableEq, Repr

/-- `load_sent`: `set(json.load(f))` guarded by `os.path.exists` and a
bare `except` that returns `set()`. -/
def load_sent : StoreFile → List String
  | .absent => []
  | .unreadable => []
  | .stored ks => setOf ks

/-! ## A model of `urllib.parse` (CPython 3.11)

`urlsplit`, `urlunsplit`, `urljoin`, `urlparse`, `parse_qsl`, `urlencode`,
`quote_plus` and `unquote` as the bot uses them.  Raising `ValueError` is
modelled by returning `none`.  Two documented simplifications: the NFKC
confusable-character check of `_checknetloc` is modelled as never firing
(NFKC is treated as the identity), and `ipaddress`'s bracketed-host
validation is modelled by a syntactic check (hex digits, `:`, `.`, `%`,
with at least one `:`).  `str.lower` is ASCII, as stated above. -/

/-- `scheme_chars`. -/
def schemeChars : List Char :=
  "abcdefghijklmnopqrstuvwxyzABCDEFGHIJKLMNOPQRSTUVWXYZ0123456789+-.".data

/-- Leading C0-control-or-space characters, stripped by `urlsplit`. -/
def isC0OrSpace (c : Char) : Bool := c.toNat ≤ 32

/-- `\t`, `\r`, `\n`: removed everywhere by `urlsplit`. -/
def isUnsafeUrlByte (c : Char) : Bool := c = '\t' || c = '\r' || c = '\n'

/-- ASCII letter (`url[0].isascii() and url[0].isalpha()`). -/
def isAsciiAlpha (c : Char) : Bool := ('a' ≤ c && c ≤ 'z') || ('A' ≤ c && c ≤ 'Z')

/-- The scheme lists of `urllib.parse` that the modelled functions
consult. -/
def uses_netloc : List String :=
  ["", "ftp", "http", "gopher", "nntp", "telnet",
   "imap", "wais", "file", "mms", "https", "shttp",
   "snews", "prospero", "rtsp", "rtsps", "rtspu", "rsync",
   "svn", "svn+ssh", "sftp", "nfs", "git", "git+ssh",
   "ws", "wss"]

def uses_relative : List String :=
  ["", "ftp", "http", "gopher", "nntp", "imap",
   "wais", "file", "https", "shttp", "mms",
   "prospero", "rtsp", "rtsps", "rtspu", "sftp",
   "svn", "svn+ssh", "ws", "wss"]

def uses_params : List String :=
  ["", "ftp", "hdl", "prospero", "http", "imap",
   "https", "shttp", "rtsp", "rtsps", "rtspu", "sip",
   "sips", "mms", "sftp", "tel"]

/-- The result of `urlsplit`. -/
structure SplitResult where
  scheme : String
  netloc : String
  path : String
  query : String
  fragment : String
deriving DecidableEq, Repr

/-- Simplified model of `_check_bracketed_host` (CPython validates via
`ipaddress`): accept IPvFuture `v<hex>.<something>` and anything that
looks like an IPv6 literal. -/
def bracketedHostOk (host : List Char) : Bool :=
  match host with
  | 'v' :: rest =>
      let hexPart := rest.takeWhile (fun c => isDig c || ('a' ≤ c && c ≤ 'f') || ('A' ≤ c && c ≤ 'F'))
      decide (hexPart ≠ []) && (match rest.drop hexPart.length with
        | '.' :: tl => decide (tl ≠ [])
        | _ => false)
  | _ =>
      host.all (fun c => isDig c || ('a' ≤ c && c ≤ 'f') || ('A' ≤ c && c ≤ 'F') ||
        c = ':' || c = '.' || c = '%') && host.contains ':'

/-- The sanitisation `urlsplit` applies first: strip leading
C0-control/space characters, remove every tab, CR and LF. -/
def sanitizeUrl (url : String) : List Char :=
  (url.data.dropWhile isC0OrSpace).filter (fun c => !isUnsafeUrlByte c)

/-- Scheme detection of `urlsplit`: a valid scheme before the first `:`
is split off and lower-cased, otherwise the default scheme is used. -/
def schemeOf (cs : List Char) (defaultScheme : String) : String × List Char :=
  match cs.findIdx? (fun c => c = ':') with
  | some i =>
      if 0 < i && (match cs.head? with | some c0 => isAsciiAlpha c0 | none => false) &&
          (cs.take i).all (fun c => schemeChars.contains c) then
        ((⟨(cs.take i).map lowerChar⟩ : String), cs.drop (i + 1))
      else ((⟨defaultScheme.data⟩ : String), cs)
  | none => ((⟨defaultScheme.data⟩ : String), cs)

/-- The bracket validation `urlsplit` performs on an extracted netloc. -/
def netlocCheck (nl : List Char) : Bool :=
  if nl.contains '[' || nl.contains ']' then
    if nl.contains '[' && nl.contains ']' then
      bracketedHostOk (((nl.dropWhile (fun c => c ≠ '[')).drop 1).takeWhile (fun c => c ≠ ']'))
    else false
  else true

/-- Netloc extraction of `urlsplit` (`url[:2] == '//'`): the validation
flag, the netloc, and the remaining characters. -/
def netlocOf (rest : List Char) : Bool × List Char × List Char :=
  match rest with
  | '/' :: '/' :: tl =>
      let nl := tl.takeWhile (fun c => c ≠ '/' && c ≠ '?' && c ≠ '#')
      (netlocCheck nl, nl, tl.drop nl.length)
  | _ => (true, [], rest)

/-- Split at the first `#` (fragment separation). -/
def fragSplit (cs : List Char) : List Char × List Char :=
  match cs.findIdx? (fun c => c = '#') with
  | some i => (cs.take i, cs.drop (i + 1))
  | none => (cs, [])

/-- Split at the first `?` (query separation). -/
def querySplit (cs : List Char) : List Char × List Char :=
  match cs.findIdx? (fun c => c = '?') with
  | some i => (cs.take i, cs.drop (i + 1))
  | none => (cs, [])

/-- `urlsplit(url, scheme)`, `allow_fragments=True`; `none` models
`ValueError`. -/
def urlsplitE (url : String) (defaultScheme : String) : Option SplitResult :=
  let cs := sanitizeUrl url
  let (scheme, rest) := schemeOf cs defaultScheme
  let (netlocOk, netloc, rest2) := netlocOf rest
  if netlocOk then
    let (rest3, fragment) := fragSplit rest2
    let (path, query) := querySplit rest3
    some ⟨scheme, ⟨netloc⟩, ⟨path⟩, ⟨query⟩, ⟨fragment⟩⟩
  else none

/-- `s.startswith(p)` / `s.endswith(p)` on our string model. -/
def strStarts (s p : String) : Bool := isPrefixCh p.data s.data

def strEnds (s p : String) : Bool := isPrefixCh p.data.reverse s.data.reverse

/-- `urlunsplit` (CPython 3.11). -/
def urlunsplit (c : SplitResult) : String :=
  let u1 :=
    if c.netloc ≠ "" ||
        (c.scheme ≠ "" && uses_netloc.contains c.scheme && !strStarts c.path "//") then
      let p := if c.path ≠ "" && !strStarts c.path "/" then "/" ++ c.path else c.path
      "//" ++ c.netloc ++ p
    else c.path
  let u2 := if c.scheme ≠ "" then c.scheme ++ ":" ++ u1 else u1
  let u3 := if c.query ≠ "" then u2 ++ "?" ++ c.query else u2
  if c.fragment ≠ "" then u3 ++ "#" ++ c.fragment else u3

/-! ### Percent-encoding -/

/-- `_ALWAYS_SAFE`: ASCII letters, digits, and `_.-~`. -/
def alwaysSafe (c : Char) : Bool :=
  isAsciiAlpha c || isDig c || c = '_' || c = '.' || c = '-' || c = '~'

/-- Upper-case hex digit of `n < 16`. -/
def hexUpper (n : Nat) : Char :=
  if n < 10 then Char.ofNat (48 + n) else Char.ofNat (55 + n)

/-- Value of a hex digit character (both cases). -/
def hexVal (c : Char) : Option Nat :=
  if isDig c then some (dval c)
  else if 'a' ≤ c && c ≤ 'f' then some (c.toNat - 87)
  else if 'A' ≤ c && c ≤ 'F' then some (c.toNat - 55)
  else none

/-- UTF-8 bytes of a code point. -/
def utf8Bytes (n : Nat) : List Nat :=
  if n < 0x80 then [n]
  else if n < 0x800 then [0xC0 + n / 64, 0x80 + n % 64]
  else if n < 0x10000 then [0xE0 + n / 4096, 0x80 + n / 64 % 64, 0x80 + n % 64]
  else [0xF0 + n / 262144, 0x80 + n / 4096 % 64, 0x80 + n / 64 % 64, 0x80 + n % 64]

/-- `%XX` for one byte. -/
def byteToPct (b : Nat) : List Char := ['%', hexUpper (b / 16), hexUpper (b % 16)]

/-- `quote_plus(s)` with `safe=''`: spaces to `+`, always-safe characters
kept, every other character's UTF-8 bytes percent-encoded. -/
def quotePlusChar (c : Char) : List Char :=
  if c = ' ' then ['+']
  else if alwaysSafe c then [c]
  else (utf8Bytes c.toNat).flatMap byteToPct

def quote_plus (s : String) : String := ⟨s.data.flatMap quotePlusChar⟩

/-- UTF-8 decoding of a byte run, one replacement character per
undecodable byte (`errors='replace'`, simplified). -/
def isContB (b : Nat) : Bool := 0x80 ≤ b && b ≤ 0xBF

def replChar : Char := Char.ofNat 0xFFFD

/-- Fuel-indexed UTF-8 decoding (the fuel is the list length, and at least
one byte is consumed per step, so the fuel never runs out). -/
def utf8DecF : Nat → List Nat → List Char
  | _, [] => []
  | 0, _ :: _ => []
  | n + 1, b :: bs =>
      if b < 0x80 then Char.ofNat b :: utf8DecF n bs
      else if 0xC2 ≤ b && b ≤ 0xDF then
        match bs with
        | b2 :: bs2 =>
            if isContB b2 then Char.ofNat ((b - 0xC0) * 64 + (b2 - 0x80)) :: utf8DecF n bs2
            else replChar :: utf8DecF n bs
        | [] => [replChar]
      else if 0xE0 ≤ b && b ≤ 0xEF then
        match bs with
        | b2 :: b3 :: bs3 =>
            if isContB b2 && isContB b3 then
              Char.ofNat ((b - 0xE0) * 4096 + (b2 - 0x80) * 64 + (b3 - 0x80)) :: utf8DecF n bs3
            else replChar :: utf8DecF n bs
        | _ => [replChar]
      else if 0xF0 ≤ b && b ≤ 0xF4 then
        match bs with
        | b2 :: b3 :: b4 :: bs4 =>
            if isContB b2 && isContB b3 && isContB b4 then
              Char.ofNat ((b - 0xF0) * 262144 + (b2 - 0x80) * 4096 + (b3 - 0x80) * 64 +
                (b4 - 0x80)) :: utf8DecF n bs4
            else replChar :: utf8DecF n bs
        | _ => [replChar]
      else replChar :: utf8DecF n bs

def utf8Dec (bs : List Nat) : List Char := utf8DecF bs.length bs

/-- Tokenize a percent-encoded string: each valid `%XX` becomes a byte,
anything else stays a literal character. -/
def pctTokens : List Char → List (Nat ⊕ Char)
  | '%' :: a :: b :: cs =>
      match hexVal a, hexVal b with
      | some x, some y => Sum.inl (16 * x + y) :: pctTokens cs
      | _, _ => Sum.inr '%' :: pctTokens (a :: b :: cs)
  | c :: cs => Sum.inr c :: pctTokens cs
  | [] => []

/-- Decode the token stream: maximal byte runs are decoded as UTF-8
(matching `unquote`, which decodes each maximal escape run). -/
def decodeTokens (acc : List Nat) : List (Nat ⊕ Char) → List Char
  | [] => utf8Dec acc.reverse
  | Sum.inl b :: ts => decodeTokens (b :: acc) ts
  | Sum.inr c :: ts => utf8Dec acc.reverse ++ c :: decodeTokens [] ts

/-- `unquote(s)` (`encoding='utf-8'`, `errors='replace'`). -/
def pyUnquote (s : String) : String := ⟨decodeTokens [] (pctTokens s.data)⟩

/-- `s.replace('+', ' ')` followed by `unquote`, as `parse_qsl` does for
each field. -/
def unquotePlus (s : String) : String :=
  pyUnquote ⟨s.data.map (fun c => if c = '+' then ' ' else c)⟩

/-! ### `parse_qsl` and `urlencode` -/

/-- `s.split(sep)` for a single-character separator (Python semantics:
splitting the empty string gives `[""]`). -/
def splitOnChar (sep : Char) : List Char → List (List Char)
  | [] => [[]]
  | c :: cs =>
      if c = sep then [] :: splitOnChar sep cs
      else match splitOnChar sep cs with
        | [] => [[c]]
        | h :: t => (c :: h) :: t

/-- `s.split('=', 1)`. -/
def splitFirstEq (cs : List Char) : Option (List Char × List Char) :=
  match cs.findIdx? (fun c => c = '=') with
  | some i => some (cs.take i, cs.drop (i + 1))
  | none => none

/-- `parse_qsl(qs, keep_blank_values=True)`. -/
def parse_qsl (qs : String) : List (String × String) :=
  if qs = "" then []
  else
    (splitOnChar '&' qs.data).filterMap (fun nv =>
      if nv = [] then none
      else match splitFirstEq nv with
        | none => some (unquotePlus ⟨nv⟩, "")
        | some (n, v) => some (unquotePlus ⟨n⟩, unquotePlus ⟨v⟩))

/-- `urlencode(pairs, doseq=True)` over string pairs. -/
def urlencode (ps : List (String × String)) : String :=
  String.intercalate "&" (ps.map (fun p => quote_plus p.1 ++ "=" ++ quote_plus p.2))

/-! ### `urlparse`, `urlunparse`, `urljoin` -/

/-- Index of the last occurrence of `c`, if any. -/
def rlastIdx (c : Char) (cs : List Char) : Option Nat :=
  match cs.reverse.findIdx? (fun d => d = c) with
  | some i => some (cs.length - 1 - i)
  | none => none

/-- `_splitparams`. -/
def splitparams (url : String) : String × String :=
  if url.data.contains '/' then
    match rlastIdx '/' url.data with
    | some r =>
        match (url.data.drop r).findIdx? (fun c => c = ';') with
        | some j => (⟨url.data.take (r + j)⟩, ⟨url.data.drop (r + j + 1)⟩)
        | none => (url, "")
    | none => (url, "")
  else
    match url.data.findIdx? (fun c => c = ';') with
    | some i => (⟨url.data.take i⟩, ⟨url.data.drop (i + 1)⟩)
    | none => (url, "")

/-- `urlparse(url, scheme)`: a split result plus the `params`
component. -/
def urlparseE (url : String) (defaultScheme : String) :
    Option (SplitResult × String) :=
  match urlsplitE url defaultScheme with
  | none => none
  | some r =>
      if uses_params.contains r.scheme && r.path.data.contains ';' then
        let (p, params) := splitparams r.path
        some ({ r with path := p }, params)
      else some (r, "")

/-- `urlunparse`. -/
def urlunparse (r : SplitResult) (params : String) : String :=
  if params ≠ "" then urlunsplit { r with path := r.path ++ ";" ++ params }
  else urlunsplit r

/-- `urljoin(base, url)` (CPython 3.11); `none` models `ValueError`. -/
def urljoinE (base url : String) : Option String :=
  if base = "" then some url
  else if url = "" then some base
  else
    match urlparseE base "" with
    | none => none
    | some (b, bparams) =>
        match urlparseE url b.scheme with
        | none => none
        | some (u, uparams) =>
            if u.scheme ≠ b.scheme || !uses_relative.contains u.scheme then some url
            else
              let u := if uses_netloc.contains u.scheme && u.netloc = "" then
                  { u with netloc := b.netloc } else u
              if uses_netloc.contains u.scheme && u.netloc ≠ b.netloc then
                some (urlunparse u uparams)
              else
                if u.path = "" && uparams = "" then
                  some (urlunparse
                    { u with path := b.path,
                             query := if u.query = "" then b.query else u.query }
                    bparams)
                else
                  let baseParts :=
                    let bp := splitOnChar '/' b.path.data
                    if bp.getLast? = some [] then bp else bp.dropLast
                  let segments :=
                    if strStarts u.path "/" then splitOnChar '/' u.path.data
                    else
                      match baseParts ++ splitOnChar '/' u.path.data with
                      | [] => []
                      | s :: tl =>
                          match tl.reverse with
                          | [] => [s]
                          | lastSeg :: midRev =>
                              s :: (midRev.reverse.filter (fun seg => seg ≠ [])) ++ [lastSeg]
                  let resolved := segments.foldl
                    (fun acc seg =>
                      if seg = ['.', '.'] then acc.dropLast
                      else if seg = ['.'] then acc
                      else acc ++ [seg])
                    ([] : List (List Char))
                  let resolved :=
                    if segments.getLast? = some ['.'] || segments.getLast? = some ['.', '.'] then
                      resolved ++ [[]]
                    else resolved
                  let joined := String.intercalate "/" (resolved.map (fun l => (⟨l⟩ : String)))
                  some (urlunparse
                    { u with path := if joined = "" then "/" else joined }
                    uparams)

/-! ### The bot's URL helpers -/

/-- The tracking-parameter denylist of `canonicalize_url`. -/
def trackingExact : List String := ["gclid", "fbclid", "mc_cid", "mc_eid", "igshid"]

def isTrackingKey (k : String) : Bool :=
  strStarts (pyLower k) "utm_" || trackingExact.contains (pyLower k)

/-- `cleaned[:-1]`. -/
def dropLastChar (s : String) : String := ⟨s.data.dropLast⟩

/-- `canonicalize_url(url)`: strip the fragment, drop tracking query
parameters, lower-case the host, collapse a trailing `"//"` by one
character; on any exception return the input unchanged. -/
def canonicalize_url (url : String) : String :=
  match urlsplitE url "" with
  | none => url
  | some parts =>
      let q := (parse_qsl parts.query).filter (fun kv => !isTrackingKey kv.1)
      let query := urlencode q
      let netloc := pyLower parts.netloc
      let cleaned := urlunsplit ⟨parts.scheme, netloc, parts.path, query, ""⟩
      if strEnds cleaned "//" then dropLastChar cleaned else cleaned

/-- `normalize_url(base, href)`: join, canonicalize, and re-serialize with
the fragment emptied; `none` models an uncaught `ValueError`. -/
def normalize_urlE (base href : String) : Option String :=
  match urljoinE base href with
  | none => none
  | some absolute =>
      let absolute := canonicalize_url absolute
      match urlparseE absolute "" with
      | none => none
      | some (r, params) => some (urlunparse { r with fragment := "" } params)

/-- `same_host(a, b)`: compare lower-cased hostnames ignoring ports; any
exception yields `False`. -/
def same_host (a b : String) : Bool :=
  match urlsplitE a "", urlsplitE b "" with
  | some pa, some pb =>
      pyLower ⟨pa.netloc.data.takeWhile (fun c => c ≠ ':')⟩ =
        pyLower ⟨pb.netloc.data.takeWhile (fun c => c ≠ ':')⟩
  | _, _ => false

/-! ## Dates

A model of the bot's date pipeline: `datetime.strptime` (CPython's
`_strptime`, restricted to the directives `%d %m %y %Y %b %B` and literal
text that the bot's sixteen formats use), the module's `DATE_RE` regular
expression, and the extraction functions.  Both engines are backtracking
matchers: at each choice point the alternatives are tried in the order the
compiled regular expression would try them (greedy quantifiers longest
first, alternations left to right). -/

/-- Word character for `\b` (`[a-zA-Z0-9_]`; the bot's inputs are
ASCII). -/
def isWordCh (c : Char) : Bool :=
  isDig c || ('a' ≤ c && c ≤ 'z') || ('A' ≤ c && c ≤ 'Z') || c = '_'

/-- `[a-z]` under `re.IGNORECASE`. -/
def isLetter (c : Char) : Bool := ('a' ≤ c && c ≤ 'z') || ('A' ≤ c && c ≤ 'Z')

/-- Case-insensitive prefix test; the pattern is given lower-case. -/
def isPrefixCI : List Char → List Char → Bool
  | [], _ => true
  | _ :: _, [] => false
  | a :: as, b :: bs => a = lowerChar b && isPrefixCI as bs

/-- The fields of a partially parsed date (`_strptime`'s captures). -/
structure PartDate where
  d : Option Nat
  m : Option Nat
  y : Option Nat
deriving DecidableEq, Repr

def PartDate.empty : PartDate := ⟨none, none, none⟩

/-- A captured field value. -/
inductive FVal where
  | vd : Nat → FVal
  | vm : Nat → FVal
  | vy : Nat → FVal
  | vnone : FVal
deriving DecidableEq, Repr

def applyFVal (pd : PartDate) : FVal → PartDate
  | .vd n => { pd with d := some n }
  | .vm n => { pd with m := some n }
  | .vy n => { pd with y := some n }
  | .vnone => pd

/-- Format-string tokens: a literal character, a whitespace run (a space in
the format is compiled to `\s+`), and the directives `%d %m %Y %y %b
%B`. -/
inductive FTok where
  | lit : Char → FTok
  | ws : FTok
  | dayD : FTok
  | monD : FTok
  | year4 : FTok
  | year2 : FTok
  | monAbbr : FTok
  | monFull : FTok
deriving DecidableEq, Repr

/-- Month abbreviations, in `_strptime`'s alternation order. -/
def monthAbbrs : List (List Char × Nat) :=
  [("jan".data, 1), ("feb".data, 2), ("mar".data, 3), ("apr".data, 4),
   ("may".data, 5), ("jun".data, 6), ("jul".data, 7), ("aug".data, 8),
   ("sep".data, 9), ("oct".data, 10), ("nov".data, 11), ("dec".data, 12)]

/-- Full month names; `_strptime` sorts its alternation longest first
(stable), which gives this order. -/
def monthFulls : List (List Char × Nat) :=
  [("september".data, 9), ("february".data, 2), ("november".data, 11),
   ("december".data, 12), ("january".data, 1), ("october".data, 10),
   ("august".data, 8), ("march".data, 3), ("april".data, 4),
   ("june".data, 6), ("july".data, 7), ("may".data, 5)]

/-- Length of the leading whitespace run. -/
def wsRun (cs : List Char) : Nat := (cs.takeWhile pyIsSpace).length

/-- `%y`'s century rule: `0..68 → 2000..2068`, `69..99 → 1969..1999`. -/
def y2kMap (v : Nat) : Nat := if v ≤ 68 then 2000 + v else 1900 + v

/-- The alternatives (consumed length, captured value) a token can take on
the given input, in the order the compiled pattern tries them.  The digit
directives use `_strptime`'s alternations (`%d` is `3[01]|[12]\d|0[1-9]|
[1-9]`, `%m` is `1[0-2]|0[1-9]|[1-9]`, `%Y` is `\d{4}`, `%y` is
`\d{2}`). -/
def ftokAlts : FTok → List Char → List (Nat × FVal)
  | .lit c, d :: _ => if d = c then [(1, .vnone)] else []
  | .lit _, [] => []
  | .ws, cs => (List.range (wsRun cs)).reverse.map (fun k => (k + 1, FVal.vnone))
  | .dayD, c1 :: c2 :: _ =>
      (if c1 = '3' && (c2 = '0' || c2 = '1') then [(2, FVal.vd (30 + dval c2))] else []) ++
      (if (c1 = '1' || c1 = '2') && isDig c2 then [(2, FVal.vd (10 * dval c1 + dval c2))] else []) ++
      (if c1 = '0' && ('1' ≤ c2 && c2 ≤ '9') then [(2, FVal.vd (dval c2))] else []) ++
      (if '1' ≤ c1 && c1 ≤ '9' then [(1, FVal.vd (dval c1))] else [])
  | .dayD, [c1] => if '1' ≤ c1 && c1 ≤ '9' then [(1, FVal.vd (dval c1))] else []
  | .dayD, [] => []
  | .monD, c1 :: c2 :: _ =>
      (if c1 = '1' && (c2 = '0' || c2 = '1' || c2 = '2') then [(2, FVal.vm (10 + dval c2))] else []) ++
      (if c1 = '0' && ('1' ≤ c2 && c2 ≤ '9') then [(2, FVal.vm (dval c2))] else []) ++
      (if '1' ≤ c1 && c1 ≤ '9' then [(1, FVal.vm (dval c1))] else [])
  | .monD, [c1] => if '1' ≤ c1 && c1 ≤ '9' then [(1, FVal.vm (dval c1))] else []
  | .monD, [] => []
  | .year4, a :: b :: c :: d :: _ =>
      if isDig a && isDig b && isDig c && isDig d then
        [(4, FVal.vy (1000 * dval a + 100 * dval b + 10 * dval c + dval d))]
      else []
  | .year4, _ => []
  | .year2, a :: b :: _ =>
      if isDig a && isDig b then [(2, FVal.vy (y2kMap (10 * dval a + dval b)))] else []
  | .year2, _ => []
  | .monAbbr, cs =>
      monthAbbrs.filterMap (fun nb =>
        if isPrefixCI nb.1 cs then some (nb.1.length, FVal.vm nb.2) else none)
  | .monFull, cs =>
      monthFulls.filterMap (fun nb =>
        if isPrefixCI nb.1 cs then some (nb.1.length, FVal.vm nb.2) else none)

/-- Try the alternatives in order; each one hands the remaining input to
the continuation, and the first alternative whose continuation succeeds
wins (regex backtracking). -/
def tryAltList (k : List Char → PartDate → Option PartDate) :
    List (Nat × FVal) → List Char → PartDate → Option PartDate
  | [], _, _ => none
  | a :: rest, cs, pd =>
      match k (cs.drop a.1) (applyFVal pd a.2) with
      | some r => some r
      | none => tryAltList k rest cs pd

/-- Match a whole format against the whole input (`_strptime` rejects
unconverted trailing data). -/
def runToks : List FTok → List Char → PartDate → Option PartDate
  | [], cs, pd => if cs.isEmpty then some pd else none
  | t :: ts, cs, pd => tryAltList (runToks ts) (ftokAlts t cs) cs pd

/-- Leap year (`calendar.isleap`). -/
def isLeap (y : Nat) : Bool := (y % 4 = 0 && y % 100 ≠ 0) || y % 400 = 0

/-- Days in a month. -/
def daysInMonth (y m : Nat) : Nat :=
  if m = 2 then (if isLeap y then 29 else 28)
  else if m = 4 || m = 6 || m = 9 || m = 11 then 30
  else 31

/-- A valid `datetime.date` value. -/
structure SimpleDate where
  year : Nat
  month : Nat
  day : Nat
deriving DecidableEq, Repr

/-- `datetime`'s constructor validation applied to the captured fields,
with `_strptime`'s defaults (year 1900, month 1, day 1). -/
def mkDatetime (pd : PartDate) : Option SimpleDate :=
  let y := pd.y.getD 1900
  let m := pd.m.getD 1
  let d := pd.d.getD 1
  if 1 ≤ y && y ≤ 9999 && 1 ≤ m && m ≤ 12 && 1 ≤ d && d ≤ daysInMonth y m then
    some ⟨y, m, d⟩
  else none

/-- `datetime.strptime(s, fmt)`, returning `none` where Python raises. -/
def strptime (fmt : List FTok) (s : String) : Option SimpleDate :=
  match runToks fmt s.data PartDate.empty with
  | some pd => mkDatetime pd
  | none => none

/-- The sixteen formats of `parse_any_date`, in order. -/
def strpFmts : List (List FTok) :=
  [[.dayD, .lit '/', .monD, .lit '/', .year4],
   [.dayD, .lit '-', .monD, .lit '-', .year4],
   [.year4, .lit '-', .monD, .lit '-', .dayD],
   [.monD, .lit '/', .dayD, .lit '/', .year4],
   [.monD, .lit '-', .dayD, .lit '-', .year4],
   [.dayD, .lit '/', .monD, .lit '/', .year2],
   [.dayD, .lit '-', .monD, .lit '-', .year2],
   [.year4, .lit '/', .monD, .lit '/', .dayD],
   [.monAbbr, .ws, .dayD, .ws, .year4],
   [.monAbbr, .ws, .dayD, .lit ',', .ws, .year4],
   [.dayD, .ws, .monAbbr, .ws, .year4],
   [.dayD, .ws, .monAbbr, .lit ',', .ws, .year4],
   [.monFull, .ws, .dayD, .ws, .year4],
   [.monFull, .ws, .dayD, .lit ',', .ws, .year4],
   [.dayD, .ws, .monFull, .ws, .year4],
   [.dayD, .ws, .monFull, .lit ',', .ws, .year4]]

/-- Python `str.strip()` (ASCII whitespace). -/
def pyStrip (s : String) : String :=
  ⟨((s.data.dropWhile pyIsSpace).reverse.dropWhile pyIsSpace).reverse⟩

/-- `parse_any_date(s)`: strip, then the first format that parses wins. -/
def parse_any_date (s : String) : Option SimpleDate :=
  List.findSome? (fun f => strptime f (pyStrip s)) strpFmts

/-- Zero-padded two-digit rendering (`%d`, `%m`). -/
def pad2 (n : Nat) : String := if n < 10 then "0" ++ toString n else toString n

/-- `dt.strftime("%d/%m/%Y")` (glibc renders `%Y` without padding). -/
def strftimeDMY (d : SimpleDate) : String :=
  pad2 d.day ++ "/" ++ pad2 d.month ++ "/" ++ toString d.year

/-! ### The `DATE_RE` regular expression -/

/-- Tokens of the four `DATE_PATTERNS` alternatives. -/
inductive RTok where
  | bnd : RTok
  | cls : List Char → RTok
  | dRange : Nat → Nat → RTok
  | months : RTok
  | letters : RTok
  | optDot : RTok
  | optComma : RTok
  | wsPlus : RTok
deriving Repr

/-- `\b` between the previous character and the head of the input. -/
def atBoundary (prev : Option Char) (cs : List Char) : Bool :=
  (match prev with | some p => isWordCh p | none => false) !=
  (match cs with | c :: _ => isWordCh c | [] => false)

/-- Length of the leading digit run. -/
def digRun (cs : List Char) : Nat := (cs.takeWhile isDig).length

/-- Length of the leading letter run. -/
def letterRun (cs : List Char) : Nat := (cs.takeWhile isLetter).length

/-- Consumed-length alternatives of one `DATE_RE` token, in matching
order (greedy quantifiers longest first). -/
def rtokAlts (t : RTok) (prev : Option Char) (cs : List Char) : List Nat :=
  match t with
  | .bnd => if atBoundary prev cs then [0] else []
  | .cls chars => match cs with
      | c :: _ => if chars.contains c then [1] else []
      | [] => []
  | .dRange lo hi =>
      let n := min hi (digRun cs)
      if n < lo then [] else (List.range (n + 1 - lo)).map (fun k => n - k)
  | .months =>
      if monthAbbrs.any (fun nb => isPrefixCI nb.1 cs) then [3] else []
  | .letters => (List.range (letterRun cs + 1)).map (fun k => letterRun cs - k)
  | .optDot => match cs with
      | c :: _ => if c = '.' then [1, 0] else [0]
      | [] => [0]
  | .optComma => match cs with
      | c :: _ => if c = ',' then [1, 0] else [0]
      | [] => [0]
  | .wsPlus => (List.range (wsRun cs)).reverse.map (fun k => k + 1)

/-- The character preceding the position reached after consuming `n`
characters of `cs`. -/
def prevAfter (prev : Option Char) (cs : List Char) (n : Nat) : Option Char :=
  if n = 0 then prev else (cs.take n).getLast?

/-- Backtracking over one token's alternatives; on success returns the
total number of characters matched. -/
def tryRAlts (k : Option Char → List Char → Option Nat) :
    List Nat → Option Char → List Char → Option Nat
  | [], _, _ => none
  | n :: rest, prev, cs =>
      match k (prevAfter prev cs n) (cs.drop n) with
      | some m => some (n + m)
      | none => tryRAlts k rest prev cs

/-- Match a token list at the current position (a regex match need not
reach the end of the input). -/
def runRToks : List RTok → Option Char → List Char → Option Nat
  | [], _, _ => some 0
  | t :: ts, prev, cs => tryRAlts (runRToks ts) (rtokAlts t prev cs) prev cs

/-- The four alternatives of `DATE_RE`, in order. -/
def datePatterns : List (List RTok) :=
  [[.bnd, .dRange 1 2, .cls ['/', '-'], .dRange 1 2, .cls ['/', '-'], .dRange 2 4, .bnd],
   [.bnd, .dRange 4 4, .cls ['/', '-'], .dRange 1 2, .cls ['/', '-'], .dRange 1 2, .bnd],
   [.bnd, .months, .letters, .optDot, .wsPlus, .dRange 1 2, .optComma, .wsPlus,
    .dRange 2 4, .bnd],
   [.bnd, .dRange 1 2, .wsPlus, .months, .letters, .optDot, .optComma, .wsPlus,
    .dRange 2 4, .bnd]]

/-- Try the four alternatives at one position. -/
def tryDatePatterns (prev : Option Char) (cs : List Char) : Option Nat :=
  List.findSome? (fun p => runRToks p prev cs) datePatterns

/-- Leftmost search: advance one character at a time, trying the whole
alternation at each position. -/
def dateSearchAux : Option Char → List Char → Option (List Char)
  | prev, cs =>
      match tryDatePatterns prev cs with
      | some n => some (cs.take n)
      | none => match cs with
        | [] => none
        | c :: rest => dateSearchAux (some c) rest

/-- `DATE_RE.search(s)`, returning `m.group(0)`. -/
def dateReSearch (s : String) : Option String :=
  (dateSearchAux none s.data).map (fun cs => (⟨cs⟩ : String))

/-! ### The extraction functions -/

/-- `extract_date_from_text`. -/
def extract_date_from_text (text : String) : Option String :=
  if text = "" then none
  else
    match dateReSearch text with
    | none => none
    | some raw =>
        match parse_any_date raw with
        | some dt => some (strftimeDMY dt)
        | none => some raw

/-- `dp.replace("T", " ")` (single-character pattern). -/
def replaceTBlank (s : String) : String :=
  ⟨s.data.map (fun c => if c = 'T' then ' ' else c)⟩

/-- `s.split("+")[0]`. -/
def takeBeforePlus (s : String) : String := ⟨s.data.takeWhile (fun c => c ≠ '+')⟩

/-- `extract_date_from_soup`: structured `ld+json` metadata first, then
`<time>` elements, then a free-text scan of the page text. -/
def extract_date_from_soup (soup : Soup) : Option String :=
  match soup.ldJsonItems.findSome? (fun it =>
      if pyLower it.atType = "jobposting" then
        match pyOrS it.datePosted it.validThrough with
        | some dp =>
            match (parse_any_date dp).orElse
                (fun _ => parse_any_date (takeBeforePlus (replaceTBlank dp))) with
            | some dt => some (strftimeDMY dt)
            | none => none
        | none => none
      else none) with
  | some v => some v
  | none =>
      match soup.timeTags.findSome? (fun tm =>
          let dtAttr := match pyOrS tm.datetimeAttr tm.ariaLabel with
            | some s => s
            | none => ""
          let txt := collapse_spaces tm.text
          extract_date_from_text (if dtAttr = "" then txt else dtAttr)) with
      | some v => some v
      | none => extract_date_from_text (collapse_spaces (soup.getText ""))

/-! ### Character arithmetic helpers -/

theorem char_le_iff {a b : Char} : a ≤ b ↔ a.toNat ≤ b.toNat := Iff.rfl

theorem char_eq_of_toNat {a b : Char} (h : a.toNat = b.toNat) : a = b :=
  Char.ext (UInt32.ext h)

theorem isDig_toNat {c : Char} (h : isDig c = true) :
    48 ≤ c.toNat ∧ c.toNat ≤ 57 := by
  unfold isDig at h
  rw [Bool.and_eq_true, decide_eq_true_eq, decide_eq_true_eq] at h
  exact ⟨h.1, h.2⟩

theorem isDig_of_toNat {c : Char} (h1 : 48 ≤ c.toNat) (h2 : c.toNat ≤ 57) :
    isDig c = true := by
  unfold isDig
  rw [Bool.and_eq_true, decide_eq_true_eq, decide_eq_true_eq]
  exact ⟨h1, h2⟩

theorem toNat_of_dval {c : Char} (hd : isDig c = true) : c.toNat = 48 + dval c := by
  have := isDig_toNat hd
  unfold dval
  omega

theorem dval_le_nine {c : Char} (hd : isDig c = true) : dval c ≤ 9 := by
  have := isDig_toNat hd
  unfold dval
  omega

theorem pyIsSpace_false_of_ge {c : Char} (h1 : 33 ≤ c.toNat) : pyIsSpace c = false := by
  have k : ∀ d : Char, d.toNat < 33 → decide (c = d) = false := by
    intro d hd
    apply decide_eq_false
    intro he
    rw [he] at h1
    omega
  unfold pyIsSpace
  rw [k ' ' (by decide), k '\t' (by decide), k '\n' (by decide), k '\r' (by decide),
    k '\x0b' (by decide), k '\x0c' (by decide)]
  rfl

theorem dropWhileAll {p : Char → Bool} (l : List Char) (h : ∀ c ∈ l, p c = false) :
    l.dropWhile p = l := by
  cases l with
  | nil => rfl
  | cons c cs =>
      rw [List.dropWhile_cons, h c (List.mem_cons_self c cs)]
      simp

theorem pyStrip_eq_self {s : String} (h : ∀ c ∈ s.data, pyIsSpace c = false) :
    pyStrip s = s := by
  unfold pyStrip
  rw [dropWhileAll _ h, dropWhileAll _ (by intro c hc; exact h c (List.mem_reverse.mp hc)),
    List.reverse_reverse]

/-! ### C10: ambiguous numeric dates resolve day-first -/

/-- `s` is a one- or two-digit decimal numeral denoting `n`. -/
def NumRep (s : String) (n : Nat) : Prop :=
  (∃ c, s.data = [c] ∧ isDig c = true ∧ dval c = n) ∨
  (∃ c1 c2, s.data = [c1, c2] ∧ isDig c1 = true ∧ isDig c2 = true ∧
    10 * dval c1 + dval c2 = n)

/-- The value of four year digits. -/
def y4val (e1 e2 e3 e4 : Char) : Nat :=
  1000 * dval e1 + 100 * dval e2 + 10 * dval e3 + dval e4

theorem dec_char_eq_true {a b : Char} (h : a.toNat = b.toNat) :
    decide (a = b) = true := by
  rw [decide_eq_true_eq]
  exact char_eq_of_toNat h

theorem dec_char_eq_false {a b : Char} (h : a.toNat ≠ b.toNat) :
    decide (a = b) = false := by
  rw [decide_eq_false_iff_not]
  intro he
  exact h (by rw [he])

theorem dec_char_le_true {a b : Char} (h : a.toNat ≤ b.toNat) :
    decide (a ≤ b) = true := by
  rw [decide_eq_true_eq, char_le_iff]
  exact h

theorem dec_char_le_false {a b : Char} (h : b.toNat < a.toNat) :
    decide (a ≤ b) = false := by
  rw [decide_eq_false_iff_not, char_le_iff]
  omega

/-- `%d` on a single digit `1..9` followed by a non-digit `/`. -/
theorem ftokAlts_dayD_single {c : Char} (rest : List Char)
    (h1 : 49 ≤ c.toNat) (h2 : c.toNat ≤ 57) :
    ftokAlts .dayD (c :: '/' :: rest) = [(1, FVal.vd (dval c))] := by
  have l1 : decide ('1' ≤ c) = true :=
    dec_char_le_true (by show (49 : Nat) ≤ c.toNat; omega)
  have l2 : decide (c ≤ '9') = true :=
    dec_char_le_true (by show c.toNat ≤ (57 : Nat); omega)
  simp only [ftokAlts]
  simp [l1, l2, show isDig '/' = false from rfl]

/-- `%d` on `'0'` then a digit `1..9`. -/
theorem ftokAlts_dayD_zero {c2 : Char} (rest : List Char)
    (h1 : 49 ≤ c2.toNat) (h2 : c2.toNat ≤ 57) :
    ftokAlts .dayD ('0' :: c2 :: rest) = [(2, FVal.vd (dval c2))] := by
  have l1 : decide ('1' ≤ c2) = true :=
    dec_char_le_true (by show (49 : Nat) ≤ c2.toNat; omega)
  have l2 : decide (c2 ≤ '9') = true :=
    dec_char_le_true (by show c2.toNat ≤ (57 : Nat); omega)
  simp only [ftokAlts]
  simp [l1, l2]

/-- `%d` on `'1'` then any digit: the `[12]\d` alternative first, then the
`[1-9]` fallback. -/
theorem ftokAlts_dayD_one {c2 : Char} (rest : List Char) (hd : isDig c2 = true) :
    ftokAlts .dayD ('1' :: c2 :: rest) =
      [(2, FVal.vd (10 + dval c2)), (1, FVal.vd 1)] := by
  simp only [ftokAlts]
  simp [hd, show dval '1' = 1 from rfl]

/-- `%m` on a single digit `1..9` followed by `/`. -/
theorem ftokAlts_monD_single {c : Char} (rest : List Char)
    (h1 : 49 ≤ c.toNat) (h2 : c.toNat ≤ 57) :
    ftokAlts .monD (c :: '/' :: rest) = [(1, FVal.vm (dval c))] := by
  have l1 : decide ('1' ≤ c) = true :=
    dec_char_le_true (by show (49 : Nat) ≤ c.toNat; omega)
  have l2 : decide (c ≤ '9') = true :=
    dec_char_le_true (by show c.toNat ≤ (57 : Nat); omega)
  simp only [ftokAlts]
  simp [l1, l2]

/-- `%m` on `'0'` then a digit `1..9`. -/
theorem ftokAlts_monD_zero {c2 : Char} (rest : List Char)
    (h1 : 49 ≤ c2.toNat) (h2 : c2.toNat ≤ 57) :
    ftokAlts .monD ('0' :: c2 :: rest) = [(2, FVal.vm (dval c2))] := by
  have l1 : decide ('1' ≤ c2) = true :=
    dec_char_le_true (by show (49 : Nat) ≤ c2.toNat; omega)
  have l2 : decide (c2 ≤ '9') = true :=
    dec_char_le_true (by show c2.toNat ≤ (57 : Nat); omega)
  simp only [ftokAlts]
  simp [l1, l2]

/-- `%m` on `'1'` then a digit `0..2`: the `1[0-2]` alternative first, then
the `[1-9]` fallback. -/
theorem ftokAlts_monD_one {c2 : Char} (rest : List Char)
    (h1 : 48 ≤ c2.toNat) (h2 : c2.toNat ≤ 50) :
    ftokAlts .monD ('1' :: c2 :: rest) =
      [(2, FVal.vm (10 + dval c2)), (1, FVal.vm 1)] := by
  have h3 : c2 = '0' ∨ c2 = '1' ∨ c2 = '2' := by
    have : c2.toNat = 48 ∨ c2.toNat = 49 ∨ c2.toNat = 50 := by omega
    rcases this with h | h | h
    · exact Or.inl (char_eq_of_toNat (by rw [h]; rfl))
    · exact Or.inr (Or.inl (char_eq_of_toNat (by rw [h]; rfl)))
    · exact Or.inr (Or.inr (char_eq_of_toNat (by rw [h]; rfl)))
  rcases h3 with rfl | rfl | rfl <;> rfl

/-- `%Y` on four digits at the end of the input. -/
theorem ftokAlts_year4 {e1 e2 e3 e4 : Char} (rest : List Char)
    (h1 : isDig e1 = true) (h2 : isDig e2 = true) (h3 : isDig e3 = true)
    (h4 : isDig e4 = true) :
    ftokAlts .year4 (e1 :: e2 :: e3 :: e4 :: rest) =
      [(4, FVal.vy (y4val e1 e2 e3 e4))] := by
  simp only [ftokAlts]
  rw [h1, h2, h3, h4]
  rfl

/-- One-step unfolding equations (all definitional). -/
theorem runToks_cons (t : FTok) (ts : List FTok) (cs : List Char) (pd : PartDate) :
    runToks (t :: ts) cs pd = tryAltList (runToks ts) (ftokAlts t cs) cs pd := rfl

theorem tryAltList_pair (k : List Char → PartDate → Option PartDate)
    (n : Nat) (v : FVal) (rest : List (Nat × FVal)) (cs : List Char) (pd : PartDate) :
    tryAltList k ((n, v) :: rest) cs pd =
      match k (cs.drop n) (applyFVal pd v) with
      | some r => some r
      | none => tryAltList k rest cs pd := rfl

theorem ftokAlts_slash (rest : List Char) :
    ftokAlts (.lit '/') ('/' :: rest) = [(1, FVal.vnone)] := rfl

theorem runToks_year4 (pd : PartDate) {e1 e2 e3 e4 : Char}
    (h1 : isDig e1 = true) (h2 : isDig e2 = true) (h3 : isDig e3 = true)
    (h4 : isDig e4 = true) :
    runToks [.year4] [e1, e2, e3, e4] pd =
      some { pd with y := some (y4val e1 e2 e3 e4) } := by
  rw [runToks_cons, ftokAlts_year4 [] h1 h2 h3 h4, tryAltList_pair]
  rfl

theorem runToks_slash_year4 (pd : PartDate) {e1 e2 e3 e4 : Char}
    (h1 : isDig e1 = true) (h2 : isDig e2 = true) (h3 : isDig e3 = true)
    (h4 : isDig e4 = true) :
    runToks [.lit '/', .year4] ('/' :: [e1, e2, e3, e4]) pd =
      some { pd with y := some (y4val e1 e2 e3 e4) } := by
  rw [runToks_cons, ftokAlts_slash, tryAltList_pair]
  show (match runToks [.year4] [e1, e2, e3, e4] pd with
    | some r => some r
    | none => tryAltList (runToks [.year4]) [] ('/' :: [e1, e2, e3, e4]) pd) = _
  rw [runToks_year4 pd h1 h2 h3 h4]

theorem runToks_mon_slash_year4 (pd : PartDate) {sb : String} {b : Nat}
    {e1 e2 e3 e4 : Char}
    (hb1 : 1 ≤ b) (hb2 : b ≤ 12) (hsb : NumRep sb b)
    (h1 : isDig e1 = true) (h2 : isDig e2 = true) (h3 : isDig e3 = true)
    (h4 : isDig e4 = true) :
    runToks [.monD, .lit '/', .year4] (sb.data ++ '/' :: [e1, e2, e3, e4]) pd =
      some { pd with m := some b, y := some (y4val e1 e2 e3 e4) } := by
  rcases hsb with ⟨c, hc, hcd, hcv⟩ | ⟨c1, c2, hc, hd1, hd2, hv⟩
  · -- one digit, so 1 ≤ b ≤ 9 and the `[1-9]` alternative fires
    have hn := toNat_of_dval hcd
    have hub := dval_le_nine hcd
    rw [hc, List.cons_append, List.nil_append]
    rw [runToks_cons, ftokAlts_monD_single _ (by omega) (by omega), tryAltList_pair]
    show (match runToks [.lit '/', .year4] ('/' :: [e1, e2, e3, e4])
        { pd with m := some (dval c) } with
      | some r => some r
      | none => tryAltList (runToks [.lit '/', .year4]) []
          (c :: '/' :: [e1, e2, e3, e4]) pd) = _
    rw [runToks_slash_year4 _ h1 h2 h3 h4, hcv]
  · -- two digits: the tens digit is 0 or 1
    have hn1 := toNat_of_dval hd1
    have hn2 := toNat_of_dval hd2
    have hub2 := dval_le_nine hd2
    rw [hc, List.cons_append, List.cons_append, List.nil_append]
    have hten : dval c1 = 0 ∨ dval c1 = 1 := by omega
    rcases hten with hz | ho
    · have hc1 : c1 = '0' := char_eq_of_toNat (by rw [hn1, hz]; rfl)
      subst hc1
      rw [runToks_cons, ftokAlts_monD_zero _ (by omega) (by omega), tryAltList_pair]
      show (match runToks [.lit '/', .year4] ('/' :: [e1, e2, e3, e4])
          { pd with m := some (dval c2) } with
        | some r => some r
        | none => tryAltList (runToks [.lit '/', .year4]) []
            ('0' :: c2 :: '/' :: [e1, e2, e3, e4]) pd) = _
      rw [runToks_slash_year4 _ h1 h2 h3 h4, show dval c2 = b by omega]
    · have hc1 : c1 = '1' := char_eq_of_toNat (by rw [hn1, ho]; rfl)
      subst hc1
      rw [runToks_cons, ftokAlts_monD_one _ (by omega) (by omega), tryAltList_pair]
      show (match runToks [.lit '/', .year4] ('/' :: [e1, e2, e3, e4])
          { pd with m := some (10 + dval c2) } with
        | some r => some r
        | none => tryAltList (runToks [.lit '/', .year4]) [(1, FVal.vm 1)]
            ('1' :: c2 :: '/' :: [e1, e2, e3, e4]) pd) = _
      rw [runToks_slash_year4 _ h1 h2 h3 h4, show 10 + dval c2 = b by omega]

/-! ### C3: date normalization -/

/-- A page whose only date information is structured JobPosting metadata
with `datePosted = "2024-01-05T00:00:00Z"`.  The raw script text also
appears in the page text, since BeautifulSoup's `get_text` includes the
contents of `<script>` elements. -/
def isoSoup : Soup :=
  { Soup.empty with
      ldJsonItems := [⟨"JobPosting", some "2024-01-05T00:00:00Z", none, none, none, none⟩],
      textNodes :=
        [" \x7b\"@type\": \"JobPosting\", \"datePosted\": \"2024-01-05T00:00:00Z\"\x7d "] }

/-- C3 (code bug).  The raw texts `"Jan 5, 2024"` and `"05/01/2024"` do
normalize to the literal `"05/01/2024"`, but the structured `datePosted`
value `"2024-01-05T00:00:00Z"` fails every format in `parse_any_date`
(none accepts a time component, and the `replace("T"," ")`/`split("+")`
retry does not remove the time), so the metadata branch yields nothing:
on a page whose only date information is that structured value, the
pipeline returns no date rather than `"05/01/2024"`. -/
theorem date_normalization_c3 :
    extract_date_from_text "Jan 5, 2024" = some "05/01/2024" ∧
    extract_date_from_text "05/01/2024" = some "05/01/2024" ∧
    parse_any_date "2024-01-05T00:00:00Z" = none ∧
    parse_any_date (takeBeforePlus (replaceTBlank "2024-01-05T00:00:00Z")) = none ∧
    extract_date_from_soup isoSoup = none := by
  refine ⟨by decide, by decide, by decide, by decide, ?_⟩
  decide

theorem runToks_slash_mon (pd : PartDate) {sb : String} {b : Nat} {e1 e2 e3 e4 : Char}
    (hb1 : 1 ≤ b) (hb2 : b ≤ 12) (hsb : NumRep sb b)
    (h1 : isDig e1 = true) (h2 : isDig e2 = true) (h3 : isDig e3 = true)
    (h4 : isDig e4 = true) :
    runToks [.lit '/', .monD, .lit '/', .year4]
      ('/' :: (sb.data ++ '/' :: [e1, e2, e3, e4])) pd =
      some { pd with m := some b, y := some (y4val e1 e2 e3 e4) } := by
  rw [runToks_cons, ftokAlts_slash, tryAltList_pair]
  show (match runToks [.monD, .lit '/', .year4] (sb.data ++ '/' :: [e1, e2, e3, e4]) pd with
    | some r => some r
    | none => tryAltList (runToks [.monD, .lit '/', .year4]) []
        ('/' :: (sb.data ++ '/' :: [e1, e2, e3, e4])) pd) = _
  rw [runToks_mon_slash_year4 pd hb1 hb2 hsb h1 h2 h3 h4]

/-- The whole format `"%d/%m/%Y"` on `A/B/YYYY`. -/
theorem runToks_dmy (pd : PartDate) {sa sb : String} {a b : Nat} {e1 e2 e3 e4 : Char}
    (ha1 : 1 ≤ a) (ha2 : a ≤ 12) (hb1 : 1 ≤ b) (hb2 : b ≤ 12)
    (hsa : NumRep sa a) (hsb : NumRep sb b)
    (h1 : isDig e1 = true) (h2 : isDig e2 = true) (h3 : isDig e3 = true)
    (h4 : isDig e4 = true) :
    runToks [.dayD, .lit '/', .monD, .lit '/', .year4]
      (sa.data ++ '/' :: (sb.data ++ '/' :: [e1, e2, e3, e4])) pd =
      some { pd with d := some a, m := some b, y := some (y4val e1 e2 e3 e4) } := by
  rcases hsa with ⟨c, hc, hcd, hcv⟩ | ⟨c1, c2, hc, hd1, hd2, hv⟩
  · have hn := toNat_of_dval hcd
    have hub := dval_le_nine hcd
    rw [hc, List.cons_append, List.nil_append]
    rw [runToks_cons, ftokAlts_dayD_single _ (by omega) (by omega), tryAltList_pair]
    show (match runToks [.lit '/', .monD, .lit '/', .year4]
        ('/' :: (sb.data ++ '/' :: [e1, e2, e3, e4])) { pd with d := some (dval c) } with
      | some r => some r
      | none => tryAltList (runToks [.lit '/', .monD, .lit '/', .year4]) []
          (c :: '/' :: (sb.data ++ '/' :: [e1, e2, e3, e4])) pd) = _
    rw [runToks_slash_mon _ hb1 hb2 hsb h1 h2 h3 h4, hcv]
  · have hn1 := toNat_of_dval hd1
    have hn2 := toNat_of_dval hd2
    have hub2 := dval_le_nine hd2
    rw [hc, List.cons_append, List.cons_append, List.nil_append]
    have hten : dval c1 = 0 ∨ dval c1 = 1 := by omega
    rcases hten with hz | ho
    · have hc1 : c1 = '0' := char_eq_of_toNat (by rw [hn1, hz]; rfl)
      subst hc1
      rw [runToks_cons, ftokAlts_dayD_zero _ (by omega) (by omega), tryAltList_pair]
      show (match runToks [.lit '/', .monD, .lit '/', .year4]
          ('/' :: (sb.data ++ '/' :: [e1, e2, e3, e4])) { pd with d := some (dval c2) } with
        | some r => some r
        | none => tryAltList (runToks [.lit '/', .monD, .lit '/', .year4]) []
            ('0' :: c2 :: '/' :: (sb.data ++ '/' :: [e1, e2, e3, e4])) pd) = _
      rw [runToks_slash_mon _ hb1 hb2 hsb h1 h2 h3 h4, show dval c2 = a by omega]
    · have hc1 : c1 = '1' := char_eq_of_toNat (by rw [hn1, ho]; rfl)
      subst hc1
      rw [runToks_cons, ftokAlts_dayD_one _ hd2, tryAltList_pair]
      show (match runToks [.lit '/', .monD, .lit '/', .year4]
          ('/' :: (sb.data ++ '/' :: [e1, e2, e3, e4]))
          { pd with d := some (10 + dval c2) } with
        | some r => some r
        | none => tryAltList (runToks [.lit '/', .monD, .lit '/', .year4]) [(1, FVal.vd 1)]
            ('1' :: c2 :: '/' :: (sb.data ++ '/' :: [e1, e2, e3, e4])) pd) = _
      rw [runToks_slash_mon _ hb1 hb2 hsb h1 h2 h3 h4, show 10 + dval c2 = a by omega]

theorem daysInMonth_ge28 (y m : Nat) : 28 ≤ daysInMonth y m := by
  unfold daysInMonth
  split
  · split <;> omega
  · split <;> omega

theorem mkDatetime_valid {y m d : Nat} (h1 : 1 ≤ y) (h2 : y ≤ 9999) (h3 : 1 ≤ m)
    (h4 : m ≤ 12) (h5 : 1 ≤ d) (h6 : d ≤ 12) :
    mkDatetime ⟨some d, some m, some y⟩ = some ⟨y, m, d⟩ := by
  have hd : d ≤ daysInMonth y m := le_trans h6 (le_trans (by norm_num) (daysInMonth_ge28 y m))
  unfold mkDatetime
  simp [h1, h2, h3, h4, h5, hd]

/-- C10.  Ambiguous numeric dates resolve day-first: for every string
`A/B/YYYY` in which both `A` and `B` lie in `1..12` (each written with one
or two digits) and `YYYY` is a four-digit year `≥ 1`, `parse_any_date`
returns the day-first interpretation (day `A`, month `B`): the format
`"%d/%m/%Y"` precedes `"%m/%d/%Y"` in the ordered format list and the
first successful parse wins. -/
theorem ambiguous_dates_day_first {sa sb : String} {a b : Nat} {e1 e2 e3 e4 : Char}
    (ha1 : 1 ≤ a) (ha2 : a ≤ 12) (hb1 : 1 ≤ b) (hb2 : b ≤ 12)
    (hsa : NumRep sa a) (hsb : NumRep sb b)
    (h1 : isDig e1 = true) (h2 : isDig e2 = true) (h3 : isDig e3 = true)
    (h4 : isDig e4 = true)
    (hy1 : 1 ≤ y4val e1 e2 e3 e4) :
    parse_any_date (sa ++ "/" ++ sb ++ "/" ++ (⟨[e1, e2, e3, e4]⟩ : String)) =
      some ⟨y4val e1 e2 e3 e4, b, a⟩ := by
  have hdata : (sa ++ "/" ++ sb ++ "/" ++ (⟨[e1, e2, e3, e4]⟩ : String)).data =
      sa.data ++ '/' :: (sb.data ++ '/' :: [e1, e2, e3, e4]) := by
    simp [String.data_append]
  have hchars : ∀ c ∈ (sa ++ "/" ++ sb ++ "/" ++ (⟨[e1, e2, e3, e4]⟩ : String)).data,
      pyIsSpace c = false := by
    intro c hcmem
    rw [hdata] at hcmem
    apply pyIsSpace_false_of_ge
    have slashN : ('/' : Char).toNat = 47 := rfl
    have hdig : ∀ d : Char, isDig d = true → 33 ≤ d.toNat := by
      intro d hd
      have := isDig_toNat hd
      omega
    have hsaD : ∀ d ∈ sa.data, isDig d = true := by
      rcases hsa with ⟨c0, hc0, hd0, _⟩ | ⟨c1, c2, hc0, hd1, hd2, _⟩ <;> rw [hc0] <;>
        intro d hdm <;> simp only [List.mem_singleton, List.mem_cons,
          List.not_mem_nil, or_false] at hdm
      · rw [hdm]; exact hd0
      · rcases hdm with rfl | rfl
        · exact hd1
        · exact hd2
    have hsbD : ∀ d ∈ sb.data, isDig d = true := by
      rcases hsb with ⟨c0, hc0, hd0, _⟩ | ⟨c1, c2, hc0, hd1, hd2, _⟩ <;> rw [hc0] <;>
        intro d hdm <;> simp only [List.mem_singleton, List.mem_cons,
          List.not_mem_nil, or_false] at hdm
      · rw [hdm]; exact hd0
      · rcases hdm with rfl | rfl
        · exact hd1
        · exact hd2
    rcases List.mem_append.mp hcmem with hin | hin
    · exact hdig c (hsaD c hin)
    · rcases List.mem_cons.mp hin with rfl | hin
      · omega
      · rcases List.mem_append.mp hin with hin | hin
        · exact hdig c (hsbD c hin)
        · rcases List.mem_cons.mp hin with rfl | hin
          · omega
          · simp only [List.mem_cons, List.not_mem_nil, or_false] at hin
            rcases hin with rfl | rfl | rfl | rfl
            · exact hdig c h1
            · exact hdig c h2
            · exact hdig c h3
            · exact hdig c h4
  have hfmt : strptime [.dayD, .lit '/', .monD, .lit '/', .year4]
      (sa ++ "/" ++ sb ++ "/" ++ (⟨[e1, e2, e3, e4]⟩ : String)) =
      some ⟨y4val e1 e2 e3 e4, b, a⟩ := by
    unfold strptime
    rw [hdata, runToks_dmy PartDate.empty ha1 ha2 hb1 hb2 hsa hsb h1 h2 h3 h4]
    show mkDatetime ⟨some a, some b, some (y4val e1 e2 e3 e4)⟩ = _
    have hy2 : y4val e1 e2 e3 e4 ≤ 9999 := by
      have q1 := dval_le_nine h1
      have q2 := dval_le_nine h2
      have q3 := dval_le_nine h3
      have q4 := dval_le_nine h4
      unfold y4val
      omega
    exact mkDatetime_valid hy1 hy2 hb1 hb2 ha1 ha2
  unfold parse_any_date strpFmts
  rw [pyStrip_eq_self hchars, List.findSome?_cons, hfmt]

/-- Witness for C10 at `"05/01/2024"`: day 5, month 1, year 2024. -/
theorem ambiguous_dates_day_first_witness :
    parse_any_date ("05" ++ "/" ++ "01" ++ "/" ++ (⟨['2', '0', '2', '4']⟩ : String)) =
      some ⟨2024, 1, 5⟩ := by
  have h := @ambiguous_dates_day_first "05" "01" 5 1 '2' '0' '2' '4'
    (by omega) (by omega) (by omega) (by omega)
    (Or.inr ⟨'0', '5', rfl, rfl, rfl, rfl⟩)
    (Or.inr ⟨'0', '1', rfl, rfl, rfl, rfl⟩)
    rfl rfl rfl rfl (by decide)
  simpa using h

/-! ## The posting classifier: `looks_like_job_posting` -/

/-- `EXCLUDE_PATTERNS` from the source. -/
def EXCLUDE_PATTERNS : List String :=
  ["blog", "event", "events", "news", "press", "media", "article", "insight",
   "stories", "webinar", "podcast", "case-study", "casestudy", "whitepaper"]

/-- The eight textual signal phrases of `looks_like_job_posting`. -/
def jobSignals : List String :=
  ["apply now", "apply", "responsibilities", "requirements", "job description",
   "what you will do", "role & responsibilities", "position summary"]

/-- The URL keywords of `looks_like_job_posting`'s last test. -/
def jobUrlKeys : List String :=
  ["job", "jobs", "career", "careers", "opening", "opportunity", "position",
   "vacancy"]

/-- The structured-metadata test: some `ld+json` item has
`str(it.get("@type","")).lower() == "jobposting"`. -/
def hasJobPostingLd (soup : Soup) : Bool :=
  soup.ldJsonItems.any (fun it => pyLower it.atType = "jobposting")

/-- The number of signal phrases occurring in the lower-cased page text
(`sum(1 for s in signals if s in body)`). -/
def signalCount (soup : Soup) : Nat :=
  (jobSignals.filter (fun s => pyIn s (pyLower (soup.getText " ")))).length

/-- `looks_like_job_posting(soup, url)`. -/
def looks_like_job_posting (soup : Soup) (url : String) : Bool :=
  let u := pyLower url
  if EXCLUDE_PATTERNS.any (fun x => pyIn x u) then false
  else if hasJobPostingLd soup then true
  else if 2 ≤ signalCount soup then true
  else if jobUrlKeys.any (fun k => pyIn k u) then true
  else false

/-! ## Title and location extraction -/

/-- The dash characters of the title-trimming pattern `\s+[-|–].*$`. -/
def isTitleDash (c : Char) : Bool := c = '-' || c = '|' || c = '–'

/-- `re.sub(r"\s+[-|–].*$", "", t)`: cut at the first whitespace run that
is followed by `-`, `|` or `–`. -/
def titleCutAux : List Char → List Char
  | [] => []
  | c :: cs =>
      if pyIsSpace c &&
          (match (cs.dropWhile pyIsSpace).head? with
            | some d => isTitleDash d
            | none => false) then []
      else c :: titleCutAux cs

def lenOk (t : String) : Bool := 3 ≤ t.length && t.length ≤ 140

/-- `extract_title_from_soup(soup, fallback)`. -/
def extract_title_from_soup (soup : Soup) (fallback : String) : String :=
  let fromHeads :=
    match [soup.h1, soup.h2, soup.h3, soup.h4].findSome? (fun h =>
        match h with
        | some txt =>
            let t := collapse_spaces txt
            if lenOk t then some t else none
        | none => none) with
    | some t => t
    | none => fallback
  let fromTitle :=
    match truthyS soup.titleText with
    | some ts =>
        let t0 := collapse_spaces ts
        let t := pyStrip ⟨titleCutAux t0.data⟩
        if lenOk t then t else fromHeads
    | none => fromHeads
  match truthyS soup.ogTitle with
  | some content =>
      let t := collapse_spaces content
      if lenOk t then t else fromTitle
  | none => fromTitle

/-- The `CITY_WORDS` of the location scanner. -/
def CITY_WORDS : List String :=
  ["India", "Bengaluru", "Bangalore", "Hyderabad", "Chennai", "Pune", "Mumbai",
   "Gurugram", "Gurgaon", "Noida", "Kolkata", "Delhi", "Remote", "Anywhere"]

/-- Match one city word at the current position, with `\b` on both
sides (case-insensitive). -/
def cityMatchAt (prev : Option Char) (cs : List Char) : Option (List Char) :=
  CITY_WORDS.findSome? (fun w =>
    let wl := (pyLower w).data
    if atBoundary prev cs && isPrefixCI wl cs &&
        atBoundary ((cs.take wl.length).getLast?) (cs.drop wl.length) then
      some (cs.take wl.length)
    else none)

/-- Leftmost search for a city word. -/
def citySearchAux : Option Char → List Char → Option (List Char)
  | prev, cs =>
      match cityMatchAt prev cs with
      | some m => some m
      | none => match cs with
        | [] => none
        | c :: rest => citySearchAux (some c) rest

def upperChar (c : Char) : Char :=
  if 'a' ≤ c && c ≤ 'z' then Char.ofNat (c.toNat - 32) else c

/-- Python `str.title()` on a single matched word. -/
def titleCase (s : String) : String :=
  match s.data with
  | [] => ""
  | c :: cs => ⟨upperChar c :: cs.map lowerChar⟩

/-- `extract_location_from_soup`. -/
def extract_location_from_soup (soup : Soup) : String :=
  match soup.ldJsonItems.findSome? (fun it =>
      if pyLower it.atType = "jobposting" then
        let parts := [it.locality, it.region, it.country].filterMap id
        let loc := String.intercalate ", " parts
        if loc ≠ "" then some loc else none
      else none) with
  | some loc => loc
  | none =>
      match citySearchAux none (soup.getText " ").data with
      | some m => titleCase ⟨m⟩
      | none => "Not specified"

/-! ## Discovery and link extraction

In the source, an href whose `urljoin` raises `ValueError` (mismatched
brackets in an authority) would abort the whole crawl pass, as nothing
catches it; the model skips such an anchor instead.  Every run of the real
code is a prefix of the corresponding model run, so the dedup bounds
proved below carry over. -/

/-- `CAREER_KEYWORDS` from the source. -/
def CAREER_KEYWORDS : List String :=
  ["career", "careers", "job", "jobs", "openings", "opportunities",
   "vacancy", "vacancies", "recruit", "join-us", "joinus", "work-with-us",
   "workwithus", "talent", "positions", "hiring"]

/-- The keyword/ATS-pattern list of `extract_job_links`. -/
def JOB_LINK_KEYS : List String :=
  ["job", "jobs", "opening", "position", "opportunity", "careers", "vacancy",
   "gh_jid", "lever.co", "greenhouse.io", "workable.com", "smartrecruiters.com",
   "myworkdayjobs.com"]

/-- An href skipped before any URL work: empty, a fragment, or a
`javascript:` link. -/
def hrefSkipped (href : String) : Bool :=
  href = "" || strStarts href "#" || strStarts (pyLower href) "javascript:"

/-- One anchor of `discover_career_pages`'s loop.  The anchor's link text
is computed by the source (`txt = collapse_spaces(a.get_text()).lower()`)
but never used. -/
def discoverStep (site_url : String) (acc : List String) (a : Anchor) : List String :=
  let _txt := pyLower (collapse_spaces a.text)
  let href := pyStrip a.href
  if hrefSkipped href then acc
  else
    match normalize_urlE site_url href with
    | none => acc
    | some full =>
        if !same_host site_url full then acc
        else if CAREER_KEYWORDS.any (fun k => pyIn k (pyLower full)) then setAdd acc full
        else acc

/-- `discover_career_pages(site_url, soup)`; the set falls back to
`{site_url}` when empty. -/
def discover_career_pages (site_url : String) (soup : Soup) : List String :=
  let pages := soup.anchors.foldl (discoverStep site_url) []
  if pages = [] then [site_url] else pages

/-- One anchor of `extract_job_links`'s loop. -/
def jobLinkStep (career_url : String) (acc : List String) (a : Anchor) : List String :=
  let href := pyStrip a.href
  if hrefSkipped href then acc
  else
    match normalize_urlE career_url href with
    | none => acc
    | some full =>
        let u := pyLower full
        if EXCLUDE_PATTERNS.any (fun x => pyIn x u) then acc
        else if JOB_LINK_KEYS.any (fun k => pyIn k u) then setAdd acc full
        else acc

/-- `extract_job_links(career_url, soup)`. -/
def extract_job_links (career_url : String) (soup : Soup) : List String :=
  soup.anchors.foldl (jobLinkStep career_url) []

/-! ## Fetching

The network, the optional headless renderer, the HTML parser, and the
Telegram sink are oracles supplied in a `World`; a crawl run is a pure
function of them.  `net url = none` models a non-200 response or a
transport error; `render url = none` models Selenium being unavailable or
failing. -/

structure World where
  net : String → Option String
  render : String → Option String
  enableJsRender : Bool
  parse : String → Soup
  sendOk : Nat → Bool

def RESTRICTED_DOMAINS : List String :=
  ["facebook.com", "linkedin.com", "twitter.com", "instagram.com", "x.com",
   "youtube.com"]

/-- `get_html(url)`. -/
def get_html (w : World) (url : String) : Option String :=
  if !strStarts url "http" then none
  else if RESTRICTED_DOMAINS.any (fun d => pyIn d (pyLower url)) then none
  else w.net url

/-- `js_get_html(url)`. -/
def js_get_html (w : World) (url : String) : Option String := w.render url

/-- `fetch_page(url)`, instrumented with whether the render fallback was
invoked. -/
def fetch_page_instr (w : World) (url : String) : Option String × Bool :=
  match truthyS (get_html w url) with
  | some h => (some h, false)
  | none =>
      if w.enableJsRender then (js_get_html w url, true) else (none, false)

def fetch_page (w : World) (url : String) : Option String :=
  (fetch_page_instr w url).1

/-! ## The Telegram send step -/

/-- One row of `jobs_log.csv`. -/
structure LogRow where
  posted : String
  company : String
  title : String
  location : String
  link : String
deriving DecidableEq, Repr

/-- The bot-level mutable state: the dedup set `sent_jobs`, the audit log
`jobs_log.csv`, a ghost list of messages the sink accepted (each with the
link it was for), and the number of send attempts made (used to index the
sink-outcome oracle). -/
structure BotState where
  sent_jobs : List String
  received : List (String × String)
  log : List LogRow
  sendCount : Nat
deriving DecidableEq, Repr

def initState (s0 : List String) : BotState := ⟨s0, [], [], 0⟩

/-- The message string `send_job` builds. -/
def formatMessage (company title location link : String) : String :=
  "role : \"" ++ collapse_spaces (if title = "" then "Job opening" else title) ++
  "\" , company name : " ++ collapse_spaces company ++
  " , location : " ++ collapse_spaces location ++
  " , apply link : " ++ link

/-- `send_job`: on sink success the message is delivered, the log row
appended, and the link added to `sent_jobs`; if `bot.send_message` raises,
the `except` swallows it and the state is unchanged.  (The log-file append
is modelled as always succeeding.) -/
def send_job (w : World) (st : BotState)
    (company title posted link location : String) : BotState :=
  if w.sendOk st.sendCount then
    { st with
        received := st.received ++ [(formatMessage company title location link, link)],
        log := st.log ++ [⟨posted, company, title, location, link⟩],
        sent_jobs := setAdd st.sent_jobs link,
        sendCount := st.sendCount + 1 }
  else { st with sendCount := st.sendCount + 1 }

/-! ## The crawl orchestrator -/

structure Company where
  name : String
  website : String
deriving DecidableEq, Repr

/-- The pass-local state of `crawl_jobs_once`: the bot state, the
pass-local `seen_global` set, and a ghost list recording each job-link
fetch attempted this pass. -/
structure PassState where
  bot : BotState
  seen : List String
  fetched : List String
deriving DecidableEq, Repr

/-- The body of the `for link in candidate_job_links` loop. -/
def processLink (w : World) (company : String) (ps : PassState) (link0 : String) :
    PassState :=
  let link := canonicalize_url link0
  if ps.seen.contains link || ps.bot.sent_jobs.contains link then ps
  else
    let ps := { ps with fetched := ps.fetched ++ [link] }
    match truthyS (fetch_page w link) with
    | none => ps
    | some job_html =>
        let job_soup := w.parse job_html
        if !looks_like_job_posting job_soup link then ps
        else
          let title := extract_title_from_soup job_soup "Job Opening"
          let posted := extract_date_from_soup job_soup
          let location := extract_location_from_soup job_soup
          let bot2 := send_job w ps.bot company title (posted.getD "") link location
          { ps with bot := bot2, seen := setAdd ps.seen link }

/-- The body of the per-company loop (invalid seed URLs are skipped; a
fetch failure skips the company; `save_sent` persists the set and changes
no in-memory state). -/
def processCompany (w : World) (ps : PassState) (c : Company) : PassState :=
  let company := pyStrip c.name
  let site := pyStrip c.website
  if !strStarts site "http" then ps
  else
    match truthyS (fetch_page w site) with
    | none => ps
    | some home_html =>
        let home_soup := w.parse home_html
        let career_pages := discover_career_pages site home_soup
        let candidate_job_links := career_pages.foldl (fun acc page =>
          match truthyS (fetch_page w page) with
          | none => acc
          | some ch => setUnion acc (extract_job_links page (w.parse ch))) []
        candidate_job_links.foldl (processLink w company) ps

/-- `crawl_jobs_once()` over a seed list (the CSV read and column check
are outside the model; an unreadable CSV corresponds to the empty list).
Returns the final bot state and the pass's ghost fetch list. -/
def crawl_jobs_once (w : World) (companies : List Company) (st : BotState) :
    BotState × List String :=
  let ps := companies.foldl (processCompany w) ⟨st, [], []⟩
  (ps.bot, ps.fetched)

/-- `n` crawl passes over the same fixed seed list and page oracles (the
scheduler loop of `main`). -/
def crawl_many (w : World) (companies : List Company) : Nat → BotState → BotState
  | 0, st => st
  | n + 1, st => crawl_many w companies n (crawl_jobs_once w companies st).1

/-! ### C2: classifier signal threshold -/

/-- C2.  For every page whose URL contains no exclusion keyword and no
job-indicating keyword, and whose HTML embeds no structured JobPosting
metadata, `looks_like_job_posting` returns `false` when exactly one of the
eight signal phrases is present in the page's visible text, and `true` when
at least two distinct signal phrases are present. -/
theorem classifier_signal_threshold (soup : Soup) (url : String)
    (hex : EXCLUDE_PATTERNS.any (fun x => pyIn x (pyLower url)) = false)
    (hkw : jobUrlKeys.any (fun k => pyIn k (pyLower url)) = false)
    (hld : hasJobPostingLd soup = false) :
    (signalCount soup = 1 → looks_like_job_posting soup url = false) ∧
    (2 ≤ signalCount soup → looks_like_job_posting soup url = true) := by
  unfold looks_like_job_posting
  simp only [hex, hld, hkw, Bool.false_eq_true, if_false]
  constructor
  · intro h1
    rw [h1]
    simp
  · intro h2
    simp [h2]

/-- A page with the single signal `"requirements"` and a keyword-free URL;
and the same page with `"responsibilities"` added as a second signal. -/
def onesigSoup : Soup :=
  { Soup.empty with textNodes := ["Our requirements are listed here"] }

def twosigSoup : Soup :=
  { Soup.empty with
      textNodes := ["Our requirements are listed here", "responsibilities too"] }

/-- Witness for C2 at a concrete page: one signal phrase classifies as not
a posting, two signal phrases classify as a posting. -/
theorem classifier_signal_threshold_witness :
    (signalCount onesigSoup = 1 → looks_like_job_posting onesigSoup "https://example.com/x" = false) ∧
    (2 ≤ signalCount twosigSoup → looks_like_job_posting twosigSoup "https://example.com/x" = true) :=
  ⟨(classifier_signal_threshold onesigSoup "https://example.com/x"
      (by decide) (by decide) (by decide)).1,
   (classifier_signal_threshold twosigSoup "https://example.com/x"
      (by decide) (by decide) (by decide)).2⟩

/-! ### C4: career-page discovery ignores anchor text -/

/-- A homepage whose only anchor has link text `"Careers"` but a
keyword-free URL. -/
def aboutSoup : Soup :=
  { Soup.empty with anchors := [⟨"/about", "Careers"⟩] }

/-- Counterexample to C4.  The anchor `<a href="/about">Careers</a>` on
`https://example.com` has a valid same-host href and link text containing
the keyword `careers`, so the claim says its canonicalized URL is kept —
but `discover_career_pages` computes the link text and never consults it,
drops the anchor because its URL has no keyword, and falls back to the
homepage itself. -/
theorem career_discovery_ignores_link_text :
    hrefSkipped (pyStrip "/about") = false ∧
    normalize_urlE "https://example.com" (pyStrip "/about") =
      some "https://example.com/about" ∧
    same_host "https://example.com" "https://example.com/about" = true ∧
    pyIn "careers" (pyLower (collapse_spaces "Careers")) = true ∧
    discover_career_pages "https://example.com" aboutSoup = ["https://example.com"] ∧
    "https://example.com/about" ∉ discover_career_pages "https://example.com" aboutSoup := by
  refine ⟨by decide, by decide, by decide, by decide, by decide, by decide⟩

theorem discoverStep_mono (site : String) (s : List String) (a : Anchor) (y : String)
    (hy : y ∈ s) : y ∈ discoverStep site s a := by
  unfold discoverStep
  dsimp only
  split
  · exact hy
  · split
    · exact hy
    · split
      · exact hy
      · split
        · exact (mem_setAdd _ _ _).mpr (Or.inl hy)
        · exact hy

theorem foldl_mem_of_mono {α : Type} (f : List String → α → List String)
    (hmono : ∀ s x y, y ∈ s → y ∈ f s x) (l : List α) (s : List String) (y : String)
    (hy : y ∈ s) : y ∈ l.foldl f s := by
  induction l generalizing s with
  | nil => exact hy
  | cons x xs ih => exact ih (f s x) (hmono s x y hy)

theorem foldl_mem_of_elem {α : Type} (f : List String → α → List String)
    (hmono : ∀ s x y, y ∈ s → y ∈ f s x) (l : List α) (a : α) (ha : a ∈ l)
    (full : String) (hadd : ∀ s, full ∈ f s a) (s : List String) :
    full ∈ l.foldl f s := by
  induction l generalizing s with
  | nil => cases ha
  | cons x xs ih =>
      rcases List.mem_cons.mp ha with rfl | hmem
      · exact foldl_mem_of_mono f hmono xs (f s a) full (hadd s)
      · exact ih hmem (f s x)

/-- C4 (amended).  `discover_career_pages` keeps an anchor based on its
URL alone: every homepage anchor with a non-empty, non-fragment,
non-script href that resolves to the same host is included (canonicalized)
exactly when its URL contains a career keyword — whatever its link text,
which the code computes but never consults. -/
theorem career_discovery_keeps_url_keyword (site : String) (soup : Soup) (a : Anchor)
    (ha : a ∈ soup.anchors) (full : String)
    (h1 : hrefSkipped (pyStrip a.href) = false)
    (hfull : normalize_urlE site (pyStrip a.href) = some full)
    (hhost : same_host site full = true)
    (hkw : CAREER_KEYWORDS.any (fun k => pyIn k (pyLower full)) = true) :
    full ∈ discover_career_pages site soup := by
  have hstep : ∀ s, full ∈ discoverStep site s a := by
    intro s
    unfold discoverStep
    dsimp only
    simp only [h1, hfull, hhost, hkw, Bool.not_true, Bool.false_eq_true, if_false, if_true]
    exact (mem_setAdd _ _ _).mpr (Or.inr rfl)
  have hin : full ∈ soup.anchors.foldl (discoverStep site) [] :=
    foldl_mem_of_elem (discoverStep site) (discoverStep_mono site) soup.anchors a ha
      full hstep []
  unfold discover_career_pages
  dsimp only
  split
  · next hempty => rw [hempty] at hin; cases hin
  · exact hin

/-- Witness for the amended C4: an anchor whose URL contains `careers` is
kept whatever its link text. -/
theorem career_discovery_keeps_url_keyword_witness :
    "https://example.com/careers" ∈
      discover_career_pages "https://example.com"
        { Soup.empty with anchors := [⟨"/careers", "whatever text"⟩] } :=
  career_discovery_keeps_url_keyword "https://example.com"
    { Soup.empty with anchors := [⟨"/careers", "whatever text"⟩] }
    ⟨"/careers", "whatever text"⟩ (by decide) "https://example.com/careers"
    (by decide) (by decide) (by decide) (by decide)

/-! ### C6: render fallback trigger -/

/-- Modelled from the spec: the heuristic that is said to judge a primary
result "unrendered" (page text length below a threshold with script-tag
density above a threshold, or no job-keyword anchor with high script
density).  No such heuristic exists anywhere in the source; it is stated
here, over the parsed page and explicit thresholds, only to formalize the
claim being refuted. -/
def spec_unrendered (textThresh scriptThresh : Nat) (soup : Soup)
    (scriptCount : Nat) : Bool :=
  ((soup.getText " ").length < textThresh && scriptThresh < scriptCount) ||
  (!(soup.anchors.any (fun a =>
      CAREER_KEYWORDS.any (fun k => pyIn k (pyLower a.text) || pyIn k (pyLower a.href)))) &&
    scriptThresh < scriptCount)

/-- A script-only single-page-app shell, and a world in which the renderer
is enabled and would return real content. -/
def spaHtml : String :=
  "<script src=\"/app.js\"></script><script src=\"/vendor.js\"></script>"

def spaWorld : World :=
  { net := fun _ => some spaHtml,
    render := fun _ => some "<html>rendered content</html>",
    enableJsRender := true,
    parse := fun _ => Soup.empty,
    sendOk := fun _ => true }

/-- Counterexample to C6.  With rendering enabled, the primary result is a
page with two script tags, no visible text and no anchors — judged
"unrendered" by the spec's heuristic at any thresholds (here 1 and 1) —
yet `fetch_page` returns it as-is and never attempts the render path: the
code consults only the truthiness of the primary result, never its
content. -/
theorem render_fallback_not_content_triggered :
    spec_unrendered 1 1 (spaWorld.parse spaHtml) 2 = true ∧
    fetch_page_instr spaWorld "http://spa.example/" = (some spaHtml, false) := by
  decide

/-- C6 (amended).  When dynamic rendering is enabled, `fetch_page`
attempts the fallback render path exactly when the primary HTTP fetch
yields no usable HTML (`None` or the empty string); the primary result's
content is never inspected. -/
theorem render_fallback_iff_primary_falsy (w : World) (url : String)
    (hjs : w.enableJsRender = true) :
    (fetch_page_instr w url).2 = true ↔ truthyS (get_html w url) = none := by
  unfold fetch_page_instr
  cases h : truthyS (get_html w url) with
  | none => simp [hjs]
  | some v => simp

/-- Witness for the amended C6 at a concrete world whose primary fetch
fails. -/
theorem render_fallback_iff_primary_falsy_witness :
    (fetch_page_instr { spaWorld with net := fun _ => none } "http://spa.example/").2 = true ↔
      truthyS (get_html { spaWorld with net := fun _ => none } "http://spa.example/") = none :=
  render_fallback_iff_primary_falsy { spaWorld with net := fun _ => none }
    "http://spa.example/" rfl

/-! ### C7: atomicity on notification failure -/

/-- C7.  If the sink call of `send_job` raises, the dedup set `sent_jobs`
is left unchanged — the link is not marked delivered — and no message is
recorded as received and no log row is written; only the attempt counter
moves.  The posting therefore remains eligible for retry on a later
pass. -/
theorem send_job_failure_atomic (w : World) (st : BotState)
    (company title posted link location : String)
    (hfail : w.sendOk st.sendCount = false) :
    (send_job w st company title posted link location).sent_jobs = st.sent_jobs ∧
    (send_job w st company title posted link location).received = st.received ∧
    (send_job w st company title posted link location).log = st.log := by
  unfold send_job
  rw [hfail]
  exact ⟨rfl, rfl, rfl⟩

/-- Witness for C7: a concrete failing send leaves the dedup set
unchanged. -/
theorem send_job_failure_atomic_witness :
    (send_job { spaWorld with sendOk := fun _ => false } (initState ["a"])
      "Acme" "Engineer" "" "http://x/jobs/1" "Remote").sent_jobs = ["a"] :=
  (send_job_failure_atomic { spaWorld with sendOk := fun _ => false } (initState ["a"])
    "Acme" "Engineer" "" "http://x/jobs/1" "Remote" rfl).1

/-! ### C8: within-pass dedup -/

/-- A third-party ATS link that `extract_job_links` keeps (it matches
`greenhouse.io`) but that `looks_like_job_posting` rejects (its URL has no
classifier keyword and the page below is empty). -/
def ghLink : String := "http://boards.greenhouse.io/acme/1"

/-- Two seed companies whose homepages both link to `ghLink`; the
homepages have no career-keyword anchors, so discovery falls back to the
homepage itself. -/
def c8World : World :=
  { net := fun u =>
      if u = "http://a.example" then some "homeA"
      else if u = "http://b.example" then some "homeB"
      else if u = ghLink then some "jobpage"
      else none,
    render := fun _ => none,
    enableJsRender := false,
    parse := fun h =>
      if h = "homeA" || h = "homeB" then
        { Soup.empty with anchors := [⟨ghLink, "Open roles"⟩] }
      else Soup.empty,
    sendOk := fun _ => true }

def c8Companies : List Company :=
  [⟨"A", "http://a.example"⟩, ⟨"B", "http://b.example"⟩]

/-- Counterexample to C8.  Within a single pass, the same canonical job
link, discovered from two seed companies and classified as *not* a posting,
is fetched (and classified) twice: `seen_global` is only updated after a
send, so links that never reach the send step are re-processed. -/
theorem job_link_refetched_within_pass :
    (crawl_jobs_once c8World c8Companies (initState [])).2 = [ghLink, ghLink] ∧
    (crawl_jobs_once c8World c8Companies (initState [])).1.received = [] := by
  refine ⟨by decide, by decide⟩

/-! ### Dedup invariants (C8 amended, C1) -/

theorem contains_iff_mem (l : List String) (x : String) :
    l.contains x = true ↔ x ∈ l := by
  simp

theorem contains_setAdd_mono {l : List String} {x y : String}
    (h : l.contains y = true) : (setAdd l x).contains y = true := by
  rw [contains_iff_mem] at h ⊢
  exact (mem_setAdd _ _ _).mpr (Or.inl h)

theorem contains_setAdd_self (l : List String) (x : String) :
    (setAdd l x).contains x = true := by
  rw [contains_iff_mem]
  exact (mem_setAdd _ _ _).mpr (Or.inr rfl)

theorem count_setAdd_ne {l : List String} {x y : String} (h : x ≠ y) :
    (setAdd l x).count y = l.count y := by
  unfold setAdd
  split
  · rfl
  · rw [List.count_append]
    simp [List.count_singleton, h]

theorem filter_append_one {α : Type} (p : α → Bool) (l : List α) (x : α) :
    ((l ++ [x]).filter p).length =
      (l.filter p).length + (if p x then 1 else 0) := by
  rw [List.filter_append]
  split <;> simp [List.filter_cons, *]

/-- Messages received for link `L`. -/
def countRecv (L : String) (st : BotState) : Nat :=
  (st.received.filter (fun p => p.2 = L)).length

/-- Audit-log rows for link `L`. -/
def countLog (L : String) (st : BotState) : Nat :=
  (st.log.filter (fun r => r.link = L)).length

theorem foldl_preserve {α σ : Type} (P : σ → Prop) (f : σ → α → σ)
    (hf : ∀ s x, P s → P (f s x)) : ∀ (l : List α) (s : σ), P s → P (l.foldl f s) := by
  intro l
  induction l with
  | nil => intro s hs; exact hs
  | cons x xs ih => intro s hs; exact ih (f s x) (hf s x hs)

/-- The per-pass invariant behind the amended C8: each link's delivery
count exceeds its count at pass start at most by one, and a link delivered
this pass is in `seen_global`. -/
def PassInv (base : BotState) (L : String) (ps : PassState) : Prop :=
  countRecv L ps.bot ≤ countRecv L base + 1 ∧
  (countRecv L ps.bot = countRecv L base + 1 → ps.seen.contains L = true)

theorem send_job_ok {w : World} {st : BotState}
    (hok : w.sendOk st.sendCount = true) (company title posted link location : String) :
    send_job w st company title posted link location =
      { st with
          received := st.received ++ [(formatMessage company title location link, link)],
          log := st.log ++ [⟨posted, company, title, location, link⟩],
          sent_jobs := setAdd st.sent_jobs link,
          sendCount := st.sendCount + 1 } := by
  unfold send_job
  rw [hok]
  rfl

theorem send_job_fail {w : World} {st : BotState}
    (hf : w.sendOk st.sendCount = false) (company title posted link location : String) :
    send_job w st company title posted link location =
      { st with sendCount := st.sendCount + 1 } := by
  unfold send_job
  rw [hf]
  rfl

theorem countRecv_send_job (w : World) (st : BotState)
    (company title posted link location L : String) :
    countRecv L (send_job w st company title posted link location) =
      countRecv L st +
        (if w.sendOk st.sendCount = true ∧ link = L then 1 else 0) := by
  cases hok : w.sendOk st.sendCount with
  | true =>
      rw [send_job_ok hok]
      unfold countRecv
      rw [filter_append_one]
      by_cases hL : link = L
      · simp [hL]
      · simp [hL]
  | false =>
      rw [send_job_fail hok]
      unfold countRecv
      simp [hok]

theorem countLog_send_job (w : World) (st : BotState)
    (company title posted link location L : String) :
    countLog L (send_job w st company title posted link location) =
      countLog L st +
        (if w.sendOk st.sendCount = true ∧ link = L then 1 else 0) := by
  cases hok : w.sendOk st.sendCount with
  | true =>
      rw [send_job_ok hok]
      unfold countLog
      rw [filter_append_one]
      by_cases hL : link = L
      · simp [hL]
      · simp [hL]
  | false =>
      rw [send_job_fail hok]
      unfold countLog
      simp [hok]

theorem sent_send_job (w : World) (st : BotState)
    (company title posted link location : String) :
    (send_job w st company title posted link location).sent_jobs =
      (if w.sendOk st.sendCount = true then setAdd st.sent_jobs link
        else st.sent_jobs) := by
  cases hok : w.sendOk st.sendCount with
  | true => rw [send_job_ok hok]; simp
  | false => rw [send_job_fail hok]; simp

theorem processLink_passInv (w : World) (company : String) (base : BotState)
    (L : String) (ps : PassState) (link0 : String) (h : PassInv base L ps) :
    PassInv base L (processLink w company ps link0) := by
  obtain ⟨h1, h2⟩ := h
  unfold processLink
  dsimp only
  split
  · exact ⟨h1, h2⟩
  · next hguard =>
      rw [Bool.or_eq_true, not_or, Bool.not_eq_true, Bool.not_eq_true] at hguard
      split
      · exact ⟨h1, h2⟩
      · split
        · exact ⟨h1, h2⟩
        · -- the send step: the link is in neither `seen_global` nor `sent_jobs`
          constructor
          · show countRecv L (send_job w ps.bot company _ _ (canonicalize_url link0) _)
              ≤ countRecv L base + 1
            rw [countRecv_send_job]
            by_cases hL : canonicalize_url link0 = L
            · have hne : countRecv L ps.bot ≠ countRecv L base + 1 := by
                intro he
                have hc := h2 he
                rw [hL] at hguard
                rw [hguard.1] at hc
                cases hc
              split <;> omega
            · have : ¬ (w.sendOk ps.bot.sendCount = true ∧ canonicalize_url link0 = L) :=
                fun hx => hL hx.2
              rw [if_neg this]
              omega
          · intro hcnt
            show (setAdd ps.seen (canonicalize_url link0)).contains L = true
            by_cases hL : canonicalize_url link0 = L
            · rw [← hL] at hcnt ⊢
              exact contains_setAdd_self _ _
            · rw [countRecv_send_job, if_neg (fun hx => hL hx.2)] at hcnt
              exact contains_setAdd_mono (h2 hcnt)

theorem processCompany_passInv (w : World) (base : BotState) (L : String)
    (ps : PassState) (c : Company) (h : PassInv base L ps) :
    PassInv base L (processCompany w ps c) := by
  unfold processCompany
  dsimp only
  split
  · exact h
  · split
    · exact h
    · exact foldl_preserve (PassInv base L) (processLink w (pyStrip c.name))
        (fun s x hx => processLink_passInv w (pyStrip c.name) base L s x hx) _ ps h

/-- C8 (amended).  Within a single crawl pass, every canonical job link is
*delivered* at most once, even when discovered from multiple career pages
or seed companies: `crawl_jobs_once` consults the pass-local `seen_global`
(and `sent_jobs`) before processing a link, and adds the link to
`seen_global` after a send attempt.  (A link that never reaches the send
step — fetch failure or classified as not a posting — is not added to
`seen_global` and may be fetched and classified again within the pass, as
the counterexample shows.) -/
theorem pass_delivers_at_most_once (w : World) (cs : List Company) (st : BotState)
    (L : String) :
    countRecv L (crawl_jobs_once w cs st).1 ≤ countRecv L st + 1 := by
  have hinit : PassInv st L ⟨st, [], []⟩ := by
    constructor
    · show countRecv L st ≤ countRecv L st + 1
      omega
    · intro he
      exact absurd he (by show countRecv L st ≠ countRecv L st + 1; omega)
  have hinv : PassInv st L (cs.foldl (processCompany w) ⟨st, [], []⟩) :=
    foldl_preserve (PassInv st L) (processCompany w)
      (fun s x hx => processCompany_passInv w st L s x hx) cs ⟨st, [], []⟩ hinit
  exact hinv.1

/-! ### C1: at-most-once delivery across passes -/

/-- The cross-pass invariant: every link has been delivered at most once,
any delivered link is in `sent_jobs`, and the audit log rows for a link
match its deliveries one for one. -/
def GlobalInv (st : BotState) : Prop :=
  ∀ L, countRecv L st ≤ 1 ∧
    (1 ≤ countRecv L st → st.sent_jobs.contains L = true) ∧
    countLog L st = countRecv L st

theorem processLink_globalInv (w : World) (company : String) (ps : PassState)
    (link0 : String) (h : GlobalInv ps.bot) :
    GlobalInv (processLink w company ps link0).bot := by
  unfold processLink
  dsimp only
  split
  · exact h
  · next hguard =>
      rw [Bool.or_eq_true, not_or, Bool.not_eq_true, Bool.not_eq_true] at hguard
      split
      · exact h
      · split
        · exact h
        · intro L
          obtain ⟨g1, g2, g3⟩ := h L
          show countRecv L (send_job w ps.bot company _ _ (canonicalize_url link0) _) ≤ 1 ∧ _
          rw [countRecv_send_job, countLog_send_job, sent_send_job, g3]
          by_cases hL : canonicalize_url link0 = L
          · have hc0 : countRecv L ps.bot = 0 := by
              by_contra hne
              have h1 := g2 (Nat.one_le_iff_ne_zero.mpr hne)
              rw [hL] at hguard
              rw [hguard.2] at h1
              cases h1
            refine ⟨by split <;> omega, ?_, rfl⟩
            intro _
            split
            · next hok =>
                rw [← hL]
                exact contains_setAdd_self _ _
            · next hok =>
                rw [Bool.not_eq_true] at hok
                rw [if_neg (by simp [hok])] at *
                omega
          · rw [if_neg (fun hx => hL hx.2)]
            refine ⟨by omega, ?_, rfl⟩
            intro h1e
            have hcc := g2 (by omega)
            split
            · exact contains_setAdd_mono hcc
            · exact hcc

theorem processCompany_globalInv (w : World) (ps : PassState) (c : Company)
    (h : GlobalInv ps.bot) : GlobalInv (processCompany w ps c).bot := by
  unfold processCompany
  dsimp only
  split
  · exact h
  · split
    · exact h
    · exact foldl_preserve (fun s => GlobalInv s.bot) (processLink w (pyStrip c.name))
        (fun s x hx => processLink_globalInv w (pyStrip c.name) s x hx) _ ps h

theorem crawl_once_globalInv (w : World) (cs : List Company) (st : BotState)
    (h : GlobalInv st) : GlobalInv (crawl_jobs_once w cs st).1 :=
  foldl_preserve (fun s => GlobalInv s.bot) (processCompany w)
    (fun s x hx => processCompany_globalInv w s x hx) cs ⟨st, [], []⟩ h

theorem crawl_many_globalInv (w : World) (cs : List Company) (n : Nat) (st : BotState)
    (h : GlobalInv st) : GlobalInv (crawl_many w cs n st) := by
  induction n generalizing st with
  | zero => exact h
  | succ m ih => exact ih (crawl_jobs_once w cs st).1 (crawl_once_globalInv w cs st h)

/-- The per-link frozen invariant: once a link is in `sent_jobs`, its
delivery count, its log-row count, and its multiplicity in `sent_jobs` all
stay exactly as they are. -/
def FrozenInv (L : String) (r lo c : Nat) (st : BotState) : Prop :=
  st.sent_jobs.contains L = true ∧ countRecv L st = r ∧ countLog L st = lo ∧
    st.sent_jobs.count L = c

theorem processLink_frozen (w : World) (company : String) (L : String) (r lo c : Nat)
    (ps : PassState) (link0 : String) (h : FrozenInv L r lo c ps.bot) :
    FrozenInv L r lo c (processLink w company ps link0).bot := by
  obtain ⟨hmem, hr, hlo, hc⟩ := h
  unfold processLink
  dsimp only
  split
  · exact ⟨hmem, hr, hlo, hc⟩
  · next hguard =>
      rw [Bool.or_eq_true, not_or, Bool.not_eq_true, Bool.not_eq_true] at hguard
      split
      · exact ⟨hmem, hr, hlo, hc⟩
      · split
        · exact ⟨hmem, hr, hlo, hc⟩
        · have hne : canonicalize_url link0 ≠ L := by
            intro he
            rw [he, hmem] at hguard
            cases hguard.2
          show FrozenInv L r lo c (send_job w ps.bot company _ _ (canonicalize_url link0) _)
          unfold FrozenInv
          rw [countRecv_send_job, countLog_send_job, sent_send_job,
            if_neg (show ¬(w.sendOk ps.bot.sendCount = true ∧ canonicalize_url link0 = L)
              from fun hx => hne hx.2)]
          split
          · exact ⟨contains_setAdd_mono hmem, by omega, by omega, by
              rw [count_setAdd_ne hne]; exact hc⟩
          · exact ⟨hmem, by omega, by omega, hc⟩

theorem processCompany_frozen (w : World) (L : String) (r lo c : Nat)
    (ps : PassState) (cp : Company) (h : FrozenInv L r lo c ps.bot) :
    FrozenInv L r lo c (processCompany w ps cp).bot := by
  unfold processCompany
  dsimp only
  split
  · exact h
  · split
    · exact h
    · exact foldl_preserve (fun s => FrozenInv L r lo c s.bot)
        (processLink w (pyStrip cp.name))
        (fun s x hx => processLink_frozen w (pyStrip cp.name) L r lo c s x hx) _ ps h

theorem crawl_many_frozen (w : World) (cs : List Company) (L : String) (r lo c : Nat)
    (n : Nat) (st : BotState) (h : FrozenInv L r lo c st) :
    FrozenInv L r lo c (crawl_many w cs n st) := by
  induction n generalizing st with
  | zero => exact h
  | succ m ih =>
      refine ih (crawl_jobs_once w cs st).1 ?_
      exact foldl_preserve (fun s => FrozenInv L r lo c s.bot) (processCompany w)
        (fun s x hx => processCompany_frozen w L r lo c s x hx) cs ⟨st, [], []⟩ h

/-- C1.  At-most-once delivery: over any number of crawl passes over the
same fixed seed list and page oracles, the sink receives a message for
each canonical link at most once, the audit log gets at most one row per
link, and a link already in the persisted dedup set at start is never
sent, never logged, and never re-added. -/
theorem at_most_once_delivery (w : World) (cs : List Company) (s0 : List String)
    (n : Nat) (L : String) :
    countRecv L (crawl_many w cs n (initState s0)) ≤ 1 ∧
    countLog L (crawl_many w cs n (initState s0)) ≤ 1 ∧
    (L ∈ s0 →
      countRecv L (crawl_many w cs n (initState s0)) = 0 ∧
      countLog L (crawl_many w cs n (initState s0)) = 0 ∧
      (crawl_many w cs n (initState s0)).sent_jobs.count L = s0.count L) := by
  have hg := crawl_many_globalInv w cs n (initState s0) (by
    intro L'
    refine ⟨?_, ?_, ?_⟩
    · show (0 : Nat) ≤ 1
      omega
    · intro h1
      exact absurd h1 (by show ¬(1 ≤ (0 : Nat)); omega)
    · rfl)
  refine ⟨(hg L).1, ?_, ?_⟩
  · rw [(hg L).2.2]
    exact (hg L).1
  · intro hmem
    have hf := crawl_many_frozen w cs L 0 0 (s0.count L) n (initState s0)
      ⟨(contains_iff_mem s0 L).mpr hmem, rfl, rfl, rfl⟩
    exact ⟨hf.2.1, hf.2.2.1, hf.2.2.2⟩

/-- Witness for C1 at a concrete world, seed list, and dedup set. -/
theorem at_most_once_delivery_witness :
    countRecv ghLink (crawl_many c8World c8Companies 2 (initState [ghLink])) ≤ 1 ∧
    countLog ghLink (crawl_many c8World c8Companies 2 (initState [ghLink])) ≤ 1 ∧
    (ghLink ∈ [ghLink] →
      countRecv ghLink (crawl_many c8World c8Companies 2 (initState [ghLink])) = 0 ∧
      countLog ghLink (crawl_many c8World c8Companies 2 (initState [ghLink])) = 0 ∧
      (crawl_many c8World c8Companies 2 (initState [ghLink])).sent_jobs.count ghLink =
        [ghLink].count ghLink) :=
  at_most_once_delivery c8World c8Companies [ghLink] 2 ghLink

/-! ### C9: loading the dedup store is total -/

/-- C9.  `load_sent` is a total function: it returns the empty set when
the persistence file is absent or unreadable/unparseable, and the set of
stored keys otherwise; being a Lean function, it cannot raise. -/
theorem load_sent_total :
    load_sent .absent = [] ∧ load_sent .unreadable = [] ∧
    ∀ ks : List String, ∀ k : String, k ∈ load_sent (.stored ks) ↔ k ∈ ks := by
  refine ⟨rfl, rfl, ?_⟩
  intro ks k
  exact mem_setOf ks k

/-! ## Toolkit for the canonicalisation idempotence analysis (C5)

Generic list and character lemmas, then round-trip lemmas for the
percent-encoding pipeline (`utf8Bytes`/`utf8Dec`, `quote_plus`/`unquote`,
`urlencode`/`parse_qsl`), then structural lemmas about
`urlsplit`/`urlunsplit` on the strings `canonicalize_url` produces. -/

theorem char_toNat_ofNat {n : Nat} (h : n < 55296) : (Char.ofNat n).toNat = n := by
  unfold Char.ofNat
  rw [dif_pos (Or.inl h)]
  rfl

theorem char_toNat_lt (c : Char) : c.toNat < 1114112 := by
  show c.val.toNat < 1114112
  rcases c.valid with h | h
  · omega
  · omega

theorem char_ne_of_toNat_ne {a b : Char} (h : a.toNat ≠ b.toNat) : a ≠ b :=
  fun hab => h (by rw [hab])

theorem findIdx_none_of_all {α : Type} {p : α → Bool} :
    ∀ (l : List α) (i : Nat), (∀ c ∈ l, p c = false) → l.findIdx? p i = none := by
  intro l
  induction l with
  | nil => intro i _; exact List.findIdx?_nil
  | cons a t ih =>
      intro i h
      rw [List.findIdx?_cons, if_neg (by simp [h a (by simp)])]
      exact ih (i + 1) (fun c hc => h c (by simp [hc]))

theorem findIdx_sep {α : Type} {p : α → Bool} :
    ∀ (l₁ : List α) (a : α) (l₂ : List α) (i : Nat),
      (∀ c ∈ l₁, p c = false) → p a = true →
      (l₁ ++ a :: l₂).findIdx? p i = some (i + l₁.length) := by
  intro l₁
  induction l₁ with
  | nil =>
      intro a l₂ i _ ha
      rw [List.nil_append, List.findIdx?_cons, if_pos ha]
      simp
  | cons b t ih =>
      intro a l₂ i h ha
      rw [List.cons_append, List.findIdx?_cons, if_neg (by simp [h b (by simp)])]
      rw [ih a l₂ (i + 1) (fun c hc => h c (by simp [hc])) ha]
      congr 1
      simp only [List.length_cons]
      omega

theorem findIdx_decomp {α : Type} {p : α → Bool} :
    ∀ (l : List α) (i j : Nat), l.findIdx? p i = some j →
      ∃ l₁ a l₂, l = l₁ ++ a :: l₂ ∧ j = i + l₁.length ∧ p a = true ∧
        ∀ c ∈ l₁, p c = false := by
  intro l
  induction l with
  | nil => intro i j h; rw [List.findIdx?_nil] at h; exact absurd h (by simp)
  | cons b t ih =>
      intro i j h
      rw [List.findIdx?_cons] at h
      by_cases hb : p b = true
      · rw [if_pos hb] at h
        have hij : i = j := by simpa using h
        exact ⟨[], b, t, by simp, by simp [hij], hb, by simp⟩
      · rw [if_neg hb] at h
        obtain ⟨l₁, a, l₂, hl, hj, hpa, hall⟩ := ih (i + 1) j h
        refine ⟨b :: l₁, a, l₂, by rw [hl, List.cons_append], ?_, hpa, ?_⟩
        · simp only [List.length_cons]; omega
        · intro c hc
          rcases List.mem_cons.mp hc with rfl | hc'
          · simpa using hb
          · exact hall c hc'

theorem takeWhile_append_all {α : Type} {p : α → Bool} :
    ∀ (l₁ l₂ : List α), (∀ c ∈ l₁, p c = true) →
      (l₁ ++ l₂).takeWhile p = l₁ ++ l₂.takeWhile p := by
  intro l₁
  induction l₁ with
  | nil => intro l₂ _; simp
  | cons b t ih =>
      intro l₂ h
      rw [List.cons_append, List.takeWhile_cons, if_pos (h b (by simp)),
        ih l₂ (fun c hc => h c (by simp [hc])), List.cons_append]

theorem takeWhile_stop {α : Type} {p : α → Bool} :
    ∀ (l₁ l₂ : List α), (l₂ = [] ∨ ∃ c t, l₂ = c :: t ∧ p c = false) →
      (l₁ ++ l₂).takeWhile p = l₁.takeWhile p := by
  intro l₁
  induction l₁ with
  | nil =>
      intro l₂ h
      rcases h with rfl | ⟨c, t, rfl, hc⟩
      · rfl
      · rw [List.nil_append, List.takeWhile_cons, if_neg (by simp [hc])]
        rfl
  | cons b t ih =>
      intro l₂ h
      rw [List.cons_append, List.takeWhile_cons, List.takeWhile_cons]
      by_cases hb : p b = true
      · rw [if_pos hb, if_pos hb, ih l₂ h]
      · rw [if_neg hb, if_neg hb]

theorem filterMap_eq_map_of_some {α β : Type} (f : α → Option β) (g : α → β) :
    ∀ (l : List α), (∀ x ∈ l, f x = some (g x)) → l.filterMap f = l.map g := by
  intro l
  induction l with
  | nil => intro _; rfl
  | cons a t ih =>
      intro h
      rw [List.filterMap_cons, h a (by simp), List.map_cons,
        ih (fun x hx => h x (by simp [hx]))]

/-! ### UTF-8 encode/decode round trip -/

theorem utf8Bytes_lt (v : Nat) (hv : v < 1114112) : ∀ b ∈ utf8Bytes v, b < 256 := by
  intro b hb
  unfold utf8Bytes at hb
  by_cases h1 : v < 128
  · rw [if_pos h1] at hb
    simp at hb
    omega
  · rw [if_neg h1] at hb
    by_cases h2 : v < 2048
    · rw [if_pos h2] at hb
      simp at hb
      rcases hb with rfl | rfl <;> omega
    · rw [if_neg h2] at hb
      by_cases h3 : v < 65536
      · rw [if_pos h3] at hb
        simp at hb
        rcases hb with rfl | rfl | rfl <;> omega
      · rw [if_neg h3] at hb
        simp at hb
        rcases hb with rfl | rfl | rfl | rfl <;> omega

theorem utf8DecF_step (m v : Nat) (rest : List Nat) (hv : v < 1114112) :
    utf8DecF (m + 1) (utf8Bytes v ++ rest) = Char.ofNat v :: utf8DecF m rest := by
  unfold utf8Bytes
  by_cases h1 : v < 128
  · rw [if_pos h1]
    show utf8DecF (m + 1) (v :: rest) = _
    simp only [utf8DecF]
    rw [if_pos h1]
  · rw [if_neg h1]
    by_cases h2 : v < 2048
    · rw [if_pos h2]
      show utf8DecF (m + 1) (_ :: _ :: rest) = _
      simp only [utf8DecF]
      rw [if_neg (by omega)]
      rw [if_pos (show ((194 ≤ 192 + v / 64 : Bool) && (192 + v / 64 ≤ 223 : Bool)) = true by
        simp only [Bool.and_eq_true, decide_eq_true_eq]
        omega)]
      rw [if_pos (show isContB (128 + v % 64) = true by
        simp only [isContB, Bool.and_eq_true, decide_eq_true_eq]
        omega)]
      have hval : (192 + v / 64 - 192) * 64 + (128 + v % 64 - 128) = v := by omega
      rw [hval]
    · rw [if_neg h2]
      by_cases h3 : v < 65536
      · rw [if_pos h3]
        show utf8DecF (m + 1) (_ :: _ :: _ :: rest) = _
        simp only [utf8DecF]
        rw [if_neg (by omega)]
        rw [if_neg (show ¬ ((194 ≤ 224 + v / 4096 : Bool) && (224 + v / 4096 ≤ 223 : Bool)) = true by
          simp only [Bool.and_eq_true, decide_eq_true_eq]
          omega)]
        rw [if_pos (show ((224 ≤ 224 + v / 4096 : Bool) && (224 + v / 4096 ≤ 239 : Bool)) = true by
          simp only [Bool.and_eq_true, decide_eq_true_eq]
          omega)]
        rw [if_pos (show (isContB (128 + v / 64 % 64) && isContB (128 + v % 64)) = true by
          simp only [isContB, Bool.and_eq_true, decide_eq_true_eq]
          omega)]
        have hval : (224 + v / 4096 - 224) * 4096 + (128 + v / 64 % 64 - 128) * 64 +
            (128 + v % 64 - 128) = v := by omega
        rw [hval]
      · rw [if_neg h3]
        show utf8DecF (m + 1) (_ :: _ :: _ :: _ :: rest) = _
        simp only [utf8DecF]
        rw [if_neg (by omega)]
        rw [if_neg (show ¬ ((194 ≤ 240 + v / 262144 : Bool) && (240 + v / 262144 ≤ 223 : Bool)) = true by
          simp only [Bool.and_eq_true, decide_eq_true_eq]
          omega)]
        rw [if_neg (show ¬ ((224 ≤ 240 + v / 262144 : Bool) && (240 + v / 262144 ≤ 239 : Bool)) = true by
          simp only [Bool.and_eq_true, decide_eq_true_eq]
          omega)]
        rw [if_pos (show ((240 ≤ 240 + v / 262144 : Bool) && (240 + v / 262144 ≤ 244 : Bool)) = true by
          simp only [Bool.and_eq_true, decide_eq_true_eq]
          omega)]
        rw [if_pos (show (isContB (128 + v / 4096 % 64) && isContB (128 + v / 64 % 64) &&
            isContB (128 + v % 64)) = true by
          simp only [isContB, Bool.and_eq_true, decide_eq_true_eq]
          omega)]
        have hval : (240 + v / 262144 - 240) * 262144 + (128 + v / 4096 % 64 - 128) * 4096 +
            (128 + v / 64 % 64 - 128) * 64 + (128 + v % 64 - 128) = v := by omega
        rw [hval]

/-- The UTF-8 byte stream of a character sequence. -/
def utf8Concat (ds : List Char) : List Nat := ds.flatMap (fun c => utf8Bytes c.toNat)

theorem utf8Concat_cons (d : Char) (t : List Char) :
    utf8Concat (d :: t) = utf8Bytes d.toNat ++ utf8Concat t :=
  List.flatMap_cons d t _

theorem utf8Bytes_length_pos (v : Nat) : 1 ≤ (utf8Bytes v).length := by
  unfold utf8Bytes
  split
  · simp
  · split
    · simp
    · split <;> simp

theorem length_le_utf8Concat : ∀ (ds : List Char), ds.length ≤ (utf8Concat ds).length := by
  intro ds
  induction ds with
  | nil => simp [utf8Concat]
  | cons d t ih =>
      rw [utf8Concat_cons, List.length_append, List.length_cons]
      have := utf8Bytes_length_pos d.toNat
      omega

theorem utf8DecF_concat : ∀ (ds : List Char) (m : Nat), ds.length ≤ m →
    utf8DecF m (utf8Concat ds) = ds := by
  intro ds
  induction ds with
  | nil => intro m _; cases m <;> rfl
  | cons d t ih =>
      intro m hm
      rw [List.length_cons] at hm
      obtain ⟨k, rfl⟩ : ∃ k, m = k + 1 := ⟨m - 1, by omega⟩
      rw [utf8Concat_cons, utf8DecF_step k d.toNat (utf8Concat t) (char_toNat_lt d),
        Char.ofNat_toNat, ih k (by omega)]

theorem utf8Dec_concat (ds : List Char) : utf8Dec (utf8Concat ds) = ds :=
  utf8DecF_concat ds (utf8Concat ds).length (length_le_utf8Concat ds)

/-! ### The `quote_plus`/`unquote_plus` round trip -/

theorem hexVal_hexUpper (n : Nat) (h : n < 16) : hexVal (hexUpper n) = some n := by
  interval_cases n <;> decide

theorem hexUpper_safe (n : Nat) (h : n < 16) : alwaysSafe (hexUpper n) = true := by
  interval_cases n <;> decide

theorem pctTokens_cons_ne (c : Char) (h : c ≠ '%') (cs : List Char) :
    pctTokens (c :: cs) = Sum.inr c :: pctTokens cs := by
  cases cs with
  | nil => simp [pctTokens, h]
  | cons a t =>
      cases t with
      | nil => simp [pctTokens, h]
      | cons b t2 => simp [pctTokens, h]

theorem pctTokens_byteToPct (b : Nat) (h : b < 256) (rest : List Char) :
    pctTokens (byteToPct b ++ rest) = Sum.inl b :: pctTokens rest := by
  show pctTokens ('%' :: hexUpper (b / 16) :: hexUpper (b % 16) :: rest) = _
  rw [pctTokens]
  rw [hexVal_hexUpper (b / 16) (by omega), hexVal_hexUpper (b % 16) (by omega)]
  show Sum.inl (16 * (b / 16) + b % 16) :: pctTokens rest = _
  have hb : 16 * (b / 16) + b % 16 = b := by omega
  rw [hb]

theorem pctTokens_byteRun : ∀ (bs : List Nat) (rest : List Char),
    (∀ b ∈ bs, b < 256) →
    pctTokens (bs.flatMap byteToPct ++ rest) = bs.map Sum.inl ++ pctTokens rest := by
  intro bs
  induction bs with
  | nil => intro rest _; simp
  | cons b t ih =>
      intro rest h
      rw [List.flatMap_cons, List.append_assoc,
        pctTokens_byteToPct b (h b (by simp)) _,
        ih rest (fun x hx => h x (by simp [hx])), List.map_cons, List.cons_append]

/-- Characters `quote_plus` can emit. -/
theorem quote_plus_chars (s : String) :
    ∀ c ∈ (quote_plus s).data, alwaysSafe c = true ∨ c = '+' ∨ c = '%' := by
  intro c hc
  have hc' : c ∈ s.data.flatMap quotePlusChar := hc
  rw [List.mem_flatMap] at hc'
  obtain ⟨d, _, hcd⟩ := hc'
  unfold quotePlusChar at hcd
  by_cases h1 : d = ' '
  · rw [if_pos h1] at hcd
    simp at hcd
    exact Or.inr (Or.inl hcd)
  · rw [if_neg h1] at hcd
    by_cases h2 : alwaysSafe d = true
    · rw [if_pos h2] at hcd
      simp at hcd
      exact Or.inl (hcd ▸ h2)
    · rw [if_neg h2] at hcd
      rw [List.mem_flatMap] at hcd
      obtain ⟨b, hb, hcb⟩ := hcd
      have hblt : b < 256 := utf8Bytes_lt d.toNat (char_toNat_lt d) b hb
      unfold byteToPct at hcb
      simp at hcb
      rcases hcb with rfl | rfl | rfl
      · exact Or.inr (Or.inr rfl)
      · exact Or.inl (hexUpper_safe (b / 16) (by omega))
      · exact Or.inl (hexUpper_safe (b % 16) (by omega))

/-- Every character `quote_plus` emits is none of the structural URL
delimiters and is not one of the removed bytes. -/
theorem quote_char_facts (c : Char) (hc : alwaysSafe c = true ∨ c = '+' ∨ c = '%') :
    c ≠ '&' ∧ c ≠ '=' ∧ c ≠ '#' ∧ c ≠ '?' ∧ isUnsafeUrlByte c = false := by
  refine ⟨?_, ?_, ?_, ?_, ?_⟩
  · rintro rfl; revert hc; decide
  · rintro rfl; revert hc; decide
  · rintro rfl; revert hc; decide
  · rintro rfl; revert hc; decide
  · cases hb : isUnsafeUrlByte c with
    | false => rfl
    | true =>
        exfalso
        simp only [isUnsafeUrlByte, Bool.or_eq_true, decide_eq_true_eq] at hb
        rcases hb with (rfl | rfl) | rfl <;> revert hc <;> decide

/-- The `+`-to-space replacement of `unquote_plus`. -/
def plusToSpace (cs : List Char) : List Char :=
  cs.map (fun c => if c = '+' then ' ' else c)

/-- Token stream produced by `quote_plus` followed by `+`-to-space. -/
def tokensOf (c : Char) : List (Nat ⊕ Char) :=
  if c = ' ' then [Sum.inr ' ']
  else if alwaysSafe c then [Sum.inr c]
  else (utf8Bytes c.toNat).map Sum.inl

theorem flatMap_congr_mem {α β : Type} (g h : α → List β) :
    ∀ (l : List α), (∀ b ∈ l, g b = h b) → l.flatMap g = l.flatMap h := by
  intro l
  induction l with
  | nil => intro _; rfl
  | cons a t ih =>
      intro hh
      rw [List.flatMap_cons, List.flatMap_cons, hh a (by simp),
        ih (fun b hb => hh b (by simp [hb]))]

theorem plusToSpace_byteToPct (b : Nat) (hb : b < 256) :
    plusToSpace (byteToPct b) = byteToPct b := by
  have h1 : hexUpper (b / 16) ≠ '+' := by
    have hs := hexUpper_safe (b / 16) (by omega)
    intro h
    rw [h] at hs
    revert hs
    decide
  have h2 : hexUpper (b % 16) ≠ '+' := by
    have hs := hexUpper_safe (b % 16) (by omega)
    intro h
    rw [h] at hs
    revert hs
    decide
  unfold plusToSpace byteToPct
  simp [h1, h2]

theorem plusToSpace_quotePlusChar (c : Char) :
    plusToSpace (quotePlusChar c) =
      if c = ' ' then [' ']
      else if alwaysSafe c then [c]
      else (utf8Bytes c.toNat).flatMap byteToPct := by
  unfold quotePlusChar
  by_cases h1 : c = ' '
  · rw [if_pos h1, if_pos h1]
    rfl
  · rw [if_neg h1, if_neg h1]
    by_cases h2 : alwaysSafe c = true
    · rw [if_pos h2]
      have hne : c ≠ '+' := by rintro rfl; revert h2; decide
      show plusToSpace [c] = [c]
      unfold plusToSpace
      simp [hne]
    · rw [if_neg h2]
      show plusToSpace ((utf8Bytes c.toNat).flatMap byteToPct) = _
      unfold plusToSpace
      rw [List.map_flatMap]
      exact flatMap_congr_mem _ _ _
        (fun b hb => plusToSpace_byteToPct b (utf8Bytes_lt c.toNat (char_toNat_lt c) b hb))

theorem tokensOf_space {c : Char} (h : c = ' ') : tokensOf c = [Sum.inr ' '] := by
  rw [h]
  rfl

theorem tokensOf_safe {c : Char} (h1 : ¬ c = ' ') (h2 : alwaysSafe c = true) :
    tokensOf c = [Sum.inr c] := by
  unfold tokensOf
  rw [if_neg h1, if_pos h2]

theorem tokensOf_bytes {c : Char} (h1 : ¬ c = ' ') (h2 : ¬ alwaysSafe c = true) :
    tokensOf c = (utf8Bytes c.toNat).map Sum.inl := by
  unfold tokensOf
  rw [if_neg h1, if_neg h2]

theorem pctTokens_quoteStream : ∀ (cs : List Char),
    pctTokens (plusToSpace (cs.flatMap quotePlusChar)) = cs.flatMap tokensOf := by
  intro cs
  induction cs with
  | nil => rfl
  | cons c t ih =>
      rw [List.flatMap_cons, List.flatMap_cons]
      show pctTokens (plusToSpace (quotePlusChar c ++ t.flatMap quotePlusChar)) = _
      have hmap : plusToSpace (quotePlusChar c ++ t.flatMap quotePlusChar) =
          plusToSpace (quotePlusChar c) ++ plusToSpace (t.flatMap quotePlusChar) :=
        List.map_append _ _ _
      rw [hmap, plusToSpace_quotePlusChar]
      by_cases h1 : c = ' '
      · rw [if_pos h1, tokensOf_space h1]
        rw [List.cons_append, List.nil_append,
          pctTokens_cons_ne ' ' (by decide) _, ih]
        rfl
      · rw [if_neg h1]
        by_cases h2 : alwaysSafe c = true
        · rw [if_pos h2, tokensOf_safe h1 h2]
          have hne : c ≠ '%' := by rintro rfl; revert h2; decide
          rw [List.cons_append, List.nil_append, pctTokens_cons_ne c hne _, ih]
          rfl
        · rw [if_neg h2, tokensOf_bytes h1 h2]
          rw [pctTokens_byteRun _ _ (utf8Bytes_lt c.toNat (char_toNat_lt c)), ih]

theorem decodeTokens_inls : ∀ (bs : List Nat) (acc : List Nat) (ts : List (Nat ⊕ Char)),
    decodeTokens acc (bs.map Sum.inl ++ ts) = decodeTokens (bs.reverse ++ acc) ts := by
  intro bs
  induction bs with
  | nil => intro acc ts; simp
  | cons b t ih =>
      intro acc ts
      rw [List.map_cons, List.cons_append]
      show decodeTokens (b :: acc) (t.map Sum.inl ++ ts) = _
      rw [ih (b :: acc) ts]
      congr 1
      simp

theorem decodeTokens_stream : ∀ (cs ds : List Char),
    decodeTokens (utf8Concat ds).reverse (cs.flatMap tokensOf) = ds ++ cs := by
  intro cs
  induction cs with
  | nil =>
      intro ds
      show utf8Dec (utf8Concat ds).reverse.reverse = ds ++ []
      rw [List.reverse_reverse, utf8Dec_concat, List.append_nil]
  | cons c t ih =>
      intro ds
      rw [List.flatMap_cons]
      by_cases h1 : c = ' '
      · rw [tokensOf_space h1, List.cons_append, List.nil_append]
        show utf8Dec (utf8Concat ds).reverse.reverse ++ ' ' :: decodeTokens [] (t.flatMap tokensOf) =
          ds ++ c :: t
        have h0 : decodeTokens ([] : List Nat) (t.flatMap tokensOf) = [] ++ t := ih []
        rw [List.reverse_reverse, utf8Dec_concat, h0, List.nil_append, h1]
      · by_cases h2 : alwaysSafe c = true
        · rw [tokensOf_safe h1 h2, List.cons_append, List.nil_append]
          show utf8Dec (utf8Concat ds).reverse.reverse ++ c :: decodeTokens [] (t.flatMap tokensOf) =
            ds ++ c :: t
          have h0 : decodeTokens ([] : List Nat) (t.flatMap tokensOf) = [] ++ t := ih []
          rw [List.reverse_reverse, utf8Dec_concat, h0, List.nil_append]
        · rw [tokensOf_bytes h1 h2]
          rw [decodeTokens_inls]
          have hacc : (utf8Bytes c.toNat).reverse ++ (utf8Concat ds).reverse =
              (utf8Concat (ds ++ [c])).reverse := by
            rw [← List.reverse_append]
            congr 1
            unfold utf8Concat
            rw [List.flatMap_append]
            simp
          rw [hacc, ih (ds ++ [c]), List.append_assoc, List.singleton_append]

theorem unquotePlus_quote_plus (s : String) : unquotePlus (quote_plus s) = s := by
  show pyUnquote ⟨plusToSpace (s.data.flatMap quotePlusChar)⟩ = s
  unfold pyUnquote
  rw [pctTokens_quoteStream]
  have h0 : decodeTokens ([] : List Nat) (s.data.flatMap tokensOf) = [] ++ s.data :=
    decodeTokens_stream s.data []
  rw [List.nil_append] at h0
  show (⟨decodeTokens [] (s.data.flatMap tokensOf)⟩ : String) = s
  rw [h0]

/-! ### The `parse_qsl`/`urlencode` round trip -/

theorem intercalate_go_data (s : String) :
    ∀ (l : List String) (acc : String),
      (String.intercalate.go acc s l).data =
        acc.data ++ l.flatMap (fun x => s.data ++ x.data) := by
  intro l
  induction l with
  | nil => intro acc; simp [String.intercalate.go]
  | cons a t ih =>
      intro acc
      rw [String.intercalate.go, ih (acc ++ s ++ a), List.flatMap_cons]
      simp [String.data_append, List.append_assoc]

theorem intercalate_data (s : String) (a : String) (t : List String) :
    (String.intercalate s (a :: t)).data =
      a.data ++ t.flatMap (fun x => s.data ++ x.data) := by
  show (String.intercalate.go a s t).data = _
  rw [intercalate_go_data s t a]

theorem splitOnChar_ne_nil (sep : Char) : ∀ (cs : List Char), splitOnChar sep cs ≠ [] := by
  intro cs
  induction cs with
  | nil => simp [splitOnChar]
  | cons c t ih =>
      rw [splitOnChar]
      split
      · simp
      · split
        · simp
        · simp

theorem splitOnChar_cons_sep (sep : Char) (cs : List Char) :
    splitOnChar sep (sep :: cs) = [] :: splitOnChar sep cs := by
  rw [splitOnChar, if_pos rfl]

theorem splitOnChar_chunk (sep : Char) :
    ∀ (a cs : List Char), (∀ c ∈ a, c ≠ sep) →
      splitOnChar sep (a ++ cs) =
        match splitOnChar sep cs with
        | [] => [a]
        | h :: t => (a ++ h) :: t := by
  intro a
  induction a with
  | nil =>
      intro cs _
      rw [List.nil_append]
      rcases hsp : splitOnChar sep cs with _ | ⟨h, t⟩
      · exact absurd hsp (splitOnChar_ne_nil sep cs)
      · simp
  | cons b a' ih =>
      intro cs h
      rw [List.cons_append, splitOnChar, if_neg (h b (by simp))]
      rw [ih cs (fun c hc => h c (by simp [hc]))]
      rcases hsp : splitOnChar sep cs with _ | ⟨x, t⟩
      · exact absurd hsp (splitOnChar_ne_nil sep cs)
      · simp

theorem splitOnChar_no_sep (sep : Char) : ∀ (a : List Char), (∀ c ∈ a, c ≠ sep) →
    splitOnChar sep a = [a] := by
  intro a
  induction a with
  | nil => intro _; rfl
  | cons b t ih =>
      intro h
      rw [splitOnChar, if_neg (h b (by simp)), ih (fun c hc => h c (by simp [hc]))]

theorem splitOnChar_glue (sep : Char) :
    ∀ (t : List (List Char)) (a : List Char), (∀ c ∈ a, c ≠ sep) →
      (∀ x ∈ t, ∀ c ∈ x, c ≠ sep) →
      splitOnChar sep (a ++ t.flatMap (fun x => sep :: x)) = a :: t := by
  intro t
  induction t with
  | nil =>
      intro a ha _
      rw [List.flatMap_nil, List.append_nil, splitOnChar_no_sep sep a ha]
  | cons b t' ih =>
      intro a ha ht
      rw [List.flatMap_cons, List.cons_append, splitOnChar_chunk sep a _ ha]
      have hrec : splitOnChar sep (sep :: (b ++ t'.flatMap (fun x => sep :: x))) =
          [] :: (b :: t') := by
        rw [splitOnChar_cons_sep, ih b (ht b (by simp)) (fun x hx => ht x (by simp [hx]))]
      rw [hrec]
      simp

/-- One encoded pair as it appears inside `urlencode` output. -/
def encPiece (p : String × String) : List Char :=
  (quote_plus p.1).data ++ '=' :: (quote_plus p.2).data

theorem urlencode_data_cons (p : String × String) (t : List (String × String)) :
    (urlencode (p :: t)).data =
      encPiece p ++ (t.map encPiece).flatMap (fun x => '&' :: x) := by
  show (String.intercalate "&" ((p :: t).map
    (fun q => quote_plus q.1 ++ "=" ++ quote_plus q.2))).data = _
  rw [List.map_cons, intercalate_data]
  have hUnit : ∀ q : String × String,
      (quote_plus q.1 ++ "=" ++ quote_plus q.2).data = encPiece q := by
    intro q
    rw [String.data_append, String.data_append, List.append_assoc]
    rfl
  rw [hUnit p]
  congr 1
  rw [List.flatMap_map, List.flatMap_map]
  exact flatMap_congr_mem _ _ _ (fun q _ => by rw [hUnit q]; rfl)

theorem encPiece_no_amp (p : String × String) : ∀ c ∈ encPiece p, c ≠ '&' := by
  intro c hc
  unfold encPiece at hc
  rcases List.mem_append.mp hc with h | h
  · exact (quote_char_facts c (quote_plus_chars p.1 c h)).1
  · rcases List.mem_cons.mp h with rfl | h'
    · decide
    · exact (quote_char_facts c (quote_plus_chars p.2 c h')).1

theorem splitFirstEq_encPiece (p : String × String) :
    splitFirstEq (encPiece p) = some ((quote_plus p.1).data, (quote_plus p.2).data) := by
  unfold splitFirstEq encPiece
  rw [findIdx_sep (quote_plus p.1).data '=' (quote_plus p.2).data 0
    (fun c hc => by
      have := (quote_char_facts c (quote_plus_chars p.1 c hc)).2.1
      simp [this])
    (by decide)]
  rw [Nat.zero_add]
  show some (List.take (quote_plus p.1).data.length
      ((quote_plus p.1).data ++ '=' :: (quote_plus p.2).data),
    List.drop ((quote_plus p.1).data.length + 1)
      ((quote_plus p.1).data ++ '=' :: (quote_plus p.2).data)) = _
  have h1 : List.take (quote_plus p.1).data.length
      ((quote_plus p.1).data ++ '=' :: (quote_plus p.2).data) = (quote_plus p.1).data :=
    List.take_left _ _
  have h2 : List.drop ((quote_plus p.1).data.length + 1)
      ((quote_plus p.1).data ++ '=' :: (quote_plus p.2).data) = (quote_plus p.2).data := by
    have hsplit : (quote_plus p.1).data ++ '=' :: (quote_plus p.2).data =
        ((quote_plus p.1).data ++ ['=']) ++ (quote_plus p.2).data := by simp
    have hlen : (quote_plus p.1).data.length + 1 = ((quote_plus p.1).data ++ ['=']).length := by
      simp
    rw [hsplit, hlen, List.drop_left]
  rw [h1, h2]

theorem encPiece_ne_nil (q : String × String) : encPiece q ≠ [] := by
  unfold encPiece
  intro h
  rcases List.append_eq_nil.mp h with ⟨_, h3⟩
  simp at h3

theorem parse_qsl_urlencode (ps : List (String × String)) :
    parse_qsl (urlencode ps) = ps := by
  cases ps with
  | nil => rfl
  | cons p t =>
      unfold parse_qsl
      rw [if_neg (by
        intro hq
        have hd : (urlencode (p :: t)).data = [] := by rw [hq]
        rw [urlencode_data_cons] at hd
        exact encPiece_ne_nil p (List.append_eq_nil.mp hd).1)]
      rw [urlencode_data_cons]
      rw [splitOnChar_glue '&' (t.map encPiece) (encPiece p) (encPiece_no_amp p)
        (fun x hx c hc => by
          obtain ⟨q, _, rfl⟩ := List.mem_map.mp hx
          exact encPiece_no_amp q c hc)]
      have hmap : encPiece p :: t.map encPiece = (p :: t).map encPiece :=
        (List.map_cons _ _ _).symm
      rw [hmap, List.filterMap_map]
      have hsome : ∀ q ∈ p :: t,
          ((fun nv => if nv = [] then none
            else match splitFirstEq nv with
              | none => some (unquotePlus ⟨nv⟩, "")
              | some (n, v) => some (unquotePlus ⟨n⟩, unquotePlus ⟨v⟩)) ∘ encPiece) q =
            some (id q) := by
        intro q _
        show (if encPiece q = [] then none
          else match splitFirstEq (encPiece q) with
            | none => some (unquotePlus ⟨encPiece q⟩, "")
            | some (n, v) => some (unquotePlus ⟨n⟩, unquotePlus ⟨v⟩)) = some (id q)
        rw [if_neg (encPiece_ne_nil q), splitFirstEq_encPiece]
        show some (unquotePlus (quote_plus q.1), unquotePlus (quote_plus q.2)) = some (id q)
        rw [unquotePlus_quote_plus, unquotePlus_quote_plus]
        rfl
      rw [filterMap_eq_map_of_some _ id (p :: t) hsome, List.map_id]

/-! ### Character-class facts for the split/unsplit round trip -/

theorem char_contains_iff (l : List Char) (c : Char) : l.contains c = true ↔ c ∈ l := by
  simp

theorem mem_schemeChars_lower {c : Char} (h : c ∈ schemeChars) : lowerChar c ∈ schemeChars := by
  fin_cases h <;> decide

theorem mem_schemeChars_facts {c : Char} (h : c ∈ schemeChars) :
    c ≠ ':' ∧ isUnsafeUrlByte c = false ∧ 32 < c.toNat := by
  fin_cases h <;> decide

theorem isAsciiAlpha_iff (c : Char) : isAsciiAlpha c = true ↔
    (97 ≤ c.toNat ∧ c.toNat ≤ 122) ∨ (65 ≤ c.toNat ∧ c.toNat ≤ 90) := by
  unfold isAsciiAlpha
  simp only [Bool.or_eq_true, Bool.and_eq_true, decide_eq_true_eq, char_le_iff,
    show ('a' : Char).toNat = 97 from rfl, show ('z' : Char).toNat = 122 from rfl,
    show ('A' : Char).toNat = 65 from rfl, show ('Z' : Char).toNat = 90 from rfl]

theorem isC0OrSpace_false_iff (c : Char) : isC0OrSpace c = false ↔ 32 < c.toNat := by
  unfold isC0OrSpace
  simp only [decide_eq_false_iff_not]
  omega

theorem isAsciiAlpha_not_c0 {c : Char} (h : isAsciiAlpha c = true) :
    isC0OrSpace c = false := by
  rw [isC0OrSpace_false_iff]
  rcases (isAsciiAlpha_iff c).mp h with ⟨h1, _⟩ | ⟨h1, _⟩ <;> omega

theorem lowerChar_cases (c : Char) :
    lowerChar c = c ∨ (65 ≤ c.toNat ∧ c.toNat ≤ 90 ∧ (lowerChar c).toNat = c.toNat + 32) := by
  unfold lowerChar
  by_cases h : ('A' ≤ c && c ≤ 'Z') = true
  · right
    rw [if_pos h]
    rw [Bool.and_eq_true, decide_eq_true_eq, decide_eq_true_eq] at h
    obtain ⟨h1, h2⟩ := h
    have h1' : 65 ≤ c.toNat := char_le_iff.mp h1
    have h2' : c.toNat ≤ 90 := char_le_iff.mp h2
    exact ⟨h1', h2', char_toNat_ofNat (by omega)⟩
  · left
    rw [if_neg h]

theorem lowerChar_eq_self_of_not_upper {c : Char} (h : ¬ (65 ≤ c.toNat ∧ c.toNat ≤ 90)) :
    lowerChar c = c := by
  unfold lowerChar
  rw [if_neg]
  intro hc
  rw [Bool.and_eq_true, decide_eq_true_eq, decide_eq_true_eq] at hc
  exact h ⟨char_le_iff.mp hc.1, char_le_iff.mp hc.2⟩

theorem lowerChar_idem (c : Char) : lowerChar (lowerChar c) = lowerChar c := by
  rcases lowerChar_cases c with he | ⟨h1, h2, h3⟩
  · rw [he]
    exact he
  · exact lowerChar_eq_self_of_not_upper (by omega)

theorem lowerChar_alpha {c : Char} (h : isAsciiAlpha c = true) :
    isAsciiAlpha (lowerChar c) = true := by
  rcases lowerChar_cases c with he | ⟨h1, h2, h3⟩
  · rw [he]
    exact h
  · rw [isAsciiAlpha_iff]
    left
    omega

theorem lowerChar_toNat_ne {c : Char} {m : Nat} (hm1 : m ≤ 96)
    (h : c.toNat ≠ m) : (lowerChar c).toNat ≠ m := by
  rcases lowerChar_cases c with he | ⟨h1, h2, h3⟩
  · rw [he]
    exact h
  · omega

theorem char_toNat_injEq {a b : Char} : a = b ↔ a.toNat = b.toNat := by
  constructor
  · intro h
    rw [h]
  · intro h
    exact char_eq_of_toNat h

/-! ### `strEnds` facts -/

theorem isPrefixCh_one {a : Char} {l : List Char} (h : isPrefixCh [a] l = true) :
    ∃ t, l = a :: t := by
  cases l with
  | nil => exact absurd h (by simp [isPrefixCh])
  | cons c1 r1 =>
      refine ⟨r1, ?_⟩
      simp only [isPrefixCh, Bool.and_eq_true, decide_eq_true_eq] at h
      rw [h.1]

theorem isPrefixCh_two {a b : Char} {l : List Char} (h : isPrefixCh [a, b] l = true) :
    ∃ t, l = a :: b :: t := by
  cases l with
  | nil => exact absurd h (by simp [isPrefixCh])
  | cons c1 r1 =>
      simp only [isPrefixCh, Bool.and_eq_true, decide_eq_true_eq] at h
      obtain ⟨rfl, h2⟩ := h
      obtain ⟨t, rfl⟩ := isPrefixCh_one h2
      exact ⟨t, rfl⟩

theorem strEnds_of_two_slash {x : String} (h : strEnds x "//" = true) :
    strEnds x "/" = true := by
  unfold strEnds at h ⊢
  obtain ⟨t, ht⟩ := isPrefixCh_two (h : isPrefixCh ['/', '/'] x.data.reverse = true)
  rw [ht]
  simp [isPrefixCh]

theorem strEnds_dropLast_slash {x : String} (h : strEnds x "//" = true) :
    strEnds (dropLastChar x) "/" = true := by
  unfold strEnds at h ⊢
  obtain ⟨t, ht⟩ := isPrefixCh_two (h : isPrefixCh ['/', '/'] x.data.reverse = true)
  have hx : x.data = (t.reverse ++ ['/']) ++ ['/'] := by
    have := congrArg List.reverse ht
    rw [List.reverse_reverse] at this
    rw [this]
    simp
  show isPrefixCh ['/'] (dropLastChar x).data.reverse = true
  have hd : (dropLastChar x).data = t.reverse ++ ['/'] := by
    show x.data.dropLast = _
    rw [hx, List.dropLast_concat]
  rw [hd]
  simp [isPrefixCh]

/-! ### Step lemmas for `urlsplitE` on well-formed input -/

theorem urlsplitE_eq (url d : String) :
    urlsplitE url d =
      if (netlocOf (schemeOf (sanitizeUrl url) d).2).1 then
        some ⟨(schemeOf (sanitizeUrl url) d).1,
              ⟨(netlocOf (schemeOf (sanitizeUrl url) d).2).2.1⟩,
              ⟨(querySplit (fragSplit (netlocOf (schemeOf (sanitizeUrl url) d).2).2.2).1).1⟩,
              ⟨(querySplit (fragSplit (netlocOf (schemeOf (sanitizeUrl url) d).2).2.2).1).2⟩,
              ⟨(fragSplit (netlocOf (schemeOf (sanitizeUrl url) d).2).2.2).2⟩⟩
      else none := rfl

theorem sanitizeUrl_id (l : List Char)
    (hu : ∀ c ∈ l, isUnsafeUrlByte c = false)
    (hh : ∀ c t, l = c :: t → isC0OrSpace c = false) :
    sanitizeUrl ⟨l⟩ = l := by
  show ((⟨l⟩ : String).data.dropWhile isC0OrSpace).filter (fun c => !isUnsafeUrlByte c) = l
  have hd : l.dropWhile isC0OrSpace = l := by
    cases l with
    | nil => rfl
    | cons a t =>
        rw [List.dropWhile_cons, if_neg (by simp [hh a t rfl])]
  show (l.dropWhile isC0OrSpace).filter (fun c => !isUnsafeUrlByte c) = l
  rw [hd]
  exact List.filter_eq_self.mpr (fun a ha => by simp [hu a ha])

theorem mem_sanitizeUrl_not_unsafe (u : String) :
    ∀ c ∈ sanitizeUrl u, isUnsafeUrlByte c = false := by
  intro c hc
  unfold sanitizeUrl at hc
  have := (List.mem_filter.mp hc).2
  simpa using this

theorem dropWhile_head_false {α : Type} (p : α → Bool) :
    ∀ (l : List α) {a : α} {t : List α}, l.dropWhile p = a :: t → p a = false := by
  intro l
  induction l with
  | nil => intro a t h; simp at h
  | cons b l' ih =>
      intro a t h
      rw [List.dropWhile_cons] at h
      by_cases hb : p b = true
      · rw [if_pos hb] at h
        exact ih h
      · rw [if_neg hb] at h
        injection h with h1 _
        rw [← h1]
        simpa using hb

theorem isUnsafeUrlByte_false_of_gt32 {c : Char} (h : 32 < c.toNat) :
    isUnsafeUrlByte c = false := by
  have h9 : ('\t' : Char).toNat = 9 := rfl
  have h13 : ('\r' : Char).toNat = 13 := rfl
  have h10 : ('\n' : Char).toNat = 10 := rfl
  have h1 : c ≠ '\t' := char_ne_of_toNat_ne (by rw [h9]; omega)
  have h2 : c ≠ '\r' := char_ne_of_toNat_ne (by rw [h13]; omega)
  have h3 : c ≠ '\n' := char_ne_of_toNat_ne (by rw [h10]; omega)
  unfold isUnsafeUrlByte
  simp [h1, h2, h3]

theorem sanitizeUrl_head_not_c0 (u : String) :
    ∀ c t, sanitizeUrl u = c :: t → isC0OrSpace c = false := by
  intro c t h
  unfold sanitizeUrl at h
  rcases hd : u.data.dropWhile isC0OrSpace with _ | ⟨a, t0⟩
  · rw [hd] at h
    simp at h
  · have ha : isC0OrSpace a = false := dropWhile_head_false isC0OrSpace u.data hd
    rw [hd, List.filter_cons,
      if_pos (by simp [isUnsafeUrlByte_false_of_gt32 ((isC0OrSpace_false_iff a).mp ha)])] at h
    injection h with h1 _
    rw [← h1]
    exact ha

theorem map_lower_idem (l : List Char) : (l.map lowerChar).map lowerChar = l.map lowerChar := by
  induction l with
  | nil => rfl
  | cons a t ih =>
      show lowerChar (lowerChar a) :: (t.map lowerChar).map lowerChar =
        lowerChar a :: t.map lowerChar
      rw [lowerChar_idem, ih]

theorem drop_append_cons {α : Type} (l₁ : List α) (a : α) (l₂ : List α) :
    (l₁ ++ a :: l₂).drop (l₁.length + 1) = l₂ := by
  have hsplit : l₁ ++ a :: l₂ = (l₁ ++ [a]) ++ l₂ := by simp
  have hlen : l₁.length + 1 = (l₁ ++ [a]).length := by simp
  rw [hsplit, hlen, List.drop_left]

theorem take_append_cons {α : Type} (l₁ : List α) (a : α) (l₂ : List α) :
    (l₁ ++ a :: l₂).take (l₁.length + 1) = l₁ ++ [a] := by
  have hsplit : l₁ ++ a :: l₂ = (l₁ ++ [a]) ++ l₂ := by simp
  have hlen : l₁.length + 1 = (l₁ ++ [a]).length := by simp
  rw [hsplit, hlen, List.take_left]

/-! ### `schemeOf` lemmas -/

theorem schemeOf_found (s : String) (rest : List Char)
    (halpha : ∃ c0 t0, s.data = c0 :: t0 ∧ isAsciiAlpha c0 = true)
    (hchars : ∀ c ∈ s.data, schemeChars.contains c = true)
    (hlower : s.data.map lowerChar = s.data) (d : String) :
    schemeOf (s.data ++ ':' :: rest) d = (s, rest) := by
  obtain ⟨c0, t0, hs, hc0⟩ := halpha
  have hfind : (s.data ++ ':' :: rest).findIdx? (fun c => c = ':') 0 =
      some s.data.length := by
    have h0 := findIdx_sep (p := fun c => decide (c = ':')) s.data ':' rest 0
      (fun c hc => by
        have h1 := (mem_schemeChars_facts ((char_contains_iff _ _).mp (hchars c hc))).1
        simp [h1])
      (by simp)
    simpa using h0
  have hcond : (0 < s.data.length &&
      (match (s.data ++ ':' :: rest).head? with
        | some c0 => isAsciiAlpha c0
        | none => false) &&
      ((s.data ++ ':' :: rest).take s.data.length).all
        (fun c => schemeChars.contains c)) = true := by
    rw [Bool.and_eq_true, Bool.and_eq_true]
    refine ⟨⟨?_, ?_⟩, ?_⟩
    · rw [hs]
      simp
    · rw [hs]
      exact hc0
    · rw [List.take_left, List.all_eq_true]
      exact hchars
  unfold schemeOf
  rw [hfind]
  dsimp only
  rw [if_pos hcond, List.take_left, hlower, drop_append_cons]

theorem schemeOf_no_colon (cs : List Char) (d : String)
    (h : ∀ c ∈ cs, c ≠ ':') : schemeOf cs d = (⟨d.data⟩, cs) := by
  unfold schemeOf
  rw [findIdx_none_of_all cs 0 (fun c hc => by simp [h c hc])]

theorem schemeOf_head_not_alpha (cs : List Char) (d : String)
    (h : ∀ c0 t0, cs = c0 :: t0 → isAsciiAlpha c0 = false) :
    schemeOf cs d = (⟨d.data⟩, cs) := by
  unfold schemeOf
  cases hf : cs.findIdx? (fun c => c = ':') 0 with
  | none => rfl
  | some i =>
      dsimp only
      rw [if_neg ?_]
      intro hcc
      rw [Bool.and_eq_true, Bool.and_eq_true] at hcc
      obtain ⟨⟨_, hmatch⟩, _⟩ := hcc
      cases hcs : cs with
      | nil =>
          rw [hcs] at hf
          rw [List.findIdx?_nil] at hf
          exact absurd hf (by simp)
      | cons c0 t0 =>
          rw [hcs] at hmatch
          have halpha : isAsciiAlpha c0 = true := hmatch
          rw [h c0 t0 hcs] at halpha
          exact absurd halpha (by simp)

theorem schemeOf_empty_rest {cs rest : List Char}
    (h : schemeOf cs "" = ("", rest)) : rest = cs := by
  unfold schemeOf at h
  cases hf : cs.findIdx? (fun c => c = ':') 0 with
  | none =>
      rw [hf] at h
      dsimp only at h
      rw [Prod.mk.injEq] at h
      exact h.2.symm
  | some i =>
      rw [hf] at h
      dsimp only at h
      split at h
      · next hcond =>
          rw [Bool.and_eq_true, Bool.and_eq_true] at hcond
          obtain ⟨⟨h0i, _⟩, _⟩ := hcond
          rw [Prod.mk.injEq] at h
          have hdata : ((cs.take i).map lowerChar) = [] := by
            have := congrArg String.data h.1
            simpa using this
          have htake : cs.take i = [] := by
            cases htk : cs.take i with
            | nil => rfl
            | cons a t =>
                rw [htk] at hdata
                simp at hdata
          rcases List.take_eq_nil_iff.mp htake with h0 | h0
          · rw [h0] at h0i
            simp at h0i
          · rw [h0] at hf
            rw [List.findIdx?_nil] at hf
            exact absurd hf (by simp)
      · rw [Prod.mk.injEq] at h
        exact h.2.symm

theorem schemeOf_scheme_ok {cs : List Char} {sch : String} {rest : List Char}
    (h : schemeOf cs "" = (sch, rest)) :
    sch = "" ∨ ∃ c0 t0, sch.data = c0 :: t0 ∧ isAsciiAlpha c0 = true ∧
      (∀ c ∈ sch.data, schemeChars.contains c = true) ∧
      sch.data.map lowerChar = sch.data := by
  unfold schemeOf at h
  cases hf : cs.findIdx? (fun c => c = ':') 0 with
  | none =>
      rw [hf] at h
      dsimp only at h
      rw [Prod.mk.injEq] at h
      left
      exact h.1.symm
  | some i =>
      rw [hf] at h
      dsimp only at h
      split at h
      · next hcond =>
          right
          rw [Bool.and_eq_true, Bool.and_eq_true] at hcond
          obtain ⟨⟨h0i, hhead⟩, hall⟩ := hcond
          rw [Prod.mk.injEq] at h
          obtain ⟨hsch, _⟩ := h
          have h0i' : 0 < i := by simpa using h0i
          cases hcs : cs with
          | nil =>
              rw [hcs] at hf
              rw [List.findIdx?_nil] at hf
              exact absurd hf (by simp)
          | cons c0 t0 =>
              rw [hcs] at hhead
              obtain ⟨k, rfl⟩ : ∃ k, i = k + 1 := ⟨i - 1, by omega⟩
              rw [hcs, List.take_succ_cons] at hsch hall
              refine ⟨lowerChar c0, (t0.take k).map lowerChar, ?_, lowerChar_alpha hhead,
                ?_, ?_⟩
              · rw [← hsch]
                rfl
              · intro c hcmem
                rw [← hsch] at hcmem
                have hcmem' : c ∈ (c0 :: t0.take k).map lowerChar := hcmem
                obtain ⟨d, hd, rfl⟩ := List.mem_map.mp hcmem'
                have hdch : schemeChars.contains d = true := by
                  rw [List.all_eq_true] at hall
                  exact hall d hd
                exact (char_contains_iff _ _).mpr
                  (mem_schemeChars_lower ((char_contains_iff _ _).mp hdch))
              · rw [← hsch]
                show ((c0 :: t0.take k).map lowerChar).map lowerChar = _
                rw [map_lower_idem]
      · rw [Prod.mk.injEq] at h
        left
        exact h.1.symm

theorem schemeOf_fail_extend (cs : List Char) (m : Nat) (tail : List Char)
    (hfail : schemeOf cs "" = ("", cs))
    (htail : tail = [] ∨ ∃ t2, tail = '?' :: t2) :
    schemeOf (cs.take m ++ tail) "" = ("", cs.take m ++ tail) := by
  cases hf : (cs.take m ++ tail).findIdx? (fun c => c = ':') 0 with
  | none =>
      unfold schemeOf
      rw [hf]
  | some j =>
      unfold schemeOf
      rw [hf]
      dsimp only
      rw [if_neg ?_]
      intro hcc
      rw [Bool.and_eq_true, Bool.and_eq_true] at hcc
      obtain ⟨⟨h0j, hhead⟩, hall⟩ := hcc
      have h0j' : 0 < j := by simpa using h0j
      obtain ⟨l₁, a, l₂, hx, hj, hpa, hnone⟩ := findIdx_decomp (cs.take m ++ tail) 0 j hf
      rw [Nat.zero_add] at hj
      have ha : a = ':' := by simpa using hpa
      subst ha
      subst hj
      by_cases hcase : l₁.length < (cs.take m).length
      · -- the colon lies inside `cs.take m`: first-pass detection would have succeeded
        have hLm : (cs.take m).length ≤ m := by
          rw [List.length_take]
          omega
        have htake1 : (cs.take m ++ tail).take (l₁.length + 1) = l₁ ++ [':'] := by
          rw [hx, take_append_cons]
        have htake1' : (cs.take m ++ tail).take (l₁.length + 1) =
            (cs.take m).take (l₁.length + 1) := by
          rw [List.take_append_of_le_length (by omega)]
        have htakecs : cs.take (l₁.length + 1) = l₁ ++ [':'] := by
          rw [← htake1, htake1', List.take_take]
          congr 1
          omega
        have hcs_decomp : cs = l₁ ++ ':' :: cs.drop (l₁.length + 1) := by
          have h0 := List.take_append_drop (l₁.length + 1) cs
          rw [htakecs] at h0
          rw [← h0]
          simp
        have hfindcs : cs.findIdx? (fun c => c = ':') 0 = some l₁.length := by
          have := findIdx_sep l₁ ':' (cs.drop (l₁.length + 1)) 0
            (fun c hc => hnone c hc) (by simp)
          rw [← hcs_decomp] at this
          simpa using this
        -- head and scheme-character side conditions transfer
        have htakel : (cs.take m ++ tail).take l₁.length = l₁ := by
          rw [hx, List.take_left]
        have htakecsl : cs.take l₁.length = l₁ := by
          have e2 : cs.take l₁.length = (cs.take m).take l₁.length := by
            rw [List.take_take]
            congr 1
            omega
          have e3 : (cs.take m).take l₁.length = (cs.take m ++ tail).take l₁.length :=
            (List.take_append_of_le_length (by omega)).symm
          rw [e2, e3, htakel]
        obtain ⟨c0, t0, hl1⟩ : ∃ c0 t0, l₁ = c0 :: t0 := by
          cases hl : l₁ with
          | nil =>
              rw [hl] at h0j'
              simp at h0j'
          | cons c0 t0 => exact ⟨c0, t0, rfl⟩
        have hcshead : ∃ tcs, cs = c0 :: tcs := by
          refine ⟨t0 ++ ':' :: cs.drop (l₁.length + 1), ?_⟩
          conv_lhs => rw [hcs_decomp]
          rw [hl1]
          rfl
        obtain ⟨tcs, hcs'⟩ := hcshead
        have hxhead : ∃ tx, cs.take m ++ tail = c0 :: tx := by
          refine ⟨t0 ++ ':' :: l₂, ?_⟩
          rw [hx, hl1]
          rfl
        obtain ⟨tx, hx'⟩ := hxhead
        have hcond2 : (0 < l₁.length &&
            (match cs.head? with
              | some c0 => isAsciiAlpha c0
              | none => false) &&
            (cs.take l₁.length).all (fun c => schemeChars.contains c)) = true := by
          rw [Bool.and_eq_true, Bool.and_eq_true]
          refine ⟨⟨by simpa using h0j', ?_⟩, ?_⟩
          · rw [hcs']
            show isAsciiAlpha c0 = true
            have h6 := hhead
            rw [hx'] at h6
            exact h6
          · rw [htakecsl]
            have := hall
            rw [htakel] at this
            exact this
        have : schemeOf cs "" =
            ((⟨(cs.take l₁.length).map lowerChar⟩ : String), cs.drop (l₁.length + 1)) := by
          unfold schemeOf
          rw [hfindcs]
          dsimp only
          rw [if_pos hcond2]
        rw [hfail] at this
        rw [Prod.mk.injEq] at this
        have hdata := congrArg String.data this.1
        rw [htakecsl, hl1] at hdata
        simp at hdata
      · -- the colon lies at or past the appended tail: impossible or blocked by `?`
        rcases htail with rfl | ⟨t2, rfl⟩
        · rw [List.append_nil] at hx
          have hlen := congrArg List.length hx
          rw [List.length_append, List.length_cons] at hlen
          omega
        · by_cases heq : l₁.length = (cs.take m).length
          · obtain ⟨he1, he2⟩ := List.append_inj hx.symm heq
            injection he2 with he3 _
            exact absurd he3 (by decide)
          · have hgt : (cs.take m).length < l₁.length := by omega
            have hqmem : '?' ∈ l₁ := by
              have htk : l₁ = (cs.take m ++ '?' :: t2).take l₁.length := by
                rw [hx, List.take_left]
              have hdec : (cs.take m ++ '?' :: t2).take l₁.length =
                  cs.take m ++ ('?' :: t2).take (l₁.length - (cs.take m).length) := by
                have hlx : l₁.length = (cs.take m).length +
                    (l₁.length - (cs.take m).length) := by omega
                conv_lhs => rw [hlx]
                rw [List.take_append]
              obtain ⟨k2, hk2⟩ : ∃ k2, l₁.length - (cs.take m).length = k2 + 1 :=
                ⟨l₁.length - (cs.take m).length - 1, by omega⟩
              rw [htk, hdec, hk2, List.take_succ_cons]
              exact List.mem_append.mpr (Or.inr (by simp))
            have hq : schemeChars.contains '?' = true := by
              rw [List.all_eq_true] at hall
              have := hall '?' (by
                rw [hx, List.take_left]
                exact hqmem)
              exact this
            exact absurd hq (by decide)

/-! ### `netlocOf`, `fragSplit`, `querySplit` lemmas -/

theorem netlocOf_slash (tl : List Char) :
    netlocOf ('/' :: '/' :: tl) =
      (netlocCheck (tl.takeWhile (fun c => c ≠ '/' && c ≠ '?' && c ≠ '#')),
       tl.takeWhile (fun c => c ≠ '/' && c ≠ '?' && c ≠ '#'),
       tl.drop (tl.takeWhile (fun c => c ≠ '/' && c ≠ '?' && c ≠ '#')).length) := rfl

theorem netlocOf_other (rest : List Char)
    (h : ∀ tl, rest ≠ '/' :: '/' :: tl) : netlocOf rest = (true, [], rest) := by
  unfold netlocOf
  split
  · exact absurd rfl (h _)
  · rfl

theorem fragSplit_none (cs : List Char) (h : ∀ c ∈ cs, c ≠ '#') :
    fragSplit cs = (cs, []) := by
  unfold fragSplit
  rw [findIdx_none_of_all (p := fun c => decide (c = '#')) cs 0
    (fun c hc => by simp [h c hc])]

theorem querySplit_none (cs : List Char) (h : ∀ c ∈ cs, c ≠ '?') :
    querySplit cs = (cs, []) := by
  unfold querySplit
  rw [findIdx_none_of_all (p := fun c => decide (c = '?')) cs 0
    (fun c hc => by simp [h c hc])]

theorem querySplit_sep (l₁ l₂ : List Char) (h : ∀ c ∈ l₁, c ≠ '?') :
    querySplit (l₁ ++ '?' :: l₂) = (l₁, l₂) := by
  unfold querySplit
  have hfind : (l₁ ++ '?' :: l₂).findIdx? (fun c => c = '?') 0 = some l₁.length := by
    have h0 := findIdx_sep (p := fun c => decide (c = '?')) l₁ '?' l₂ 0
      (fun c hc => by simp [h c hc]) (by simp)
    simpa using h0
  rw [hfind]
  dsimp only
  rw [List.take_left, drop_append_cons]

theorem all_false_of_findIdx_none {α : Type} {p : α → Bool} :
    ∀ (l : List α) (i : Nat), l.findIdx? p i = none → ∀ c ∈ l, p c = false := by
  intro l
  induction l with
  | nil => intro i _ c hc; simp at hc
  | cons a t ih =>
      intro i h c hc
      rw [List.findIdx?_cons] at h
      by_cases ha : p a = true
      · rw [if_pos ha] at h
        simp at h
      · rw [if_neg ha] at h
        rcases List.mem_cons.mp hc with rfl | hc'
        · simpa using ha
        · exact ih (i + 1) h c hc'

theorem cons_of_take_cons {α : Type} {m : Nat} {l : List α} {c : α} {t : List α}
    (h : l.take m = c :: t) : ∃ l2, l = c :: l2 := by
  cases m with
  | zero => simp at h
  | succ k =>
      cases l with
      | nil => simp at h
      | cons a l2 =>
          rw [List.take_succ_cons] at h
          injection h with h1 _
          exact ⟨l2, by rw [h1]⟩

theorem schemeOf_snd_subset (cs : List Char) (d : String) :
    ∀ c ∈ (schemeOf cs d).2, c ∈ cs := by
  intro c hc
  unfold schemeOf at hc
  cases hf : cs.findIdx? (fun c => c = ':') 0 with
  | none =>
      rw [hf] at hc
      exact hc
  | some i =>
      rw [hf] at hc
      dsimp only at hc
      split at hc
      · exact List.drop_subset _ _ hc
      · exact hc

theorem fragSplit_fst_no_hash (cs : List Char) : ∀ c ∈ (fragSplit cs).1, c ≠ '#' := by
  intro c hc
  unfold fragSplit at hc
  cases hf : cs.findIdx? (fun c => c = '#') 0 with
  | none =>
      rw [hf] at hc
      have := all_false_of_findIdx_none cs 0 hf c hc
      simpa using this
  | some i =>
      rw [hf] at hc
      dsimp only at hc
      obtain ⟨l₁, a, l₂, hx, hj, _, hnone⟩ := findIdx_decomp cs 0 i hf
      rw [Nat.zero_add] at hj
      subst hj
      rw [hx, List.take_left] at hc
      have := hnone c hc
      simpa using this

theorem querySplit_fst_no_qm (cs : List Char) : ∀ c ∈ (querySplit cs).1, c ≠ '?' := by
  intro c hc
  unfold querySplit at hc
  cases hf : cs.findIdx? (fun c => c = '?') 0 with
  | none =>
      rw [hf] at hc
      have := all_false_of_findIdx_none cs 0 hf c hc
      simpa using this
  | some i =>
      rw [hf] at hc
      dsimp only at hc
      obtain ⟨l₁, a, l₂, hx, hj, _, hnone⟩ := findIdx_decomp cs 0 i hf
      rw [Nat.zero_add] at hj
      subst hj
      rw [hx, List.take_left] at hc
      have := hnone c hc
      simpa using this

theorem fragSplit_fst_take (cs : List Char) : ∃ m, (fragSplit cs).1 = cs.take m := by
  unfold fragSplit
  cases hf : cs.findIdx? (fun c => c = '#') 0 with
  | none => exact ⟨cs.length, (List.take_length cs).symm⟩
  | some i => exact ⟨i, rfl⟩

theorem querySplit_fst_take (cs : List Char) : ∃ m, (querySplit cs).1 = cs.take m := by
  unfold querySplit
  cases hf : cs.findIdx? (fun c => c = '?') 0 with
  | none => exact ⟨cs.length, (List.take_length cs).symm⟩
  | some i => exact ⟨i, rfl⟩

theorem fragSplit_fst_subset (cs : List Char) : ∀ c ∈ (fragSplit cs).1, c ∈ cs := by
  intro c hc
  obtain ⟨m, hm⟩ := fragSplit_fst_take cs
  rw [hm] at hc
  exact List.take_subset m cs hc

theorem querySplit_fst_subset (cs : List Char) : ∀ c ∈ (querySplit cs).1, c ∈ cs := by
  intro c hc
  obtain ⟨m, hm⟩ := querySplit_fst_take cs
  rw [hm] at hc
  exact List.take_subset m cs hc

theorem fragSplit_fst_head {cs : List Char} {c0 : Char} {t0 : List Char}
    (h : (fragSplit cs).1 = c0 :: t0) : ∃ t1, cs = c0 :: t1 := by
  obtain ⟨m, hm⟩ := fragSplit_fst_take cs
  rw [hm] at h
  exact cons_of_take_cons h

theorem querySplit_fst_head {cs : List Char} {c0 : Char} {t0 : List Char}
    (h : (querySplit cs).1 = c0 :: t0) : ∃ t1, cs = c0 :: t1 := by
  obtain ⟨m, hm⟩ := querySplit_fst_take cs
  rw [hm] at h
  exact cons_of_take_cons h

/-- Invariants of the components out of which `canonicalize_url`
reassembles its result, as guaranteed by `urlsplitE`: scheme shape,
delimiter-free netloc and path, and — when neither a scheme nor a netloc
was found — failure of scheme detection on the path prefix (needed when
the cleaned URL is split again). -/
structure SplitFacts (s n p : String) : Prop where
  scheme_ok : s = "" ∨ ∃ c0 t0, s.data = c0 :: t0 ∧ isAsciiAlpha c0 = true ∧
      (∀ c ∈ s.data, schemeChars.contains c = true) ∧ s.data.map lowerChar = s.data
  netloc_ok : ∀ c ∈ n.data, c ≠ '/' ∧ c ≠ '?' ∧ c ≠ '#' ∧ isUnsafeUrlByte c = false
  path_ok : ∀ c ∈ p.data, c ≠ '?' ∧ c ≠ '#' ∧ isUnsafeUrlByte c = false
  path_head : s = "" → n = "" → p.data = [] ∨
      ∃ c0 t0, p.data = c0 :: t0 ∧ isC0OrSpace c0 = false
  no_scheme : s = "" → n = "" → ∀ tail, (tail = [] ∨ ∃ t2, tail = '?' :: t2) →
      schemeOf (p.data ++ tail) "" = ("", p.data ++ tail)

theorem pyLower_empty_data {n : String} (h : pyLower n = "") : n.data = [] := by
  have hd := congrArg String.data h
  have hd' : n.data.map lowerChar = [] := hd
  exact List.map_eq_nil_iff.mp hd'

theorem takeWhile_nil_cases {p : Char → Bool} {l : List Char}
    (h : l.takeWhile p = []) : l = [] ∨ ∃ c t, l = c :: t ∧ p c = false := by
  cases l with
  | nil => exact Or.inl rfl
  | cons a t =>
      right
      refine ⟨a, t, rfl, ?_⟩
      rw [List.takeWhile_cons] at h
      by_cases ha : p a = true
      · rw [if_pos ha] at h
        simp at h
      · simpa using ha

theorem netloc_pred_false_gt32 {c : Char}
    (h : (c ≠ '/' && c ≠ '?' && c ≠ '#') = false) : isC0OrSpace c = false ∧
      isAsciiAlpha c = false := by
  rw [Bool.and_eq_false_iff, Bool.and_eq_false_iff] at h
  have hc : c = '/' ∨ c = '?' ∨ c = '#' := by
    rcases h with (h | h) | h
    · exact Or.inl (by simpa using h)
    · exact Or.inr (Or.inl (by simpa using h))
    · exact Or.inr (Or.inr (by simpa using h))
  rcases hc with rfl | rfl | rfl <;> exact ⟨by decide, by decide⟩

theorem urlsplitE_facts (u : String) (parts : SplitResult)
    (h : urlsplitE u "" = some parts) :
    SplitFacts parts.scheme (pyLower parts.netloc) parts.path := by
  rw [urlsplitE_eq] at h
  rcases hso : schemeOf (sanitizeUrl u) "" with ⟨sch, rest⟩
  simp only [hso] at h
  rcases hnl : netlocOf rest with ⟨ok1, nl, rest2⟩
  simp only [hnl] at h
  cases ok1 with
  | false => simp at h
  | true =>
      rw [if_pos rfl] at h
      obtain rfl := (Option.some.inj h).symm
      have hrest_sub : ∀ c ∈ rest, c ∈ sanitizeUrl u := by
        intro c hc
        have : rest = (schemeOf (sanitizeUrl u) "").2 := by rw [hso]
        rw [this] at hc
        exact schemeOf_snd_subset _ _ c hc
      by_cases hsl : ∃ tl, rest = '/' :: '/' :: tl
      · -- the `//` branch of `urlsplit` was taken
        obtain ⟨tl, rfl⟩ := hsl
        rw [netlocOf_slash] at hnl
        rw [Prod.mk.injEq, Prod.mk.injEq] at hnl
        obtain ⟨_, hnl2, hnl3⟩ := hnl
        have htl_sub : ∀ c ∈ tl, c ∈ sanitizeUrl u := by
          intro c hc
          exact hrest_sub c (by simp [hc])
        have hnl_chars : ∀ c ∈ nl, (c ≠ '/' && c ≠ '?' && c ≠ '#') = true := by
          intro c hc
          rw [← hnl2] at hc
          exact List.mem_takeWhile_imp
            (p := fun c => c ≠ '/' && c ≠ '?' && c ≠ '#') hc
        have hnl_sub : ∀ c ∈ nl, c ∈ tl := by
          intro c hc
          rw [← hnl2] at hc
          exact (List.takeWhile_prefix _).subset hc
        have hrest2_sub : ∀ c ∈ rest2, c ∈ tl := by
          intro c hc
          rw [← hnl3] at hc
          exact List.drop_subset _ _ hc
        refine ⟨schemeOf_scheme_ok hso, ?_, ?_, ?_, ?_⟩
        · -- netloc characters, after lower-casing
          intro c hc
          have hc' : c ∈ nl.map lowerChar := hc
          obtain ⟨d, hd, rfl⟩ := List.mem_map.mp hc'
          have hdch := hnl_chars d hd
          rw [Bool.and_eq_true, Bool.and_eq_true] at hdch
          obtain ⟨⟨hd1, hd2⟩, hd3⟩ := hdch
          have hd1' : d ≠ '/' := by simpa using hd1
          have hd2' : d ≠ '?' := by simpa using hd2
          have hd3' : d ≠ '#' := by simpa using hd3
          have hdu : isUnsafeUrlByte d = false :=
            mem_sanitizeUrl_not_unsafe u d (htl_sub d (hnl_sub d hd))
          refine ⟨?_, ?_, ?_, ?_⟩
          · exact char_ne_of_toNat_ne (lowerChar_toNat_ne (by decide)
              (fun he => hd1' (char_eq_of_toNat he)))
          · exact char_ne_of_toNat_ne (lowerChar_toNat_ne (by decide)
              (fun he => hd2' (char_eq_of_toNat he)))
          · exact char_ne_of_toNat_ne (lowerChar_toNat_ne (by decide)
              (fun he => hd3' (char_eq_of_toNat he)))
          · rcases lowerChar_cases d with he | ⟨_, _, h3⟩
            · rw [he]
              exact hdu
            · exact isUnsafeUrlByte_false_of_gt32 (by omega)
        · -- path characters
          intro c hc
          have hc1 : c ≠ '?' := querySplit_fst_no_qm _ c hc
          have hc2 : c ∈ (fragSplit rest2).1 := querySplit_fst_subset _ c hc
          have hc3 : c ≠ '#' := fragSplit_fst_no_hash _ c hc2
          have hc4 : c ∈ rest2 := fragSplit_fst_subset _ c hc2
          exact ⟨hc1, hc3, mem_sanitizeUrl_not_unsafe u c
            (htl_sub c (hrest2_sub c hc4))⟩
        · -- path head, when scheme and netloc are both empty
          intro _ hn0
          have hnl_nil : nl = [] := pyLower_empty_data hn0
          rcases hpth : (querySplit (fragSplit rest2).1).1 with _ | ⟨c0, t0⟩
          · exact Or.inl rfl
          · right
            refine ⟨c0, t0, rfl, ?_⟩
            obtain ⟨t1, ht1⟩ := querySplit_fst_head hpth
            obtain ⟨t2, ht2⟩ := fragSplit_fst_head ht1
            have htl_head : tl = c0 :: t2 := by
              rw [← hnl3, hnl2, hnl_nil] at ht2
              simpa using ht2
            have htw : tl.takeWhile (fun c => c ≠ '/' && c ≠ '?' && c ≠ '#') = [] := by
              rw [hnl2, hnl_nil]
            rcases takeWhile_nil_cases htw with htnil | ⟨c1, t3, hct, hpc⟩
            · rw [htnil] at htl_head
              simp at htl_head
            · rw [htl_head] at hct
              injection hct with hc0 _
              rw [← hc0] at hpc
              exact (netloc_pred_false_gt32 hpc).1
        · -- scheme re-detection fails on the path, when scheme and netloc are empty
          intro _ hn0 tail htail
          have hnl_nil : nl = [] := pyLower_empty_data hn0
          rcases hpth : (querySplit (fragSplit rest2).1).1 with _ | ⟨c0, t0⟩
          · rw [List.nil_append]
            rcases htail with rfl | ⟨t2, rfl⟩
            · exact schemeOf_no_colon [] "" (by simp)
            · exact schemeOf_head_not_alpha _ "" (by
                intro c0 t0 he
                injection he with he1 _
                rw [← he1]
                decide)
          · obtain ⟨t1, ht1⟩ := querySplit_fst_head hpth
            obtain ⟨t2, ht2⟩ := fragSplit_fst_head ht1
            have htl_head : tl = c0 :: t2 := by
              rw [← hnl3, hnl2, hnl_nil] at ht2
              simpa using ht2
            have htw : tl.takeWhile (fun c => c ≠ '/' && c ≠ '?' && c ≠ '#') = [] := by
              rw [hnl2, hnl_nil]
            have hc0_not_alpha : isAsciiAlpha c0 = false := by
              rcases takeWhile_nil_cases htw with htnil | ⟨c1, t3, hct, hpc⟩
              · rw [htnil] at htl_head
                simp at htl_head
              · rw [htl_head] at hct
                injection hct with hc0 _
                rw [← hc0] at hpc
                exact (netloc_pred_false_gt32 hpc).2
            apply schemeOf_head_not_alpha
            intro c0' t0' he
            have he2 : c0 :: (t0 ++ tail) = c0' :: t0' := by
              rw [← he]
              rfl
            injection he2 with he3 _
            rw [← he3]
            exact hc0_not_alpha
      · -- no `//` branch
        rw [netlocOf_other rest (fun tl htl => hsl ⟨tl, htl⟩)] at hnl
        rw [Prod.mk.injEq, Prod.mk.injEq] at hnl
        obtain ⟨_, hnl2, hnl3⟩ := hnl
        refine ⟨schemeOf_scheme_ok hso, ?_, ?_, ?_, ?_⟩
        · intro c hc
          have hc' : c ∈ ([] : List Char).map lowerChar := by
            rw [hnl2]
            exact hc
          simp at hc'
        · intro c hc
          have hc1 : c ≠ '?' := querySplit_fst_no_qm _ c hc
          have hc2 : c ∈ (fragSplit rest2).1 := querySplit_fst_subset _ c hc
          have hc3 : c ≠ '#' := fragSplit_fst_no_hash _ c hc2
          have hc4 : c ∈ rest2 := fragSplit_fst_subset _ c hc2
          refine ⟨hc1, hc3, mem_sanitizeUrl_not_unsafe u c (hrest_sub c ?_)⟩
          rw [hnl3]
          exact hc4
        · intro hs0 _
          rcases hpth : (querySplit (fragSplit rest2).1).1 with _ | ⟨c0, t0⟩
          · exact Or.inl rfl
          · right
            refine ⟨c0, t0, rfl, ?_⟩
            obtain ⟨t1, ht1⟩ := querySplit_fst_head hpth
            obtain ⟨t2, ht2⟩ := fragSplit_fst_head ht1
            have hcs_head : ∃ t3, sanitizeUrl u = c0 :: t3 := by
              have hsch0 : sch = "" := hs0
              have hrest_cs : rest = sanitizeUrl u := by
                apply schemeOf_empty_rest
                nth_rewrite 2 [← hsch0]
                exact hso
              rw [← hnl3, hrest_cs] at ht2
              exact ⟨t2, ht2⟩
            obtain ⟨t3, ht3⟩ := hcs_head
            exact sanitizeUrl_head_not_c0 u c0 t3 ht3
        · intro hs0 _ tail htail
          have hsch0 : sch = "" := hs0
          have hrest_cs : rest = sanitizeUrl u := by
            apply schemeOf_empty_rest
            nth_rewrite 2 [← hsch0]
            exact hso
          have hfail : schemeOf (sanitizeUrl u) "" = ("", sanitizeUrl u) := by
            rw [hso, hsch0, hrest_cs]
          obtain ⟨m1, hm1⟩ := fragSplit_fst_take rest2
          obtain ⟨m2, hm2⟩ := querySplit_fst_take (fragSplit rest2).1
          have hpth_take : ∃ m, (querySplit (fragSplit rest2).1).1 = (sanitizeUrl u).take m := by
            refine ⟨m2 ⊓ m1, ?_⟩
            rw [hm2, hm1, List.take_take, ← hnl3, hrest_cs]
          obtain ⟨m, hm⟩ := hpth_take
          have := schemeOf_fail_extend (sanitizeUrl u) m tail hfail htail
          rw [← hm] at this
          exact this

/-! ### Reassembly lemmas: `urlunsplit` on fragment-free results -/

/-- The path adjustment `urlunsplit` applies inside the netloc branch. -/
def slashPath (p : String) : String :=
  if p ≠ "" && !strStarts p "/" then "/" ++ p else p

theorem strStarts_slash_iff (p : String) :
    strStarts p "/" = true ↔ ∃ t, p.data = '/' :: t := by
  constructor
  · intro h
    exact isPrefixCh_one (h : isPrefixCh ['/'] p.data = true)
  · rintro ⟨t, ht⟩
    show isPrefixCh ['/'] p.data = true
    rw [ht]
    simp [isPrefixCh]

theorem strStarts_slashslash_iff (p : String) :
    strStarts p "//" = true ↔ ∃ t, p.data = '/' :: '/' :: t := by
  constructor
  · intro h
    exact isPrefixCh_two (h : isPrefixCh ['/', '/'] p.data = true)
  · rintro ⟨t, ht⟩
    show isPrefixCh ['/', '/'] p.data = true
    rw [ht]
    simp [isPrefixCh]

theorem slashPath_shape (p : String) :
    (slashPath p).data = [] ∨ ∃ t, (slashPath p).data = '/' :: t := by
  unfold slashPath
  by_cases hc : (p ≠ "" && !strStarts p "/") = true
  · rw [if_pos hc]
    right
    refine ⟨p.data, ?_⟩
    rw [String.data_append]
    rfl
  · rw [if_neg hc]
    by_cases hp : p = ""
    · left
      rw [hp]
    · right
      have hst : strStarts p "/" = true := by
        by_cases hstt : strStarts p "/" = true
        · exact hstt
        · exfalso
          have hb : strStarts p "/" = false := by
            cases hv : strStarts p "/" with
            | false => rfl
            | true => exact absurd hv hstt
          exact hc (by simp [hp, hb])
      exact (strStarts_slash_iff p).mp hst

theorem slashPath_mem (p : String) : ∀ c ∈ (slashPath p).data, c = '/' ∨ c ∈ p.data := by
  intro c hc
  unfold slashPath at hc
  by_cases hcond : (p ≠ "" && !strStarts p "/") = true
  · rw [if_pos hcond] at hc
    rw [String.data_append] at hc
    rcases List.mem_append.mp hc with h | h
    · left
      simpa using h
    · right
      exact h
  · rw [if_neg hcond] at hc
    right
    exact hc

theorem slashPath_eq_self (p : String)
    (h : p.data = [] ∨ ∃ t, p.data = '/' :: t) : slashPath p = p := by
  unfold slashPath
  rw [if_neg]
  intro hcond
  rw [Bool.and_eq_true] at hcond
  obtain ⟨hne, hns⟩ := hcond
  rcases h with h0 | ⟨t, ht⟩
  · have : p = "" := String.ext h0
    rw [this] at hne
    simp at hne
  · have : strStarts p "/" = true := (strStarts_slash_iff p).mpr ⟨t, ht⟩
    rw [this] at hns
    simp at hns

theorem slashPath_idem (p : String) : slashPath (slashPath p) = slashPath p :=
  slashPath_eq_self _ (slashPath_shape p)

theorem urlunsplit_pos (s n p q : String)
    (hcond : (n ≠ "" || (s ≠ "" && uses_netloc.contains s && !strStarts p "//")) = true) :
    urlunsplit ⟨s, n, p, q, ""⟩ =
      (if q ≠ "" then
        (if s ≠ "" then s ++ ":" ++ ("//" ++ n ++ slashPath p)
         else "//" ++ n ++ slashPath p) ++ "?" ++ q
       else
        (if s ≠ "" then s ++ ":" ++ ("//" ++ n ++ slashPath p)
         else "//" ++ n ++ slashPath p)) := by
  unfold urlunsplit
  dsimp only
  rw [if_pos hcond]
  rw [if_neg (show ¬ ("" : String) ≠ "" from fun hx => hx rfl)]
  rfl

theorem urlunsplit_neg (s n p q : String)
    (hcond : ¬ (n ≠ "" || (s ≠ "" && uses_netloc.contains s && !strStarts p "//")) = true) :
    urlunsplit ⟨s, n, p, q, ""⟩ =
      (if q ≠ "" then (if s ≠ "" then s ++ ":" ++ p else p) ++ "?" ++ q
       else (if s ≠ "" then s ++ ":" ++ p else p)) := by
  unfold urlunsplit
  dsimp only
  rw [if_neg hcond]
  rw [if_neg (show ¬ ("" : String) ≠ "" from fun hx => hx rfl)]

/-! ### Character facts for `urlencode` output -/

theorem encPiece_char_facts (q : String × String) :
    ∀ c ∈ encPiece q, c ≠ '?' ∧ c ≠ '#' ∧ isUnsafeUrlByte c = false := by
  intro c hc
  unfold encPiece at hc
  rcases List.mem_append.mp hc with h | h
  · have hf := quote_char_facts c (quote_plus_chars q.1 c h)
    exact ⟨hf.2.2.2.1, hf.2.2.1, hf.2.2.2.2⟩
  · rcases List.mem_cons.mp h with rfl | h'
    · exact ⟨by decide, by decide, by decide⟩
    · have hf := quote_char_facts c (quote_plus_chars q.2 c h')
      exact ⟨hf.2.2.2.1, hf.2.2.1, hf.2.2.2.2⟩

theorem urlencode_char_facts (PS : List (String × String)) :
    ∀ c ∈ (urlencode PS).data, c ≠ '?' ∧ c ≠ '#' ∧ isUnsafeUrlByte c = false := by
  intro c hc
  cases PS with
  | nil =>
      have h0 : (urlencode ([] : List (String × String))).data = [] := rfl
      rw [h0] at hc
      simp at hc
  | cons p t =>
      rw [urlencode_data_cons] at hc
      rcases List.mem_append.mp hc with h1 | h1
      · exact encPiece_char_facts p c h1
      · rw [List.mem_flatMap] at h1
        obtain ⟨x, hx, hcx⟩ := h1
        rcases List.mem_cons.mp hcx with rfl | h2
        · exact ⟨by decide, by decide, by decide⟩
        · obtain ⟨w, _, rfl⟩ := List.mem_map.mp hx
          exact encPiece_char_facts w c h2

/-! ### The composite netloc/fragment/query computation on a cleaned tail -/

theorem rest_compute (N P : List Char) (q : String) (QD : List Char)
    (hN : ∀ c ∈ N, (c ≠ '/' && c ≠ '?' && c ≠ '#') = true)
    (hP : P = [] ∨ ∃ c t, P = c :: t ∧ (c ≠ '/' && c ≠ '?' && c ≠ '#') = false)
    (hPf : ∀ c ∈ P, c ≠ '?' ∧ c ≠ '#')
    (hqf : ∀ c ∈ q.data, c ≠ '?' ∧ c ≠ '#')
    (hQD : (QD = [] ∧ q = "") ∨ QD = '?' :: q.data) :
    netlocOf ('/' :: '/' :: (N ++ (P ++ QD))) = (netlocCheck N, N, P ++ QD) ∧
    fragSplit (P ++ QD) = (P ++ QD, []) ∧
    querySplit (P ++ QD) = (P, q.data) := by
  have hstop : P ++ QD = [] ∨ ∃ c t, P ++ QD = c :: t ∧
      (c ≠ '/' && c ≠ '?' && c ≠ '#') = false := by
    rcases hP with rfl | ⟨c, t, rfl, hc⟩
    · rcases hQD with ⟨rfl, _⟩ | rfl
      · exact Or.inl rfl
      · exact Or.inr ⟨'?', q.data, by simp, by decide⟩
    · exact Or.inr ⟨c, t ++ QD, by simp, hc⟩
  have htw : (N ++ (P ++ QD)).takeWhile (fun c => c ≠ '/' && c ≠ '?' && c ≠ '#') = N := by
    rw [takeWhile_append_all N (P ++ QD) hN]
    rcases hstop with h0 | ⟨c, t, hct, hc⟩
    · rw [h0]
      simp
    · rw [hct, List.takeWhile_cons, if_neg (by rw [hc]; simp)]
      simp
  refine ⟨?_, ?_, ?_⟩
  · rw [netlocOf_slash, htw, List.drop_left]
  · apply fragSplit_none
    intro c hc
    rcases List.mem_append.mp hc with h | h
    · exact (hPf c h).2
    · rcases hQD with ⟨rfl, _⟩ | rfl
      · simp at h
      · rcases List.mem_cons.mp h with rfl | h2
        · decide
        · exact (hqf c h2).2
  · rcases hQD with ⟨rfl, hq0⟩ | rfl
    · rw [List.append_nil, querySplit_none P (fun c hc => (hPf c hc).1), hq0]
    · exact querySplit_sep P q.data (fun c hc => (hPf c hc).1)

/-! ### Re-splitting a reassembled URL -/

theorem netloc_pred_false_cases {c : Char}
    (h : (c ≠ '/' && c ≠ '?' && c ≠ '#') = false) : c = '/' ∨ c = '?' ∨ c = '#' := by
  rw [Bool.and_eq_false_iff, Bool.and_eq_false_iff] at h
  rcases h with (h | h) | h
  · exact Or.inl (by simpa using h)
  · exact Or.inr (Or.inl (by simpa using h))
  · exact Or.inr (Or.inr (by simpa using h))

theorem filter_idem {α : Type} (p : α → Bool) (l : List α) :
    (l.filter p).filter p = l.filter p := by
  induction l with
  | nil => rfl
  | cons a t ih =>
      rw [List.filter_cons]
      by_cases ha : p a = true
      · rw [if_pos ha, List.filter_cons, if_pos ha, ih]
      · rw [if_neg ha, ih]

/-- Splitting a URL reassembled from a scheme, a netloc, a slash-adjusted
path and a query recovers exactly those components (or fails the bracket
check on the netloc). -/
theorem split_built_core (Z s n p q : String) (QD : List Char)
    (hZ : Z.data = (if s = "" then [] else s.data ++ [':']) ++
      ('/' :: '/' :: (n.data ++ ((slashPath p).data ++ QD))))
    (hs_ok : s = "" ∨ ∃ c0 t0, s.data = c0 :: t0 ∧ isAsciiAlpha c0 = true ∧
        (∀ c ∈ s.data, schemeChars.contains c = true) ∧ s.data.map lowerChar = s.data)
    (hn_ok : ∀ c ∈ n.data, c ≠ '/' ∧ c ≠ '?' ∧ c ≠ '#' ∧ isUnsafeUrlByte c = false)
    (hp_ok : ∀ c ∈ p.data, c ≠ '?' ∧ c ≠ '#' ∧ isUnsafeUrlByte c = false)
    (hq_ok : ∀ c ∈ q.data, c ≠ '?' ∧ c ≠ '#' ∧ isUnsafeUrlByte c = false)
    (hQD : (QD = [] ∧ q = "") ∨ QD = '?' :: q.data) :
    urlsplitE Z "" =
      (if netlocCheck n.data then some ⟨s, n, slashPath p, q, ""⟩ else none) := by
  have hPchars : ∀ c ∈ (slashPath p).data, c ≠ '?' ∧ c ≠ '#' ∧ isUnsafeUrlByte c = false := by
    intro c hc
    rcases slashPath_mem p c hc with rfl | h
    · exact ⟨by decide, by decide, by decide⟩
    · exact hp_ok c h
  have hQDchars : ∀ c ∈ QD, isUnsafeUrlByte c = false := by
    intro c hc
    rcases hQD with ⟨rfl, _⟩ | rfl
    · simp at hc
    · rcases List.mem_cons.mp hc with rfl | h2
      · decide
      · exact (hq_ok c h2).2.2
  have hclean : ∀ c ∈ Z.data, isUnsafeUrlByte c = false := by
    intro c hc
    rw [hZ] at hc
    rcases List.mem_append.mp hc with h | h
    · by_cases hs : s = ""
      · rw [if_pos hs] at h
        simp at h
      · rw [if_neg hs] at h
        rcases List.mem_append.mp h with h2 | h2
        · rcases hs_ok with rfl | ⟨c0, t0, _, _, hch, _⟩
          · exact absurd rfl hs
          · exact (mem_schemeChars_facts ((char_contains_iff _ _).mp (hch c h2))).2.1
        · obtain rfl := List.mem_singleton.mp h2
          decide
    · rcases List.mem_cons.mp h with rfl | h2
      · decide
      · rcases List.mem_cons.mp h2 with rfl | h3
        · decide
        · rcases List.mem_append.mp h3 with h4 | h4
          · exact (hn_ok c h4).2.2.2
          · rcases List.mem_append.mp h4 with h5 | h5
            · exact (hPchars c h5).2.2
            · exact hQDchars c h5
  have hhead : ∀ c t, Z.data = c :: t → isC0OrSpace c = false := by
    intro c t hct
    rw [hZ] at hct
    by_cases hs : s = ""
    · rw [if_pos hs, List.nil_append] at hct
      injection hct with h1 _
      rw [← h1]
      decide
    · rw [if_neg hs] at hct
      rcases hs_ok with rfl | ⟨c0, t0, hsd, halpha, _, _⟩
      · exact absurd rfl hs
      · rw [hsd] at hct
        have hct2 : c0 :: (t0 ++ ':' :: ('/' :: '/' :: (n.data ++ ((slashPath p).data ++ QD)))) =
            c :: t := by
          rw [← hct]
          simp
        injection hct2 with h1 _
        rw [← h1]
        exact isAsciiAlpha_not_c0 halpha
  have hsan : sanitizeUrl Z = Z.data := sanitizeUrl_id Z.data hclean hhead
  have hsch : schemeOf Z.data "" = (s, '/' :: '/' :: (n.data ++ ((slashPath p).data ++ QD))) := by
    rw [hZ]
    by_cases hs : s = ""
    · rw [if_pos hs, List.nil_append]
      subst hs
      exact schemeOf_head_not_alpha _ "" (by
        intro c0 t0 he
        injection he with h1 _
        rw [← h1]
        decide)
    · rw [if_neg hs]
      rcases hs_ok with rfl | ⟨c0, t0, hsd, halpha, hch, hlow2⟩
      · exact absurd rfl hs
      · rw [show (s.data ++ [':']) ++ ('/' :: '/' :: (n.data ++ ((slashPath p).data ++ QD))) =
            s.data ++ ':' :: ('/' :: '/' :: (n.data ++ ((slashPath p).data ++ QD))) from by simp]
        exact schemeOf_found s _ ⟨c0, t0, hsd, halpha⟩ hch hlow2 ""
  have hN : ∀ c ∈ n.data, (c ≠ '/' && c ≠ '?' && c ≠ '#') = true := by
    intro c hc
    obtain ⟨h1, h2, h3, _⟩ := hn_ok c hc
    simp [h1, h2, h3]
  have hP : (slashPath p).data = [] ∨ ∃ c t, (slashPath p).data = c :: t ∧
      (c ≠ '/' && c ≠ '?' && c ≠ '#') = false := by
    rcases slashPath_shape p with h0 | ⟨t, ht⟩
    · exact Or.inl h0
    · exact Or.inr ⟨'/', t, ht, by decide⟩
  obtain ⟨hnet, hfrag, hquery⟩ := rest_compute n.data (slashPath p).data q QD hN hP
    (fun c hc => ⟨(hPchars c hc).1, (hPchars c hc).2.1⟩)
    (fun c hc => ⟨(hq_ok c hc).1, (hq_ok c hc).2.1⟩) hQD
  rw [urlsplitE_eq, hsan]
  simp only [hsch, hnet, hfrag, hquery]

/-- The body of `canonicalize_url` returns its input unchanged when the
split components reassemble to the input, the query is stable under the
tracking filter, the netloc is already lower-case, and the input does not
end in a slash. -/
theorem canonicalize_of_split (X : String) (R : SplitResult)
    (hsp : urlsplitE X "" = some R)
    (hqf : urlencode ((parse_qsl R.query).filter (fun kv => !isTrackingKey kv.1)) = R.query)
    (hlowN : pyLower R.netloc = R.netloc)
    (hC : urlunsplit ⟨R.scheme, R.netloc, R.path, R.query, ""⟩ = X)
    (hends : strEnds X "/" = false) :
    canonicalize_url X = X := by
  have h2s : strEnds X "//" = false := by
    cases hv : strEnds X "//" with
    | false => rfl
    | true => exact absurd (strEnds_of_two_slash hv) (by simp [hends])
  unfold canonicalize_url
  rw [hsp]
  dsimp only
  rw [hqf, hlowN, hC]
  rw [if_neg (by simp [h2s])]

/-- Canonicalizing a URL reassembled by `canonicalize_url` from split
components gives it back unchanged, provided the re-split extracts a
non-empty, already lower-case netloc and the URL does not end in `/`. -/
theorem canonicalize_fixed_of_unsplit (s n p q : String)
    (hfacts : SplitFacts s n p)
    (hq_ok : ∀ c ∈ q.data, c ≠ '?' ∧ c ≠ '#' ∧ isUnsafeUrlByte c = false)
    (hq_fix : urlencode ((parse_qsl q).filter (fun kv => !isTrackingKey kv.1)) = q)
    (r : SplitResult)
    (hsplit : urlsplitE (urlunsplit ⟨s, n, p, q, ""⟩) "" = some r)
    (hhost : r.netloc ≠ "")
    (hlow : pyLower r.netloc = r.netloc)
    (hends : strEnds (urlunsplit ⟨s, n, p, q, ""⟩) "/" = false) :
    canonicalize_url (urlunsplit ⟨s, n, p, q, ""⟩) = urlunsplit ⟨s, n, p, q, ""⟩ := by
  have hQDor : ((if q = "" then ([] : List Char) else '?' :: q.data) = [] ∧ q = "") ∨
      (if q = "" then ([] : List Char) else '?' :: q.data) = '?' :: q.data := by
    by_cases hq : q = ""
    · exact Or.inl ⟨if_pos hq, hq⟩
    · exact Or.inr (if_neg hq)
  by_cases hcond : (n ≠ "" || (s ≠ "" && uses_netloc.contains s && !strStarts p "//")) = true
  · -- the netloc-emitting branch of `urlunsplit` was taken
    have hXeq := urlunsplit_pos s n p q hcond
    have hZ : (urlunsplit ⟨s, n, p, q, ""⟩).data =
        (if s = "" then [] else s.data ++ [':']) ++
          ('/' :: '/' :: (n.data ++ ((slashPath p).data ++
            (if q = "" then ([] : List Char) else '?' :: q.data)))) := by
      rw [hXeq]
      by_cases hq : q = "" <;> by_cases hs : s = "" <;>
        simp [hq, hs, String.data_append,
          show (("//" : String).data) = ['/', '/'] from rfl,
          show ((":" : String).data) = [':'] from rfl,
          show (("?" : String).data) = ['?'] from rfl]
    have hse := split_built_core (urlunsplit ⟨s, n, p, q, ""⟩) s n p q
      (if q = "" then ([] : List Char) else '?' :: q.data) hZ hfacts.scheme_ok
      hfacts.netloc_ok hfacts.path_ok hq_ok hQDor
    cases hnc : netlocCheck n.data with
    | false =>
        rw [if_neg (by simp [hnc])] at hse
        rw [hse] at hsplit
        exact Option.noConfusion hsplit
    | true =>
        rw [if_pos hnc] at hse
        rw [hse] at hsplit
        have hr := Option.some.inj hsplit
        have hnetr : r.netloc = n := congrArg SplitResult.netloc hr.symm
        have hnne : n ≠ "" := by
          rw [hnetr] at hhost
          exact hhost
        have hlowN : pyLower n = n := by
          rw [hnetr] at hlow
          exact hlow
        have hC : urlunsplit ⟨s, n, slashPath p, q, ""⟩ = urlunsplit ⟨s, n, p, q, ""⟩ := by
          rw [urlunsplit_pos s n (slashPath p) q (by simp [hnne]),
            urlunsplit_pos s n p q (by simp [hnne]), slashPath_idem]
        exact canonicalize_of_split _ ⟨s, n, slashPath p, q, ""⟩ hse hq_fix hlowN hC hends
  · -- `urlunsplit` emitted scheme and path only; the netloc was empty
    have hn0 : n = "" := by
      by_contra h
      exact hcond (by simp [h])
    have hXeq := urlunsplit_neg s n p q hcond
    by_cases hpp : strStarts p "//" = true
    · -- the path itself starts with `//`: re-splitting extracts a host from it
      obtain ⟨tl0, htl0⟩ := (strStarts_slashslash_iff p).mp hpp
      obtain ⟨N', P', hNP, hNdef, hPdef⟩ :
          ∃ N' P', N' ++ P' = tl0 ∧
            N' = tl0.takeWhile (fun c => c ≠ '/' && c ≠ '?' && c ≠ '#') ∧
            P' = tl0.dropWhile (fun c => c ≠ '/' && c ≠ '?' && c ≠ '#') :=
        ⟨_, _, List.takeWhile_append_dropWhile _ tl0, rfl, rfl⟩
      have htl0_sub : ∀ c ∈ tl0, c ∈ p.data := by
        intro c hc
        rw [htl0]
        exact List.mem_cons_of_mem _ (List.mem_cons_of_mem _ hc)
      have hNmem : ∀ c ∈ N', c ∈ tl0 := by
        intro c hc
        rw [← hNP]
        exact List.mem_append.mpr (Or.inl hc)
      have hPmem : ∀ c ∈ P', c ∈ tl0 := by
        intro c hc
        rw [← hNP]
        exact List.mem_append.mpr (Or.inr hc)
      have hn'_ok : ∀ c ∈ N', c ≠ '/' ∧ c ≠ '?' ∧ c ≠ '#' ∧ isUnsafeUrlByte c = false := by
        intro c hc
        have hkp : (c ≠ '/' && c ≠ '?' && c ≠ '#') = true := by
          rw [hNdef] at hc
          exact List.mem_takeWhile_imp (p := fun c => c ≠ '/' && c ≠ '?' && c ≠ '#') hc
        rw [Bool.and_eq_true, Bool.and_eq_true] at hkp
        obtain ⟨⟨h1, h2⟩, h3⟩ := hkp
        exact ⟨by simpa using h1, by simpa using h2, by simpa using h3,
          (hfacts.path_ok c (htl0_sub c (hNmem c hc))).2.2⟩
      have hp'_ok : ∀ c ∈ P', c ≠ '?' ∧ c ≠ '#' ∧ isUnsafeUrlByte c = false := by
        intro c hc
        exact hfacts.path_ok c (htl0_sub c (hPmem c hc))
      have hshape' : P' = [] ∨ ∃ t, P' = '/' :: t := by
        cases hPc : P' with
        | nil => exact Or.inl rfl
        | cons c t =>
            right
            have hk : (c ≠ '/' && c ≠ '?' && c ≠ '#') = false := by
              rw [hPdef] at hPc
              exact dropWhile_head_false _ tl0 hPc
            rcases netloc_pred_false_cases hk with rfl | rfl | rfl
            · exact ⟨t, rfl⟩
            · exact absurd rfl
                (hp'_ok '?' (by rw [hPc]; exact List.mem_cons_self _ _)).1
            · exact absurd rfl
                (hp'_ok '#' (by rw [hPc]; exact List.mem_cons_self _ _)).2.1
      have hslashp' : slashPath (⟨P'⟩ : String) = ⟨P'⟩ := slashPath_eq_self _ hshape'
      have hZ : (urlunsplit ⟨s, n, p, q, ""⟩).data =
          (if s = "" then [] else s.data ++ [':']) ++
            ('/' :: '/' :: ((⟨N'⟩ : String).data ++ ((slashPath (⟨P'⟩ : String)).data ++
              (if q = "" then ([] : List Char) else '?' :: q.data)))) := by
        rw [hXeq]
        by_cases hq : q = "" <;> by_cases hs : s = "" <;>
          simp [hq, hs, hslashp', htl0, ← hNP, String.data_append,
            show ((⟨N'⟩ : String).data) = N' from rfl,
            show ((⟨P'⟩ : String).data) = P' from rfl,
            show ((":" : String).data) = [':'] from rfl,
            show (("?" : String).data) = ['?'] from rfl]
      have hse := split_built_core (urlunsplit ⟨s, n, p, q, ""⟩) s ⟨N'⟩ ⟨P'⟩ q
        (if q = "" then ([] : List Char) else '?' :: q.data) hZ hfacts.scheme_ok
        hn'_ok hp'_ok hq_ok hQDor
      rw [hslashp'] at hse
      cases hnc : netlocCheck ((⟨N'⟩ : String).data) with
      | false =>
          rw [if_neg (by simp [hnc])] at hse
          rw [hse] at hsplit
          exact Option.noConfusion hsplit
      | true =>
          rw [if_pos hnc] at hse
          rw [hse] at hsplit
          have hr := Option.some.inj hsplit
          have hnetr : r.netloc = (⟨N'⟩ : String) := congrArg SplitResult.netloc hr.symm
          have hnne : (⟨N'⟩ : String) ≠ "" := by
            rw [hnetr] at hhost
            exact hhost
          have hlowN : pyLower (⟨N'⟩ : String) = (⟨N'⟩ : String) := by
            rw [hnetr] at hlow
            exact hlow
          have hjoin : ("//" : String) ++ (⟨N'⟩ : String) ++ (⟨P'⟩ : String) = p := by
            apply String.ext
            show ('/' :: '/' :: N') ++ P' = p.data
            rw [htl0, ← hNP]
            simp
          have hC : urlunsplit ⟨s, ⟨N'⟩, ⟨P'⟩, q, ""⟩ = urlunsplit ⟨s, n, p, q, ""⟩ := by
            rw [urlunsplit_pos s ⟨N'⟩ ⟨P'⟩ q (by simp [hnne]), hslashp', hjoin, hXeq]
          exact canonicalize_of_split _ ⟨s, ⟨N'⟩, ⟨P'⟩, q, ""⟩ hse hq_fix hlowN hC hends
    · -- the path does not start with `//`: re-splitting finds no netloc
      exfalso
      have hppf : strStarts p "//" = false := by
        cases hv : strStarts p "//" with
        | false => rfl
        | true => exact absurd hv hpp
      have hZ2 : (urlunsplit ⟨s, n, p, q, ""⟩).data =
          (if s = "" then [] else s.data ++ [':']) ++
            (p.data ++ (if q = "" then ([] : List Char) else '?' :: q.data)) := by
        rw [hXeq]
        by_cases hq : q = "" <;> by_cases hs : s = "" <;>
          simp [hq, hs, String.data_append,
            show ((":" : String).data) = [':'] from rfl,
            show (("?" : String).data) = ['?'] from rfl]
      have hclean2 : ∀ c ∈ (urlunsplit ⟨s, n, p, q, ""⟩).data, isUnsafeUrlByte c = false := by
        intro c hc
        rw [hZ2] at hc
        rcases List.mem_append.mp hc with h | h
        · by_cases hs : s = ""
          · rw [if_pos hs] at h
            simp at h
          · rw [if_neg hs] at h
            rcases List.mem_append.mp h with h2 | h2
            · rcases hfacts.scheme_ok with rfl | ⟨c0, t0, _, _, hch, _⟩
              · exact absurd rfl hs
              · exact (mem_schemeChars_facts ((char_contains_iff _ _).mp (hch c h2))).2.1
            · obtain rfl := List.mem_singleton.mp h2
              decide
        · rcases List.mem_append.mp h with h2 | h2
          · exact (hfacts.path_ok c h2).2.2
          · by_cases hq : q = ""
            · rw [if_pos hq] at h2
              simp at h2
            · rw [if_neg hq] at h2
              rcases List.mem_cons.mp h2 with rfl | h3
              · decide
              · exact (hq_ok c h3).2.2
      have hhead2 : ∀ c t, (urlunsplit ⟨s, n, p, q, ""⟩).data = c :: t →
          isC0OrSpace c = false := by
        intro c t hct
        rw [hZ2] at hct
        by_cases hs : s = ""
        · rw [if_pos hs, List.nil_append] at hct
          rcases hfacts.path_head hs hn0 with hpnil | ⟨c0, t0, hpd, hc0⟩
          · rw [hpnil, List.nil_append] at hct
            by_cases hq : q = ""
            · rw [if_pos hq] at hct
              simp at hct
            · rw [if_neg hq] at hct
              injection hct with h1 _
              rw [← h1]
              decide
          · rw [hpd, List.cons_append] at hct
            injection hct with h1 _
            rw [← h1]
            exact hc0
        · rw [if_neg hs] at hct
          rcases hfacts.scheme_ok with rfl | ⟨c0, t0, hsd, halpha, _, _⟩
          · exact absurd rfl hs
          · rw [hsd] at hct
            have hct2 : c0 :: (t0 ++ ':' ::
                (p.data ++ (if q = "" then ([] : List Char) else '?' :: q.data))) = c :: t := by
              rw [← hct]
              simp
            injection hct2 with h1 _
            rw [← h1]
            exact isAsciiAlpha_not_c0 halpha
      have hsanE : sanitizeUrl (urlunsplit ⟨s, n, p, q, ""⟩) =
          (urlunsplit ⟨s, n, p, q, ""⟩).data :=
        sanitizeUrl_id (urlunsplit ⟨s, n, p, q, ""⟩).data hclean2 hhead2
      have hQDor2 : (if q = "" then ([] : List Char) else '?' :: q.data) = [] ∨
          ∃ t2, (if q = "" then ([] : List Char) else '?' :: q.data) = '?' :: t2 := by
        rcases hQDor with ⟨h1, _⟩ | h1
        · exact Or.inl h1
        · exact Or.inr ⟨q.data, h1⟩
      have hschE2 : schemeOf ((if s = "" then [] else s.data ++ [':']) ++
          (p.data ++ (if q = "" then ([] : List Char) else '?' :: q.data))) "" =
          (s, p.data ++ (if q = "" then ([] : List Char) else '?' :: q.data)) := by
        by_cases hs : s = ""
        · rw [if_pos hs, List.nil_append]
          subst hs
          exact hfacts.no_scheme rfl hn0 _ hQDor2
        · rw [if_neg hs]
          rcases hfacts.scheme_ok with rfl | ⟨c0, t0, hsd, halpha, hch, hlow2⟩
          · exact absurd rfl hs
          · rw [show (s.data ++ [':']) ++
                (p.data ++ (if q = "" then ([] : List Char) else '?' :: q.data)) =
                s.data ++ ':' ::
                  (p.data ++ (if q = "" then ([] : List Char) else '?' :: q.data)) from by simp]
            exact schemeOf_found s _ ⟨c0, t0, hsd, halpha⟩ hch hlow2 ""
      have hpp' : ∀ t2, p.data ≠ '/' :: '/' :: t2 := by
        intro t2 hpd
        have hst : strStarts p "//" = true := (strStarts_slashslash_iff p).mpr ⟨t2, hpd⟩
        rw [hppf] at hst
        exact Bool.false_ne_true hst
      have hno2 : ∀ tl, p.data ++ (if q = "" then ([] : List Char) else '?' :: q.data) ≠
          '/' :: '/' :: tl := by
        intro tl htl
        rcases hpd : p.data with _ | ⟨c1, t1⟩
        · rw [hpd, List.nil_append] at htl
          rcases hQDor with ⟨hQ1, _⟩ | hQ1 <;> rw [hQ1] at htl
          · simp at htl
          · injection htl with h1 _
            exact absurd h1 (by decide)
        · rcases ht1 : t1 with _ | ⟨c2, t2⟩
          · rw [hpd, ht1] at htl
            rcases hQDor with ⟨hQ1, _⟩ | hQ1 <;> rw [hQ1] at htl
            · rw [List.append_nil] at htl
              simp at htl
            · have htl2 : c1 :: '?' :: q.data = '/' :: '/' :: tl := by
                rw [← htl]
                simp
              injection htl2 with h1 h2
              injection h2 with h2 _
              exact absurd h2 (by decide)
          · rw [hpd, ht1] at htl
            have htl2 : c1 :: c2 ::
                (t2 ++ (if q = "" then ([] : List Char) else '?' :: q.data)) =
                '/' :: '/' :: tl := by
              rw [← htl]
              simp
            injection htl2 with h1 h2
            injection h2 with h2 _
            exact hpp' t2 (by rw [hpd, ht1, h1, h2])
      rw [urlsplitE_eq, hsanE, hZ2] at hsplit
      simp only [hschE2, netlocOf_other _ hno2] at hsplit
      rw [if_pos trivial] at hsplit
      have hr := Option.some.inj hsplit
      exact absurd (congrArg SplitResult.netloc hr.symm) hhost

/-! ### C5: idempotence of `canonicalize_url` -/

/-- C5 counterexample: `canonicalize_url` is not idempotent on every URL
string. On `"http://e.com/a///"` the first pass collapses the trailing
`"//"` to `"/"` producing `"http://e.com/a//"`, and a second pass
collapses that once more to `"http://e.com/a/"`. -/
theorem canonicalize_url_not_idempotent :
    canonicalize_url (canonicalize_url "http://e.com/a///") ≠
      canonicalize_url "http://e.com/a///" := by
  decide

/-- C5 (amended): `canonicalize_url` is idempotent on every URL whose
canonical form re-splits with a non-empty, already lower-case netloc and
does not end in `/`: for such `u`,
`canonicalize_url (canonicalize_url u) = canonicalize_url u`. The
unconditional claim is refuted by the trailing-slash counterexample. -/
theorem canonicalize_url_idempotent_on_hosted (u : String) (r : SplitResult)
    (hsplit : urlsplitE (canonicalize_url u) "" = some r)
    (hhost : r.netloc ≠ "")
    (hlower : pyLower r.netloc = r.netloc)
    (hslash : strEnds (canonicalize_url u) "/" = false) :
    canonicalize_url (canonicalize_url u) = canonicalize_url u := by
  rcases hu : urlsplitE u "" with _ | parts
  · -- the first pass failed to split and returned its input unchanged
    have hx : canonicalize_url u = u := by
      unfold canonicalize_url
      rw [hu]
    rw [hx]
    exact hx
  · have hfacts := urlsplitE_facts u parts hu
    set PS2 := (parse_qsl parts.query).filter (fun kv => !isTrackingKey kv.1) with hPS2
    set CL := urlunsplit ⟨parts.scheme, pyLower parts.netloc, parts.path, urlencode PS2, ""⟩
      with hCL
    have hx : canonicalize_url u = if strEnds CL "//" then dropLastChar CL else CL := by
      unfold canonicalize_url
      rw [hu]
    have h2s : strEnds CL "//" = false := by
      cases hv : strEnds CL "//" with
      | false => rfl
      | true =>
          exfalso
          have hx2 : canonicalize_url u = dropLastChar CL := by
            rw [hx, if_pos hv]
          have hds := strEnds_dropLast_slash hv
          rw [← hx2, hslash] at hds
          exact Bool.false_ne_true hds
    have hxCL : canonicalize_url u = CL := by
      rw [hx, if_neg (by simp [h2s])]
    have hfix : urlencode ((parse_qsl (urlencode PS2)).filter (fun kv => !isTrackingKey kv.1)) =
        urlencode PS2 := by
      rw [parse_qsl_urlencode, hPS2, filter_idem]
    rw [hxCL, hCL] at hsplit hslash ⊢
    exact canonicalize_fixed_of_unsplit parts.scheme (pyLower parts.netloc) parts.path
      (urlencode PS2) hfacts (urlencode_char_facts PS2) hfix r hsplit hhost hlower hslash

/-- Witness for the amended C5: the canonical form of
`"https://Example.COM/jobs?utm_source=x&id=1"` (namely
`"https://example.com/jobs?id=1"`) has the non-empty lower-case host
`example.com` and no trailing slash, and canonicalizing again changes
nothing. -/
theorem canonicalize_url_idempotent_on_hosted_witness :
    canonicalize_url (canonicalize_url "https://Example.COM/jobs?utm_source=x&id=1") =
      canonicalize_url "https://Example.COM/jobs?utm_source=x&id=1" :=
  canonicalize_url_idempotent_on_hosted "https://Example.COM/jobs?utm_source=x&id=1"
    ⟨"https", "example.com", "/jobs", "id=1", ""⟩ (by decide) (by decide) (by decide) (by decide)

end JobCrawler
